import Mathlib

/-!
# Parallel marching squares (`tema1_par.c`)

A shallow embedding of the worker function `func`, of `update_image` and of the
buffer selection made by `main`, followed by the properties proved about them.

Modelling conventions.

* C `int` values that are never negative in the program (dimensions, loop
  counters, worker ids, step sizes) are natural numbers.  The two index
  expressions that subtract one (`x - 1`) are evaluated in `Int`.
* Arithmetic on `int` is unbounded: signed overflow is undefined in C, and it
  cannot occur on the buffers `main` hands to `func`, whose dimensions are at
  most 2048 x 2048.
* Every memory access is bounds checked.  An access outside its buffer, a
  division by zero and a worker count of zero are undefined behaviour in C;
  the model returns `none` for them, and `none` propagates.
* A `for` loop is `forRange lo hi body`; the state threaded through the loop
  is the memory the loop writes.
* The range bounds of a worker are written in C as
  `id * (double)N / P` truncated to `int`.  `range_start_double` and
  `range_end_double` compute them with the two roundings of binary64
  arithmetic; `range_start` and `range_end` are the integer quotients, which
  `range_double_exact` proves equal to them whenever `P * N < 2^53`.  The
  phases of `func` use the integer quotients: `main` passes domains of at most
  2048 indices and an `int` worker count, so `P * N < 2^42` there.
-/

namespace MarchingSquares

/-! ## Constants -/

/-- Number of contour tiles, `#define CONTOUR_CONFIG_COUNT 16`. -/
def CONTOUR_CONFIG_COUNT : Nat := 16

/-- Sampling step, `#define STEP 8`. -/
def STEP : Nat := 8

/-- Brightness threshold, `#define SIGMA 200`. -/
def SIGMA : Nat := 200

/-- Maximum number of rows before rescaling, `#define RESCALE_X 2048`. -/
def RESCALE_X : Nat := 2048

/-- Maximum number of columns before rescaling, `#define RESCALE_Y 2048`. -/
def RESCALE_Y : Nat := 2048

/-! ## Data model -/

/-- Modelled from the spec: the declaration of `ppm_pixel` lives in `helpers.h`,
which is not part of the sources; the spec describes a pixel as an RGB triple
whose channels are 8-bit unsigned integers. -/
structure ppm_pixel where
  red : Fin 256
  green : Fin 256
  blue : Fin 256
deriving DecidableEq, Repr

/-- Modelled from the spec: the declaration of `ppm_image` lives in `helpers.h`;
the code uses the fields `x`, `y` and `data`, and addresses the pixel in row `r`
and column `c` as `data[r * y + c]`. -/
structure ppm_image where
  x : Nat
  y : Nat
  data : List ppm_pixel
deriving DecidableEq, Repr

/-- The grid `unsigned char **grid`: a list of separately allocated rows. -/
abbrev Grid := List (List Nat)

/-- The function `int min(int a, int b)` of the source. -/
def min (a b : Nat) : Nat := if a < b then a else b

/-! ## Loops and memory accesses -/

/-- Runs `body lo`, `body (lo+1)`, ... for `n` iterations, stopping at the first
failure. -/
def forLoop {σ : Type} (body : Nat → σ → Option σ) : Nat → Nat → σ → Option σ
  | 0, _, s => some s
  | n + 1, lo, s =>
    match body lo s with
    | none => none
    | some s1 => forLoop body n (lo + 1) s1

/-- The loop `for (int i = lo; i < hi; i++) body`. -/
def forRange {σ : Type} (lo hi : Nat) (body : Nat → σ → Option σ) (s : σ) : Option σ :=
  forLoop body (hi - lo) lo s

/-- Read of `grid[i][j]`. -/
def grid_get (grid : Grid) (i j : Nat) : Option Nat :=
  match grid[i]? with
  | none => none
  | some row => row[j]?

/-- Store `grid[i][j] = v`. -/
def grid_set (grid : Grid) (i j v : Nat) : Option Grid :=
  match grid[i]? with
  | none => none
  | some row => if j < row.length then some (grid.set i (row.set j v)) else none

/-- Read of `data[idx]` for a signed index. -/
def pixel_at (data : List ppm_pixel) (idx : Int) : Option ppm_pixel :=
  if idx < 0 then none else data[idx.toNat]?

/-- Store of a whole pixel into `image->data[idx]`; the dimensions are kept. -/
def pixel_set (image : ppm_image) (idx : Nat) (px : ppm_pixel) : Option ppm_image :=
  if idx < image.data.length then
    some ⟨image.x, image.y, image.data.set idx px⟩
  else none

/-! ## `update_image` (lines 57-68) -/

/-- Body of the inner loop of `update_image`: the three channels of the contour
pixel are read and stored into the image pixel. -/
def update_pixel (contour : ppm_image) (x y i j : Nat) (image : ppm_image) : Option ppm_image :=
  let contour_pixel_index := contour.x * i + j
  let image_pixel_index := (x + i) * image.y + y + j
  match contour.data[contour_pixel_index]? with
  | none => none
  | some c => pixel_set image image_pixel_index ⟨c.red, c.green, c.blue⟩

/-- The function `update_image(image, contour, x, y)`. -/
def update_image (image contour : ppm_image) (x y : Nat) : Option ppm_image :=
  forRange 0 contour.x (fun i img =>
    forRange 0 contour.y (fun j img1 => update_pixel contour x y i j img1) img) image

/-! ## The phases of `func` (lines 89-176) -/

/-- First index of worker `id` among `P` workers over a domain of size `N`:
the integer quotient `id * N / P`.  The source computes
`id * (double)N / P` and truncates it, which is `range_start_double`; the two
agree when `P * N < 2^53` (`range_double_exact`). -/
def range_start (id N P : Nat) : Nat := id * N / P

/-- End index (exclusive) of worker `id`: `min` of the integer quotient
`(id + 1) * N / P` and `N`.  The source computes
`min((id + 1) * (double)N / P, N)`, which is `range_end_double`; the two agree
when `P * N < 2^53` (`range_double_exact`). -/
def range_end (id N P : Nat) : Nat := min ((id + 1) * N / P) N

/-! ### The range bounds in double precision

The operands `id`, `N` and `P` are `int` values, which convert to `double`
exactly.  The product is rounded to the nearest binary64 number (53 significant
bits, ties to even), the quotient is rounded again, and the conversion to `int`
truncates. -/

/-- The integer nearest to `a / b`, ties to the even one (`b > 0`). -/
def round_half_even (a b : Nat) : Nat :=
  let q := a / b
  let r := a % b
  if 2 * r < b then q else if b < 2 * r then q + 1 else if q % 2 = 0 then q else q + 1

/-- Number of halvings that bring `n` below 2, with at most `fuel` steps. -/
def log2_floor_aux : Nat → Nat → Nat
  | 0, _ => 0
  | fuel + 1, n => if n < 2 then 0 else log2_floor_aux fuel (n / 2) + 1

/-- The exponent of the leading bit of `n`: the largest `k` with `2^k ≤ n`,
and 0 for `n = 0`. -/
def log2_floor (n : Nat) : Nat := log2_floor_aux n n

/-- The binary64 number nearest to the natural number `m`: `m` itself below
`2^53`, otherwise `m` rounded to a multiple of `2^(log2_floor m - 52)`. -/
def double_of_nat (m : Nat) : Nat :=
  let s := log2_floor m - 52
  round_half_even m (2 ^ s) * 2 ^ s

/-- The truncation to an integer of the binary64 quotient of the integers `x`
and `P` (both exactly representable, `P > 0`): with `2^E ≤ x / P < 2^(E+1)` the
quotient is rounded to a multiple of `2^(E - 52)`; here `a - b = 52 - E`. -/
def double_div_trunc (x P : Nat) : Nat :=
  if x = 0 then 0 else
  let b := log2_floor x
  let a := if x * 2 ^ log2_floor P < P * 2 ^ b then 53 + log2_floor P else 52 + log2_floor P
  round_half_even (x * 2 ^ a) (P * 2 ^ b) * 2 ^ b / 2 ^ a

/-- The value of `int start = id * (double)N / P` (lines 97, 118, 150). -/
def range_start_double (id N P : Nat) : Nat :=
  double_div_trunc (double_of_nat (id * N)) P

/-- The value of `int end = min((id + 1) * (double)N / P, N)` (lines 98, 119,
151). -/
def range_end_double (id N P : Nat) : Nat :=
  min (double_div_trunc (double_of_nat ((id + 1) * N)) P) N

/-- The value stored in the grid for a sampled pixel (lines 125-131):
`curr_color` is an `unsigned char`. -/
def threshold (curr_pixel : ppm_pixel) : Nat :=
  let curr_color := ((curr_pixel.red.val + curr_pixel.green.val + curr_pixel.blue.val) / 3) % 256
  if curr_color > SIGMA then 0 else 1

/-- One sampling step: read the pixel at `idx`, store its thresholded
brightness in `grid[i][j]`. -/
def sample_cell (image : ppm_image) (idx : Int) (i j : Nat) (grid : Grid) : Option Grid :=
  match pixel_at image.data idx with
  | none => none
  | some curr_pixel => grid_set grid i j (threshold curr_pixel)

/-- Phase 2 of `func` for one worker (lines 114-162), up to the barrier. -/
def sample_phase (scaled_image : ppm_image) (step_x step_y P id : Nat) (grid : Grid) :
    Option Grid :=
  if step_x = 0 ∨ step_y = 0 ∨ P = 0 then none else
  let p := scaled_image.x / step_x
  let q := scaled_image.y / step_y
  let start_p := range_start id p P
  let end_p := range_end id p P
  match forRange start_p end_p (fun i g =>
      forRange 0 q (fun j g1 =>
        sample_cell scaled_image ((i * step_x * scaled_image.y + j * step_y : Nat) : Int) i j g1) g)
      grid with
  | none => none
  | some g1 =>
  match grid_set g1 p q 0 with
  | none => none
  | some g2 =>
  match forRange start_p end_p (fun i g =>
      sample_cell scaled_image
        ((i * step_x * scaled_image.y + scaled_image.x : Nat) - 1 : Int) i q g) g2 with
  | none => none
  | some g3 =>
  let start_q := range_start id q P
  let end_q := range_end id q P
  forRange start_q end_q (fun j g =>
      sample_cell scaled_image
        (((scaled_image.x : Int) - 1) * scaled_image.y + (j * step_y : Nat)) p j g) g3

/-- The configuration index of line 169, stored in an `unsigned char`. -/
def config_index (tl tr br bl : Nat) : Nat := (8 * tl + 4 * tr + 2 * br + 1 * bl) % 256

/-- Body of the marching loop (lines 169-170) for the cell `(i, j)`. -/
def march_cell (contour_map : List ppm_image) (grid : Grid) (step_x step_y i j : Nat)
    (scaled_image : ppm_image) : Option ppm_image :=
  match grid_get grid i j, grid_get grid i (j + 1), grid_get grid (i + 1) (j + 1),
      grid_get grid (i + 1) j with
  | some tl, some tr, some br, some bl =>
    match contour_map[config_index tl tr br bl]? with
    | none => none
    | some tile => update_image scaled_image tile (i * step_x) (j * step_y)
  | _, _, _, _ => none

/-- Phase 3 of `func` for one worker (lines 166-172).  The bounds `p`, `q`,
`start_p`, `end_p` are the ones computed in phase 2; `update_image` does not
change the dimensions they are computed from. -/
def march_phase (contour_map : List ppm_image) (grid : Grid) (step_x step_y P id : Nat)
    (scaled_image : ppm_image) : Option ppm_image :=
  if step_x = 0 ∨ step_y = 0 ∨ P = 0 then none else
  let p := scaled_image.x / step_x
  let q := scaled_image.y / step_y
  let start_p := range_start id p P
  let end_p := range_end id p P
  forRange start_p end_p (fun i img =>
    forRange 0 q (fun j img1 => march_cell contour_map grid step_x step_y i j img1) img)
    scaled_image

/-- Phase 1 of `func` for one worker (lines 92-111).  `sample_bicubic image i j X Y`
stands for the three bytes that `sample_bicubic(image, u, v, sample)` of
`helpers.h` produces at `u = i / (X - 1)`, `v = j / (Y - 1)`; the helper is not
part of the sources and computes in floating point, so it is a parameter. -/
def rescale_phase (sample_bicubic : ppm_image → Nat → Nat → Nat → Nat → ppm_pixel)
    (image : ppm_image) (P id : Nat) (scaled_image : ppm_image) : Option ppm_image :=
  if ¬ (image.x ≤ RESCALE_X ∧ image.y ≤ RESCALE_Y) then
    if P = 0 then none else
    let start := range_start id scaled_image.y P
    let end_ := range_end id scaled_image.y P
    forRange 0 scaled_image.x (fun i simg =>
      forRange start end_ (fun j simg1 =>
        let sample := sample_bicubic image i j simg1.x simg1.y
        pixel_set simg1 (i * simg1.y + j) ⟨sample.red, sample.green, sample.blue⟩) simg)
      scaled_image
  else some scaled_image

/-- The buffer `scaled_image` chosen by `main` (lines 191-210): the image itself
when it fits, otherwise a new `RESCALE_X` by `RESCALE_Y` buffer whose
uninitialised contents are `fresh`. -/
def select_scaled (image : ppm_image) (fresh : List ppm_pixel) : ppm_image :=
  if image.x ≤ RESCALE_X ∧ image.y ≤ RESCALE_Y then image
  else ⟨RESCALE_X, RESCALE_Y, fresh⟩

/-! ## The barrier schedule

Between two barriers the workers `0, ..., P-1` run their phase one after the
other; a phase starts when every worker has finished the previous one. -/

/-- Phase 1 of all workers. -/
def rescale_all (sample_bicubic : ppm_image → Nat → Nat → Nat → Nat → ppm_pixel)
    (image : ppm_image) (P : Nat) (scaled_image : ppm_image) : Option ppm_image :=
  forRange 0 P (fun id simg => rescale_phase sample_bicubic image P id simg) scaled_image

/-- Phase 2 of all workers. -/
def sample_all (scaled_image : ppm_image) (step_x step_y P : Nat) (grid : Grid) : Option Grid :=
  forRange 0 P (fun id g => sample_phase scaled_image step_x step_y P id g) grid

/-- Phase 3 of all workers. -/
def march_all (contour_map : List ppm_image) (grid : Grid) (step_x step_y P : Nat)
    (scaled_image : ppm_image) : Option ppm_image :=
  forRange 0 P (fun id img => march_phase contour_map grid step_x step_y P id img) scaled_image

/-- Phases 2 and 3 of all workers: the final grid and the final pixel buffer. -/
def sample_then_march (contour_map : List ppm_image) (step_x step_y P : Nat)
    (scaled_image : ppm_image) (grid : Grid) : Option (Grid × ppm_image) :=
  match sample_all scaled_image step_x step_y P grid with
  | none => none
  | some g =>
    match march_all contour_map g step_x step_y P scaled_image with
    | none => none
    | some img => some (g, img)

/-! ## Write traces

A phase is a sequence of stores whose values do not depend on the memory being
written.  `runOps` executes such a sequence; the lemmas below show that each
phase equals `runOps` of its trace, so that a result can be read off the set of
stores. -/

/-- A bounds-checked memory with addresses `α` and values `β`. -/
structure Store (σ α β τ : Type) where
  get : σ → α → Option β
  set : σ → α → β → Option σ
  shape : σ → τ

/-- A store of `val` at `addr`; `val = none` records that a read feeding the
store was out of bounds. -/
structure WriteOp (α β : Type) where
  addr : α
  val : Option β

/-- Executes a list of stores in order. -/
def runOps {σ α β τ : Type} (S : Store σ α β τ) : List (WriteOp α β) → σ → Option σ
  | [], s => some s
  | op :: rest, s =>
    match op.val with
    | none => none
    | some v =>
      match S.set s op.addr v with
      | none => none
      | some s1 => runOps S rest s1

/-- The laws of a bounds-checked memory: a store succeeds exactly on the
addresses that can be read, changes only the address written, keeps the shape,
and two memories of the same shape with the same contents are equal. -/
structure Store.Lawful {σ α β τ : Type} [DecidableEq α] (S : Store σ α β τ) : Prop where
  set_eq_none : ∀ s a v, S.set s a v = none ↔ S.get s a = none
  get_set : ∀ s a v s1, S.set s a v = some s1 →
    ∀ b, S.get s1 b = if b = a then some v else S.get s b
  shape_set : ∀ s a v s1, S.set s a v = some s1 → S.shape s1 = S.shape s
  ext : ∀ s s1, S.shape s = S.shape s1 → (∀ b, S.get s b = S.get s1 b) → s = s1

/-- A list of stores is functional when stores to one address agree on the value. -/
def Functional {α β : Type} (l : List (WriteOp α β)) : Prop :=
  ∀ op ∈ l, ∀ op1 ∈ l, op.addr = op1.addr → op.val = op1.val

/-- The grid as a store addressed by `(i, j)`. -/
def gridStore : Store Grid (Nat × Nat) Nat (List Nat) where
  get := fun g a => grid_get g a.1 a.2
  set := fun g a v => grid_set g a.1 a.2 v
  shape := fun g => g.map List.length

/-- The pixel buffer as a store addressed by the pixel index. -/
def imageStore : Store ppm_image Nat ppm_pixel (Nat × Nat) where
  get := fun img idx => img.data[idx]?
  set := fun img idx px => pixel_set img idx px
  shape := fun img => (img.x, img.y)

/-- One step of the sample phase: the pixel index it reads (`none` for the
constant store of line 134) and the grid cell it writes. -/
structure SampleStep where
  src : Option Int
  i : Nat
  j : Nat
deriving DecidableEq, Repr

/-- The store performed by a sampling step. -/
def SampleStep.toOp (image : ppm_image) (st : SampleStep) : WriteOp (Nat × Nat) Nat :=
  match st.src with
  | none => ⟨(st.i, st.j), some 0⟩
  | some idx => ⟨(st.i, st.j), (pixel_at image.data idx).map threshold⟩

/-- The steps of `sample_phase` for worker `id`, in program order. -/
def sample_trace (scaled_image : ppm_image) (step_x step_y P id : Nat) : List SampleStep :=
  let p := scaled_image.x / step_x
  let q := scaled_image.y / step_y
  let start_p := range_start id p P
  let end_p := range_end id p P
  let start_q := range_start id q P
  let end_q := range_end id q P
  (List.range' start_p (end_p - start_p)).flatMap (fun i =>
      (List.range' 0 (q - 0)).map (fun j =>
        ⟨some ((i * step_x * scaled_image.y + j * step_y : Nat) : Int), i, j⟩))
    ++ [⟨none, p, q⟩]
    ++ (List.range' start_p (end_p - start_p)).map (fun i =>
        ⟨some ((i * step_x * scaled_image.y + scaled_image.x : Nat) - 1 : Int), i, q⟩)
    ++ (List.range' start_q (end_q - start_q)).map (fun j =>
        ⟨some (((scaled_image.x : Int) - 1) * scaled_image.y + (j * step_y : Nat)), p, j⟩)

/-- The steps of the sample phase of all workers `0, ..., P-1`. -/
def sample_trace_all (scaled_image : ppm_image) (step_x step_y P : Nat) : List SampleStep :=
  (List.range' 0 (P - 0)).flatMap (fun id => sample_trace scaled_image step_x step_y P id)

/-- The steps that the sample phase performs on an image, whoever performs
them: one per interior cell, the constant store to the corner, one per cell of
the boundary column and one per cell of the boundary row. -/
def IsSampleStep (img : ppm_image) (step_x step_y : Nat) (st : SampleStep) : Prop :=
  (∃ i j, i < img.x / step_x ∧ j < img.y / step_y ∧
      st = ⟨some ((i * step_x * img.y + j * step_y : Nat) : Int), i, j⟩) ∨
  st = ⟨none, img.x / step_x, img.y / step_y⟩ ∨
  (∃ i, i < img.x / step_x ∧
      st = ⟨some ((i * step_x * img.y + img.x : Nat) - 1 : Int), i, img.y / step_y⟩) ∨
  (∃ j, j < img.y / step_y ∧
      st = ⟨some (((img.x : Int) - 1) * img.y + (j * step_y : Nat)), img.x / step_x, j⟩)

/-- Conditions under which every access of the sample phase is in bounds: the
steps are positive, the buffer holds `x * y` pixels and at least one row, the
index `i * step_x * y + x - 1` read for the boundary column stays inside the
buffer, and the grid has the `(p + 1)` rows of `(q + 1)` cells that `main`
allocates (lines 212-228). -/
def SampleReady (img : ppm_image) (step_x step_y : Nat) (grid : Grid) : Prop :=
  1 ≤ step_x ∧ 1 ≤ step_y ∧ img.data.length = img.x * img.y ∧ 1 ≤ img.x ∧
  (∀ i, i < img.x / step_x → i * step_x * img.y + img.x ≤ img.x * img.y) ∧
  grid.map List.length = List.replicate (img.x / step_x + 1) (img.y / step_y + 1)

/-- The stores of one call `update_image(image, contour, x, y)` on an image with
`Y` columns. -/
def update_ops (contour : ppm_image) (x y Y : Nat) : List (WriteOp Nat ppm_pixel) :=
  (List.range' 0 (contour.x - 0)).flatMap (fun i =>
    (List.range' 0 (contour.y - 0)).map (fun j =>
      ⟨(x + i) * Y + y + j, contour.data[contour.x * i + j]?⟩))

/-- The tile selected for the cell `(i, j)`, if the four grid reads and the
catalog lookup are in bounds. -/
def tile_at (contour_map : List ppm_image) (grid : Grid) (i j : Nat) : Option ppm_image :=
  match grid_get grid i j, grid_get grid i (j + 1), grid_get grid (i + 1) (j + 1),
      grid_get grid (i + 1) j with
  | some tl, some tr, some br, some bl => contour_map[config_index tl tr br bl]?
  | _, _, _, _ => none

/-- The stores of the marching step for the cell `(i, j)`; a failed grid read or
catalog lookup is recorded as a failing store. -/
def march_cell_ops (contour_map : List ppm_image) (grid : Grid) (step_x step_y Y i j : Nat) :
    List (WriteOp Nat ppm_pixel) :=
  match tile_at contour_map grid i j with
  | none => [⟨0, none⟩]
  | some tile => update_ops tile (i * step_x) (j * step_y) Y

/-- The stores of the march phase of the grid rows `lo, ..., lo + n - 1`. -/
def march_rows_ops (contour_map : List ppm_image) (grid : Grid) (step_x step_y Y q lo n : Nat) :
    List (WriteOp Nat ppm_pixel) :=
  (List.range' lo n).flatMap (fun i =>
    (List.range' 0 (q - 0)).flatMap (fun j =>
      march_cell_ops contour_map grid step_x step_y Y i j))

/-- Every interior cell `(i, j)` selects a tile, and that tile has `step_x` rows
and `step_y` columns. -/
def TilesResolved (contour_map : List ppm_image) (grid : Grid) (step_x step_y p q : Nat) :
    Prop :=
  ∀ i j, i < p → j < q →
    ∃ tile, tile_at contour_map grid i j = some tile ∧ tile.x = step_x ∧ tile.y = step_y

/-- The pixel indices of the region of worker `id` in the march phase: the
pixels `(r, c)`, stored at `r * y + c`, with
`start_p * step_x ≤ r < end_p * step_x` and `c < q * step_y`. -/
def march_region (img : ppm_image) (step_x step_y P id : Nat) (idx : Nat) : Prop :=
  ∃ r c, range_start id (img.x / step_x) P * step_x ≤ r ∧
    r < range_end id (img.x / step_x) P * step_x ∧
    c < img.y / step_y * step_y ∧ idx = r * img.y + c

/-! ## `main` (lines 178-287) -/

/-- The observable actions of `main`, in program order: the usage message,
reading the input image, loading the tile catalog, creating and joining the
worker with a given index, and writing a buffer to the output file. -/
inductive Event where
  | print_usage
  | read_ppm
  | init_contour_map
  | pthread_create (i : Nat)
  | pthread_join (i : Nat)
  | write_ppm (image : ppm_image)
deriving DecidableEq, Repr

/-- The exit status of `main` and the actions it performed. -/
structure MainResult where
  status : Int
  events : List Event
deriving DecidableEq, Repr

/-- The grid allocated by `main` (lines 212-228): `p + 1` rows of `q + 1` cells
whose uninitialised contents are `junk`. -/
def alloc_grid (p q : Nat) (junk : Nat → Nat → Nat) : Grid :=
  (List.range (p + 1)).map (fun i => (List.range (q + 1)).map (fun j => junk i j))

/-- The three phases of all workers, separated by the barriers: the final grid
and the final contents of `scaled_image`. -/
def func_all (sample_bicubic : ppm_image → Nat → Nat → Nat → Nat → ppm_pixel)
    (contour_map : List ppm_image) (step_x step_y P : Nat)
    (image scaled_image : ppm_image) (grid : Grid) : Option (Grid × ppm_image) :=
  match rescale_all sample_bicubic image P scaled_image with
  | none => none
  | some s1 => sample_then_march contour_map step_x step_y P s1 grid

/-- The function `main`.  `argc` is the argument count; `image` is what
`read_ppm(argv[1])` returns and `contour_map` what `init_contour_map()` returns
(the model covers the runs in which the files are read, `malloc` succeeds and
the thread library creates and joins every worker; the exits taken otherwise
are not modelled); `fresh` and `junk` are the uninitialised contents of the
buffers allocated for the rescaled image and the grid; `P` is
`atoi(argv[3])`.  The result is `none` when the behaviour is undefined: a
worker count of zero (the barrier is initialised for zero threads and then
destroyed) or an out-of-bounds access of a worker. -/
def main (argc : Nat) (image : ppm_image) (contour_map : List ppm_image)
    (fresh : List ppm_pixel) (junk : Nat → Nat → Nat) (P : Nat)
    (sample_bicubic : ppm_image → Nat → Nat → Nat → Nat → ppm_pixel) : Option MainResult :=
  if argc < 4 then
    some ⟨1, [Event.print_usage]⟩
  else if P = 0 then
    none
  else
    let step_x := STEP
    let step_y := STEP
    let scaled_image := select_scaled image fresh
    let p := scaled_image.x / step_x
    let q := scaled_image.y / step_y
    let grid := alloc_grid p q junk
    match func_all sample_bicubic contour_map step_x step_y P image scaled_image grid with
    | none => none
    | some (_, out) =>
      some ⟨0, [Event.read_ppm, Event.init_contour_map]
        ++ (List.range P).map Event.pthread_create
        ++ (List.range P).map Event.pthread_join
        ++ [Event.write_ppm out]⟩

/-! ## Concrete inputs -/

/-- The pixel (0, 0, 0). -/
def black : ppm_pixel := ⟨0, 0, 0⟩

/-- The pixel (255, 255, 255). -/
def white : ppm_pixel := ⟨255, 255, 255⟩

/-- A one-pixel black image. -/
def image_1x1 : ppm_image := ⟨1, 1, [black]⟩

/-- A 2 by 2 grid with arbitrary (uninitialised) contents. -/
def grid_2x2 : Grid := [[7, 7], [7, 7]]

/-- An image of one row and two columns: a white pixel, then a black pixel. -/
def image_1x2 : ppm_image := ⟨1, 2, [white, black]⟩

/-- A 2 by 3 grid with arbitrary (uninitialised) contents. -/
def grid_2x3 : Grid := [[7, 7, 7], [7, 7, 7]]

/-- An image of two rows and one column. -/
def image_2x1 : ppm_image := ⟨2, 1, [black, white]⟩

/-- A 3 by 2 grid with arbitrary (uninitialised) contents. -/
def grid_3x2 : Grid := [[7, 7], [7, 7], [7, 7]]

/-- The gray pixel `(k, k, k)`. -/
def gray (k : Fin 256) : ppm_pixel := ⟨k, k, k⟩

/-- A tile of two rows and three columns with six different pixels. -/
def tile_2x3 : ppm_image := ⟨2, 3, [gray 10, gray 20, gray 30, gray 40, gray 50, gray 60]⟩

/-- A black image of two rows and three columns. -/
def canvas_2x3 : ppm_image := ⟨2, 3, [black, black, black, black, black, black]⟩

/-- The 16 by 16 image whose pixels are all (0, 0, 0). -/
def image_16x16_black : ppm_image := ⟨16, 16, List.replicate 256 black⟩

/-- A 3 by 3 grid with arbitrary (uninitialised) contents. -/
def grid_3x3 : Grid := [[7, 7, 7], [7, 7, 7], [7, 7, 7]]

/-- The grid that the sample phase leaves for the one-pixel black image. -/
def grid_sampled_1x1 : Grid := [[1, 1], [1, 0]]

/-- A source image of 4096 by 4096 black pixels. -/
def image_4096 : ppm_image := ⟨4096, 4096, List.replicate (4096 * 4096) black⟩

/-- A black tile of 8 by 8 pixels. -/
def tile_8x8 : ppm_image := ⟨8, 8, List.replicate 64 black⟩

/-- A dark image of two rows and two columns with four different pixels. -/
def image_2x2 : ppm_image := ⟨2, 2, [gray 10, gray 20, gray 30, gray 40]⟩

/-- The grid that the sample phase leaves for `image_2x2` with step 1. -/
def grid_sampled_2x2 : Grid := [[1, 1, 1], [1, 1, 1], [1, 1, 0]]

/-- A white tile of one pixel. -/
def tile_1x1_white : ppm_image := ⟨1, 1, [white]⟩

/-! ## Loop lemmas -/

theorem forLoop_add {σ : Type} (body : Nat → σ → Option σ) (m n lo : Nat) (s : σ) :
    forLoop body (m + n) lo s = (forLoop body m lo s).bind (forLoop body n (lo + m)) := by
  induction m generalizing lo s with
  | zero => simp [forLoop]
  | succ m ih =>
    have h : m + 1 + n = (m + n) + 1 := by omega
    rw [h]
    simp only [forLoop]
    cases hb : body lo s with
    | none => simp
    | some s1 =>
      simp only []
      rw [ih]
      have h2 : lo + 1 + m = lo + (m + 1) := by omega
      rw [h2]

theorem forRange_split {σ : Type} (body : Nat → σ → Option σ) (a b c : Nat) (s : σ)
    (hab : a ≤ b) (hbc : b ≤ c) :
    forRange a c body s = (forRange a b body s).bind (forRange b c body) := by
  unfold forRange
  have h : c - a = (b - a) + (c - b) := by omega
  rw [h, forLoop_add]
  have h2 : a + (b - a) = b := by omega
  rw [h2]

theorem runOps_append {σ α β τ : Type} (S : Store σ α β τ) (l1 l2 : List (WriteOp α β)) (s : σ) :
    runOps S (l1 ++ l2) s = (runOps S l1 s).bind (runOps S l2) := by
  induction l1 generalizing s with
  | nil => simp [runOps]
  | cons op rest ih =>
    simp only [List.cons_append, runOps]
    cases op.val with
    | none => simp
    | some v =>
      simp only []
      cases S.set s op.addr v with
      | none => simp
      | some s1 => simp only []; exact ih s1

theorem forLoop_runOps {σ α β τ : Type} (S : Store σ α β τ) (body : Nat → σ → Option σ)
    (f : Nat → List (WriteOp α β)) (h : ∀ i s, body i s = runOps S (f i) s)
    (n lo : Nat) (s : σ) :
    forLoop body n lo s = runOps S ((List.range' lo n).flatMap f) s := by
  induction n generalizing lo s with
  | zero => simp [forLoop, runOps]
  | succ n ih =>
    simp only [forLoop, List.range'_succ, List.flatMap_cons, runOps_append]
    rw [h]
    cases runOps S (f lo) s with
    | none => simp
    | some s1 => simp only [Option.some_bind]; exact ih (lo + 1) s1

theorem forLoop_runOps_map {σ α β τ : Type} (S : Store σ α β τ) (body : Nat → σ → Option σ)
    (f : Nat → WriteOp α β) (h : ∀ i s, body i s = runOps S [f i] s)
    (n lo : Nat) (s : σ) :
    forLoop body n lo s = runOps S ((List.range' lo n).map f) s := by
  rw [forLoop_runOps S body (fun i => [f i]) h]
  congr 1
  induction List.range' lo n with
  | nil => rfl
  | cons a l ih => simp [List.flatMap_cons, ih]

/-! ## Semantics of a list of stores -/

theorem Store.Lawful.get_set_none {σ α β τ : Type} [DecidableEq α] {S : Store σ α β τ}
    (hS : S.Lawful) {s s1 : σ} {a : α} {v : β} (h : S.set s a v = some s1) (b : α) :
    S.get s1 b = none ↔ S.get s b = none := by
  rw [hS.get_set s a v s1 h b]
  by_cases hb : b = a
  · subst hb
    have h1 : S.get s b ≠ none := by
      intro hn
      have := (hS.set_eq_none s b v).mpr hn
      rw [this] at h
      exact Option.noConfusion h
    simp [h1]
  · simp [hb]

theorem runOps_eq_none_iff {σ α β τ : Type} [DecidableEq α] {S : Store σ α β τ}
    (hS : S.Lawful) (l : List (WriteOp α β)) (s : σ) :
    runOps S l s = none ↔ ∃ op ∈ l, op.val = none ∨ S.get s op.addr = none := by
  induction l generalizing s with
  | nil => simp [runOps]
  | cons op rest ih =>
    simp only [runOps, List.mem_cons, exists_eq_or_imp]
    cases hv : op.val with
    | none => simp
    | some v =>
      simp only []
      cases hset : S.set s op.addr v with
      | none =>
        have := (hS.set_eq_none s op.addr v).mp hset
        simp [this]
      | some s1 =>
        simp only []
        have hne : S.get s op.addr ≠ none := by
          intro hn
          have := (hS.set_eq_none s op.addr v).mpr hn
          rw [this] at hset
          exact Option.noConfusion hset
        rw [ih s1]
        constructor
        · rintro ⟨o, ho, h⟩
          right
          refine ⟨o, ho, ?_⟩
          rcases h with h | h
          · exact Or.inl h
          · exact Or.inr ((hS.get_set_none hset o.addr).mp h)
        · rintro (h | ⟨o, ho, h⟩)
          · rcases h with h | h
            · exact Option.noConfusion h
            · exact absurd h hne
          · refine ⟨o, ho, ?_⟩
            rcases h with h | h
            · exact Or.inl h
            · exact Or.inr ((hS.get_set_none hset o.addr).mpr h)

theorem runOps_shape {σ α β τ : Type} [DecidableEq α] {S : Store σ α β τ}
    (hS : S.Lawful) (l : List (WriteOp α β)) (s s1 : σ) (h : runOps S l s = some s1) :
    S.shape s1 = S.shape s := by
  induction l generalizing s with
  | nil => simp [runOps] at h; rw [h]
  | cons op rest ih =>
    simp only [runOps] at h
    cases hv : op.val with
    | none => rw [hv] at h; exact Option.noConfusion h
    | some v =>
      rw [hv] at h
      simp only [] at h
      cases hset : S.set s op.addr v with
      | none => rw [hset] at h; exact Option.noConfusion h
      | some s2 =>
        rw [hset] at h
        simp only [] at h
        rw [ih s2 h, hS.shape_set s op.addr v s2 hset]

theorem runOps_get {σ α β τ : Type} [DecidableEq α] {S : Store σ α β τ}
    (hS : S.Lawful) (l : List (WriteOp α β)) (s s1 : σ) (h : runOps S l s = some s1) (b : α) :
    (∃ op ∈ l, op.addr = b ∧ S.get s1 b = op.val) ∨
      ((∀ op ∈ l, op.addr ≠ b) ∧ S.get s1 b = S.get s b) := by
  induction l generalizing s with
  | nil =>
    simp [runOps] at h
    subst h
    right
    simp
  | cons op rest ih =>
    simp only [runOps] at h
    cases hv : op.val with
    | none => rw [hv] at h; exact Option.noConfusion h
    | some v =>
      rw [hv] at h
      simp only [] at h
      cases hset : S.set s op.addr v with
      | none => rw [hset] at h; exact Option.noConfusion h
      | some s2 =>
        rw [hset] at h
        simp only [] at h
        rcases ih s2 h with ⟨o, ho, hab, hg⟩ | ⟨hall, hg⟩
        · exact Or.inl ⟨o, List.mem_cons_of_mem _ ho, hab, hg⟩
        · by_cases hb : op.addr = b
          · left
            refine ⟨op, List.mem_cons_self _ _, hb, ?_⟩
            rw [hg, hS.get_set s op.addr v s2 hset b, hv]
            simp [hb]
          · right
            constructor
            · intro o ho
              rcases List.mem_cons.mp ho with rfl | ho
              · exact hb
              · exact hall o ho
            · rw [hg, hS.get_set s op.addr v s2 hset b]
              have : ¬ b = op.addr := fun e => hb e.symm
              simp [this]

theorem runOps_get_of_mem {σ α β τ : Type} [DecidableEq α] {S : Store σ α β τ}
    (hS : S.Lawful) (l : List (WriteOp α β)) (s s1 : σ) (h : runOps S l s = some s1)
    (hf : Functional l) (op : WriteOp α β) (hop : op ∈ l) :
    S.get s1 op.addr = op.val := by
  rcases runOps_get hS l s s1 h op.addr with ⟨o, ho, hab, hg⟩ | ⟨hall, _⟩
  · rw [hg]
    exact hf o ho op hop hab
  · exact absurd rfl (hall op hop)

theorem runOps_get_frame {σ α β τ : Type} [DecidableEq α] {S : Store σ α β τ}
    (hS : S.Lawful) (l : List (WriteOp α β)) (s s1 : σ) (h : runOps S l s = some s1)
    (b : α) (hb : ∀ op ∈ l, op.addr ≠ b) :
    S.get s1 b = S.get s b := by
  rcases runOps_get hS l s s1 h b with ⟨o, ho, hab, _⟩ | ⟨_, hg⟩
  · exact absurd hab (hb o ho)
  · exact hg

theorem runOps_isSome {σ α β τ : Type} [DecidableEq α] {S : Store σ α β τ}
    (hS : S.Lawful) (l : List (WriteOp α β)) (s : σ)
    (h : ∀ op ∈ l, op.val ≠ none ∧ S.get s op.addr ≠ none) :
    ∃ s1, runOps S l s = some s1 := by
  cases hr : runOps S l s with
  | some s1 => exact ⟨s1, rfl⟩
  | none =>
    rcases (runOps_eq_none_iff hS l s).mp hr with ⟨op, hop, hbad⟩
    rcases hbad with hbad | hbad
    · exact absurd hbad (h op hop).1
    · exact absurd hbad (h op hop).2

theorem runOps_congr {σ α β τ : Type} [DecidableEq α] {S : Store σ α β τ}
    (hS : S.Lawful) (l1 l2 : List (WriteOp α β)) (s : σ)
    (hmem : ∀ op, op ∈ l1 ↔ op ∈ l2) (hf : Functional l1) :
    runOps S l1 s = runOps S l2 s := by
  have hf2 : Functional l2 := fun o ho o1 ho1 e =>
    hf o ((hmem o).mpr ho) o1 ((hmem o1).mpr ho1) e
  cases h1 : runOps S l1 s with
  | none =>
    rcases (runOps_eq_none_iff hS l1 s).mp h1 with ⟨op, hop, hbad⟩
    exact ((runOps_eq_none_iff hS l2 s).mpr ⟨op, (hmem op).mp hop, hbad⟩).symm
  | some s1 =>
    cases h2 : runOps S l2 s with
    | none =>
      rcases (runOps_eq_none_iff hS l2 s).mp h2 with ⟨op, hop, hbad⟩
      have := (runOps_eq_none_iff hS l1 s).mpr ⟨op, (hmem op).mpr hop, hbad⟩
      rw [this] at h1
      exact Option.noConfusion h1
    | some s2 =>
      congr 1
      apply hS.ext
      · rw [runOps_shape hS l1 s s1 h1, runOps_shape hS l2 s s2 h2]
      · intro b
        rcases runOps_get hS l1 s s1 h1 b with ⟨o, ho, hab, hg⟩ | ⟨hall, hg⟩
        · have ho2 : o ∈ l2 := (hmem o).mp ho
          have := runOps_get_of_mem hS l2 s s2 h2 hf2 o ho2
          rw [hab] at this
          rw [hg, this]
        · have hall2 : ∀ op ∈ l2, op.addr ≠ b := fun o ho => hall o ((hmem o).mpr ho)
          rw [hg, runOps_get_frame hS l2 s s2 h2 b hall2]

/-! ## The two memories are lawful -/

theorem imageStore_lawful : imageStore.Lawful where
  set_eq_none := by
    intro img idx px
    simp only [imageStore, pixel_set]
    by_cases h : idx < img.data.length
    · simp [h]
    · simp [h]
      omega
  get_set := by
    intro img idx px s1 h b
    simp only [imageStore, pixel_set] at h ⊢
    by_cases hlt : idx < img.data.length
    · simp only [hlt, if_true, Option.some.injEq] at h
      subst h
      simp only [List.getElem?_set]
      by_cases hb : b = idx
      · subst hb
        simp [hlt]
      · have : ¬ idx = b := fun e => hb e.symm
        simp [hb, this]
    · simp [hlt] at h
  shape_set := by
    intro img idx px s1 h
    simp only [imageStore, pixel_set] at h ⊢
    by_cases hlt : idx < img.data.length
    · simp only [hlt, if_true, Option.some.injEq] at h
      subst h
      rfl
    · simp [hlt] at h
  ext := by
    intro a b hshape hget
    simp only [imageStore, Prod.mk.injEq] at hshape hget
    cases a with
    | mk ax ay ad =>
      cases b with
      | mk bx b_y bd =>
        simp only at hshape hget
        obtain ⟨h1, h2⟩ := hshape
        subst h1
        subst h2
        have : ad = bd := List.ext_getElem? hget
        rw [this]

theorem grid_set_eq_none (g : Grid) (i j v : Nat) :
    grid_set g i j v = none ↔ grid_get g i j = none := by
  unfold grid_set grid_get
  cases g[i]? with
  | none => simp
  | some row =>
    simp only []
    by_cases h : j < row.length
    · simp [h]
    · simp [h]
      omega

theorem grid_get_set (g : Grid) (i j v : Nat) (g1 : Grid) (h : grid_set g i j v = some g1)
    (a b : Nat) :
    grid_get g1 a b = if (a, b) = (i, j) then some v else grid_get g a b := by
  unfold grid_set at h
  cases hrow : g[i]? with
  | none => rw [hrow] at h; exact Option.noConfusion h
  | some row =>
    rw [hrow] at h
    simp only [] at h
    by_cases hj : j < row.length
    · simp only [hj, if_true, Option.some.injEq] at h
      subst h
      have hi : i < g.length := by
        rcases List.getElem?_eq_some_iff.mp hrow with ⟨hi, _⟩
        exact hi
      unfold grid_get
      simp only [List.getElem?_set, Prod.mk.injEq]
      by_cases ha : a = i
      · subst ha
        simp only [if_true, hi, true_and]
        rw [hrow]
        simp only [List.getElem?_set]
        by_cases hb : b = j
        · subst hb
          simp [hj]
        · have : ¬ j = b := fun e => hb e.symm
          simp [hb, this]
      · have : ¬ i = a := fun e => ha e.symm
        simp [ha, this]
    · simp [hj] at h

theorem grid_shape_set (g : Grid) (i j v : Nat) (g1 : Grid) (h : grid_set g i j v = some g1) :
    g1.map List.length = g.map List.length := by
  unfold grid_set at h
  cases hrow : g[i]? with
  | none => rw [hrow] at h; exact Option.noConfusion h
  | some row =>
    rw [hrow] at h
    simp only [] at h
    by_cases hj : j < row.length
    · simp only [hj, if_true, Option.some.injEq] at h
      subst h
      apply List.ext_getElem?
      intro k
      simp only [List.getElem?_map, List.getElem?_set]
      by_cases hk : i = k
      · subst hk
        rw [hrow]
        have hi : i < g.length := by
          rcases List.getElem?_eq_some_iff.mp hrow with ⟨hi, _⟩
          exact hi
        simp [hi]
      · simp [hk]
    · simp [hj] at h

theorem grid_ext (g g1 : Grid) (hshape : g.map List.length = g1.map List.length)
    (hget : ∀ a b, grid_get g a b = grid_get g1 a b) : g = g1 := by
  apply List.ext_getElem?
  intro a
  have hlen : (g.map List.length)[a]? = (g1.map List.length)[a]? := by rw [hshape]
  simp only [List.getElem?_map] at hlen
  cases h1 : g[a]? with
  | none =>
    rw [h1] at hlen
    cases h2 : g1[a]? with
    | none => rfl
    | some r2 => rw [h2] at hlen; simp at hlen
  | some r1 =>
    rw [h1] at hlen
    cases h2 : g1[a]? with
    | none => rw [h2] at hlen; simp at hlen
    | some r2 =>
      congr 1
      apply List.ext_getElem?
      intro b
      have := hget a b
      unfold grid_get at this
      rw [h1, h2] at this
      exact this

theorem gridStore_lawful : gridStore.Lawful where
  set_eq_none := by
    intro g a v
    exact grid_set_eq_none g a.1 a.2 v
  get_set := by
    intro g a v g1 h b
    have := grid_get_set g a.1 a.2 v g1 h b.1 b.2
    simp only [gridStore]
    rw [this]
  shape_set := by
    intro g a v g1 h
    exact grid_shape_set g a.1 a.2 v g1 h
  ext := by
    intro g g1 hshape hget
    exact grid_ext g g1 hshape (fun a b => hget (a, b))

/-! ## Each phase is the execution of its trace -/

theorem runOps_singleton {σ α β τ : Type} (S : Store σ α β τ) (op : WriteOp α β) (s : σ) :
    runOps S [op] s = match op.val with
      | none => none
      | some v => S.set s op.addr v := by
  simp only [runOps]
  cases op.val with
  | none => rfl
  | some v =>
    simp only []
    cases S.set s op.addr v <;> rfl

theorem forLoop_runOps_shape {σ α β τ : Type} [DecidableEq α] {S : Store σ α β τ}
    (hS : S.Lawful) (t : τ) (body : Nat → σ → Option σ)
    (f : Nat → List (WriteOp α β))
    (h : ∀ i s, S.shape s = t → body i s = runOps S (f i) s)
    (n lo : Nat) (s : σ) (hs : S.shape s = t) :
    forLoop body n lo s = runOps S ((List.range' lo n).flatMap f) s := by
  induction n generalizing lo s with
  | zero => simp [forLoop, runOps]
  | succ n ih =>
    simp only [forLoop, List.range'_succ, List.flatMap_cons, runOps_append]
    rw [h lo s hs]
    cases hr : runOps S (f lo) s with
    | none => simp
    | some s1 =>
      simp only [Option.some_bind]
      exact ih (lo + 1) s1 (by rw [runOps_shape hS _ s s1 hr, hs])

theorem map_eq_flatMap_singleton {γ δ : Type} (f : γ → δ) (l : List γ) :
    l.map f = l.flatMap (fun a => [f a]) := by
  induction l with
  | nil => rfl
  | cons a l ih => simp [List.flatMap_cons, ih]

theorem update_pixel_eq (contour : ppm_image) (x y i j : Nat) (image : ppm_image) :
    update_pixel contour x y i j image =
      runOps imageStore [⟨(x + i) * image.y + y + j, contour.data[contour.x * i + j]?⟩] image := by
  rw [runOps_singleton]
  unfold update_pixel
  simp only []
  cases contour.data[contour.x * i + j]? with
  | none => rfl
  | some c => rfl

theorem update_image_eq (image contour : ppm_image) (x y : Nat) :
    update_image image contour x y = runOps imageStore (update_ops contour x y image.y) image := by
  unfold update_image update_ops forRange
  apply forLoop_runOps_shape imageStore_lawful (image.x, image.y)
  · intro i s hs
    have hy : s.y = image.y := by
      simp only [imageStore, Prod.mk.injEq] at hs
      exact hs.2
    rw [map_eq_flatMap_singleton]
    apply forLoop_runOps_shape imageStore_lawful (image.x, image.y)
    · intro j s1 hs1
      have hy1 : s1.y = image.y := by
        simp only [imageStore, Prod.mk.injEq] at hs1
        exact hs1.2
      rw [update_pixel_eq, hy1]
    · exact hs
  · rfl

theorem march_cell_eq (contour_map : List ppm_image) (grid : Grid) (step_x step_y i j : Nat)
    (img : ppm_image) :
    march_cell contour_map grid step_x step_y i j img =
      runOps imageStore (march_cell_ops contour_map grid step_x step_y img.y i j) img := by
  unfold march_cell march_cell_ops tile_at
  cases grid_get grid i j with
  | none => simp [runOps]
  | some tl =>
    cases grid_get grid i (j + 1) with
    | none => simp [runOps]
    | some tr =>
      cases grid_get grid (i + 1) (j + 1) with
      | none => simp [runOps]
      | some br =>
        cases grid_get grid (i + 1) j with
        | none => simp [runOps]
        | some bl =>
          simp only []
          cases contour_map[config_index tl tr br bl]? with
          | none => simp [runOps]
          | some tile => simp only []; exact update_image_eq img tile _ _

theorem march_rows_eq (contour_map : List ppm_image) (grid : Grid) (step_x step_y q lo n : Nat)
    (img : ppm_image) :
    forLoop (fun i im =>
        forRange 0 q (fun j im1 => march_cell contour_map grid step_x step_y i j im1) im) n lo img
      = runOps imageStore (march_rows_ops contour_map grid step_x step_y img.y q lo n) img := by
  unfold march_rows_ops forRange
  apply forLoop_runOps_shape imageStore_lawful (img.x, img.y)
  · intro i s hs
    have hy : s.y = img.y := by
      simp only [imageStore, Prod.mk.injEq] at hs
      exact hs.2
    apply forLoop_runOps_shape imageStore_lawful (img.x, img.y)
    · intro j s1 hs1
      have hy1 : s1.y = img.y := by
        simp only [imageStore, Prod.mk.injEq] at hs1
        exact hs1.2
      rw [march_cell_eq, hy1]
    · exact hs
  · rfl

theorem sample_cell_eq (image : ppm_image) (idx : Int) (i j : Nat) (grid : Grid) :
    sample_cell image idx i j grid =
      runOps gridStore [SampleStep.toOp image ⟨some idx, i, j⟩] grid := by
  rw [runOps_singleton]
  unfold sample_cell SampleStep.toOp
  simp only []
  cases pixel_at image.data idx with
  | none => rfl
  | some px => rfl

theorem grid_set_zero_eq (image : ppm_image) (i j : Nat) (grid : Grid) :
    grid_set grid i j 0 = runOps gridStore [SampleStep.toOp image ⟨none, i, j⟩] grid := by
  rw [runOps_singleton]
  rfl

theorem sample_phase_eq (img : ppm_image) (step_x step_y P id : Nat) (grid : Grid)
    (hx : step_x ≠ 0) (hy : step_y ≠ 0) (hP : P ≠ 0) :
    sample_phase img step_x step_y P id grid =
      runOps gridStore ((sample_trace img step_x step_y P id).map (SampleStep.toOp img)) grid := by
  unfold sample_phase sample_trace
  simp only [hx, hy, hP, or_self, if_false, List.map_append, runOps_append, List.map_cons,
    List.map_nil, List.map_map, List.map_flatMap]
  have hA : forRange (range_start id (img.x / step_x) P) (range_end id (img.x / step_x) P)
      (fun i g => forRange 0 (img.y / step_y) (fun j g1 =>
        sample_cell img ((i * step_x * img.y + j * step_y : Nat) : Int) i j g1) g) grid
      = runOps gridStore
        ((List.range' (range_start id (img.x / step_x) P)
          (range_end id (img.x / step_x) P - range_start id (img.x / step_x) P)).flatMap
          (fun i => (List.range' 0 (img.y / step_y - 0)).map
            (SampleStep.toOp img ∘ fun j =>
              ⟨some ((i * step_x * img.y + j * step_y : Nat) : Int), i, j⟩))) grid := by
    unfold forRange
    apply forLoop_runOps
    intro i s
    apply forLoop_runOps_map
    intro j s1
    exact sample_cell_eq img _ i j s1
  rw [hA]
  cases runOps gridStore _ grid with
  | none => rfl
  | some g1 =>
    simp only [Option.some_bind]
    rw [grid_set_zero_eq img]
    cases runOps gridStore _ g1 with
    | none => rfl
    | some g2 =>
      simp only [Option.some_bind]
      have hB : ∀ g, forRange (range_start id (img.x / step_x) P)
          (range_end id (img.x / step_x) P)
          (fun i g => sample_cell img
            ((i * step_x * img.y + img.x : Nat) - 1 : Int) i (img.y / step_y) g) g
          = runOps gridStore
            ((List.range' (range_start id (img.x / step_x) P)
              (range_end id (img.x / step_x) P - range_start id (img.x / step_x) P)).map
              (SampleStep.toOp img ∘ fun i =>
                ⟨some ((i * step_x * img.y + img.x : Nat) - 1 : Int), i, img.y / step_y⟩)) g := by
        intro g
        unfold forRange
        apply forLoop_runOps_map
        intro i s1
        exact sample_cell_eq img _ i _ s1
      rw [hB]
      cases runOps gridStore _ g2 with
      | none => rfl
      | some g3 =>
        simp only [Option.some_bind]
        unfold forRange
        apply forLoop_runOps_map
        intro j s1
        exact sample_cell_eq img _ _ j s1

/-! ## The partition of a domain among the workers -/

theorem min_eq_left_of_le (a b : Nat) (h : a ≤ b) : min a b = a := by
  unfold min
  split
  · rfl
  · omega

theorem min_le_right_arg (a b : Nat) : min a b ≤ b := by
  unfold min
  split <;> omega

theorem range_start_zero (N P : Nat) : range_start 0 N P = 0 := by
  simp [range_start]

theorem range_start_last (N P : Nat) (hP : 1 ≤ P) : range_start P N P = N := by
  unfold range_start
  exact Nat.mul_div_cancel_left N (by omega)

theorem range_start_mono (N P : Nat) {a b : Nat} (h : a ≤ b) :
    range_start a N P ≤ range_start b N P := by
  unfold range_start
  exact Nat.div_le_div_right (Nat.mul_le_mul_right N h)

theorem range_start_le (id N P : Nat) (h : id ≤ P) (hP : 1 ≤ P) : range_start id N P ≤ N := by
  have := range_start_mono N P h
  rw [range_start_last N P hP] at this
  exact this

theorem range_end_eq_start_succ (id N P : Nat) (h : id < P) :
    range_end id N P = range_start (id + 1) N P := by
  unfold range_end
  exact min_eq_left_of_le _ _ (range_start_le (id + 1) N P h (by omega))

theorem range_end_le (id N P : Nat) : range_end id N P ≤ N :=
  min_le_right_arg _ _

theorem range_start_le_end (id N P : Nat) (h : id < P) :
    range_start id N P ≤ range_end id N P := by
  rw [range_end_eq_start_succ id N P h]
  exact range_start_mono N P (by omega)

theorem range_cover_below (N P : Nat) (k : Nat) (n : Nat) (hn : n < range_start k N P) :
    ∃ id, id < k ∧ range_start id N P ≤ n ∧ n < range_start (id + 1) N P := by
  induction k with
  | zero => rw [range_start_zero] at hn; omega
  | succ k ih =>
    by_cases h : n < range_start k N P
    · rcases ih h with ⟨id, hid, h1, h2⟩
      exact ⟨id, by omega, h1, h2⟩
    · exact ⟨k, by omega, by omega, hn⟩

theorem range_cover (N P : Nat) (hP : 1 ≤ P) (n : Nat) :
    n < N ↔ ∃ id, id < P ∧ range_start id N P ≤ n ∧ n < range_end id N P := by
  constructor
  · intro hn
    rw [← range_start_last N P hP] at hn
    rcases range_cover_below N P P n hn with ⟨id, hid, h1, h2⟩
    exact ⟨id, hid, h1, by rw [range_end_eq_start_succ id N P hid]; exact h2⟩
  · rintro ⟨id, _, _, h2⟩
    exact lt_of_lt_of_le h2 (range_end_le id N P)

theorem range_disjoint (N P : Nat) (a b n : Nat) (ha : a < P) (hab : a < b)
    (h1 : n < range_end a N P) (h2 : range_start b N P ≤ n) : False := by
  rw [range_end_eq_start_succ a N P ha] at h1
  have := range_start_mono N P (show a + 1 ≤ b by omega)
  omega

theorem flatMap_ranges (N P : Nat) (k : Nat) (hk : k ≤ P) :
    (List.range' 0 k).flatMap
        (fun id => List.range' (range_start id N P) (range_end id N P - range_start id N P))
      = List.range' 0 (range_start k N P) := by
  induction k with
  | zero => simp [range_start_zero]
  | succ k ih =>
    rw [List.range'_1_concat, List.flatMap_append, ih (by omega)]
    simp only [List.flatMap_cons, List.flatMap_nil, List.append_nil, Nat.zero_add]
    rw [range_end_eq_start_succ k N P (by omega)]
    have h := range_start_mono N P (show k ≤ k + 1 by omega)
    have h2 := List.range'_append_1 0 (range_start k N P)
      (range_start (k + 1) N P - range_start k N P)
    rw [Nat.zero_add] at h2
    rw [h2]
    congr 1
    omega

/-! ## The march phase does not depend on the number of workers -/

theorem march_phase_eq (contour_map : List ppm_image) (grid : Grid) (step_x step_y P id : Nat)
    (img : ppm_image) (hx : step_x ≠ 0) (hy : step_y ≠ 0) (hP : P ≠ 0) :
    march_phase contour_map grid step_x step_y P id img =
      runOps imageStore
        (march_rows_ops contour_map grid step_x step_y img.y (img.y / step_y)
          (range_start id (img.x / step_x) P)
          (range_end id (img.x / step_x) P - range_start id (img.x / step_x) P)) img := by
  unfold march_phase
  simp only [hx, hy, hP, or_self, if_false]
  exact march_rows_eq contour_map grid step_x step_y _ _ _ img

theorem march_all_eq (contour_map : List ppm_image) (grid : Grid) (step_x step_y P : Nat)
    (img : ppm_image) (hx : step_x ≠ 0) (hy : step_y ≠ 0) (hP : 1 ≤ P) :
    march_all contour_map grid step_x step_y P img =
      runOps imageStore
        (march_rows_ops contour_map grid step_x step_y img.y (img.y / step_y) 0
          (img.x / step_x)) img := by
  have hP0 : P ≠ 0 := by omega
  unfold march_all forRange
  rw [forLoop_runOps_shape imageStore_lawful (img.x, img.y)
    (fun id im => march_phase contour_map grid step_x step_y P id im)
    (fun id => march_rows_ops contour_map grid step_x step_y img.y (img.y / step_y)
          (range_start id (img.x / step_x) P)
          (range_end id (img.x / step_x) P - range_start id (img.x / step_x) P))
    _ (P - 0) 0 img rfl]
  · congr 1
    unfold march_rows_ops
    rw [← List.flatMap_assoc]
    rw [Nat.sub_zero, flatMap_ranges (img.x / step_x) P P (le_refl P),
      range_start_last _ P hP]
  · intro id s hs
    simp only [imageStore, Prod.mk.injEq] at hs
    show march_phase contour_map grid step_x step_y P id s = _
    rw [march_phase_eq contour_map grid step_x step_y P id s hx hy hP0, hs.1, hs.2]

theorem march_all_guard (contour_map : List ppm_image) (grid : Grid) (step_x step_y P : Nat)
    (img : ppm_image) (hP : 1 ≤ P) (h : step_x = 0 ∨ step_y = 0) :
    march_all contour_map grid step_x step_y P img = none := by
  unfold march_all forRange
  obtain ⟨n, rfl⟩ : ∃ n, P = n + 1 := ⟨P - 1, by omega⟩
  have hb : march_phase contour_map grid step_x step_y (n + 1) 0 img = none := by
    unfold march_phase
    rcases h with h | h <;> simp [h]
  simp only [Nat.add_sub_cancel, Nat.sub_zero, forLoop, hb]

theorem march_all_P_independent (contour_map : List ppm_image) (grid : Grid)
    (step_x step_y P : Nat) (img : ppm_image) (hP : 1 ≤ P) :
    march_all contour_map grid step_x step_y P img =
      march_all contour_map grid step_x step_y 1 img := by
  by_cases h : step_x = 0 ∨ step_y = 0
  · rw [march_all_guard _ _ _ _ P img hP h, march_all_guard _ _ _ _ 1 img (le_refl 1) h]
  · have hx : step_x ≠ 0 := fun e => h (Or.inl e)
    have hy : step_y ≠ 0 := fun e => h (Or.inr e)
    rw [march_all_eq _ _ _ _ P img hx hy hP, march_all_eq _ _ _ _ 1 img hx hy (le_refl 1)]

/-! ## The steps of the sample phase -/

theorem mem_sample_trace (img : ppm_image) (step_x step_y P id : Nat) (st : SampleStep) :
    st ∈ sample_trace img step_x step_y P id ↔
      (∃ i j, range_start id (img.x / step_x) P ≤ i ∧ i < range_end id (img.x / step_x) P ∧
          j < img.y / step_y ∧
          st = ⟨some ((i * step_x * img.y + j * step_y : Nat) : Int), i, j⟩) ∨
      st = ⟨none, img.x / step_x, img.y / step_y⟩ ∨
      (∃ i, range_start id (img.x / step_x) P ≤ i ∧ i < range_end id (img.x / step_x) P ∧
          st = ⟨some ((i * step_x * img.y + img.x : Nat) - 1 : Int), i, img.y / step_y⟩) ∨
      (∃ j, range_start id (img.y / step_y) P ≤ j ∧ j < range_end id (img.y / step_y) P ∧
          st = ⟨some (((img.x : Int) - 1) * img.y + (j * step_y : Nat)), img.x / step_x, j⟩) := by
  unfold sample_trace
  simp only [List.mem_append, List.mem_flatMap, List.mem_map, List.mem_range'_1,
    List.mem_singleton, Nat.sub_zero, Nat.zero_add, Nat.zero_le, true_and]
  constructor
  · rintro (((⟨i, ⟨h1, h2⟩, j, hj, rfl⟩ | h) | ⟨i, ⟨h1, h2⟩, rfl⟩) | ⟨j, ⟨h1, h2⟩, rfl⟩)
    · exact Or.inl ⟨i, j, h1, by omega, hj, rfl⟩
    · exact Or.inr (Or.inl h)
    · exact Or.inr (Or.inr (Or.inl ⟨i, h1, by omega, rfl⟩))
    · exact Or.inr (Or.inr (Or.inr ⟨j, h1, by omega, rfl⟩))
  · rintro (⟨i, j, h1, h2, hj, rfl⟩ | h | ⟨i, h1, h2, rfl⟩ | ⟨j, h1, h2, rfl⟩)
    · exact Or.inl (Or.inl (Or.inl ⟨i, ⟨h1, by omega⟩, j, hj, rfl⟩))
    · exact Or.inl (Or.inl (Or.inr h))
    · exact Or.inl (Or.inr ⟨i, ⟨h1, by omega⟩, rfl⟩)
    · exact Or.inr ⟨j, ⟨h1, by omega⟩, rfl⟩

theorem mem_sample_trace_all (img : ppm_image) (step_x step_y P : Nat) (hP : 1 ≤ P)
    (st : SampleStep) :
    st ∈ sample_trace_all img step_x step_y P ↔ IsSampleStep img step_x step_y st := by
  unfold sample_trace_all IsSampleStep
  simp only [List.mem_flatMap, List.mem_range'_1, mem_sample_trace, Nat.sub_zero, Nat.zero_add,
    Nat.zero_le, true_and]
  constructor
  · rintro ⟨id, hid, (⟨i, j, h1, h2, hj, rfl⟩ | h | ⟨i, h1, h2, rfl⟩ | ⟨j, h1, h2, rfl⟩)⟩
    · exact Or.inl ⟨i, j, (range_cover _ P hP i).mpr ⟨id, hid, h1, h2⟩, hj, rfl⟩
    · exact Or.inr (Or.inl h)
    · exact Or.inr (Or.inr (Or.inl ⟨i, (range_cover _ P hP i).mpr ⟨id, hid, h1, h2⟩, rfl⟩))
    · exact Or.inr (Or.inr (Or.inr ⟨j, (range_cover _ P hP j).mpr ⟨id, hid, h1, h2⟩, rfl⟩))
  · rintro (⟨i, j, hi, hj, rfl⟩ | h | ⟨i, hi, rfl⟩ | ⟨j, hj, rfl⟩)
    · rcases (range_cover _ P hP i).mp hi with ⟨id, hid, h1, h2⟩
      exact ⟨id, hid, Or.inl ⟨i, j, h1, h2, hj, rfl⟩⟩
    · exact ⟨0, by omega, Or.inr (Or.inl h)⟩
    · rcases (range_cover _ P hP i).mp hi with ⟨id, hid, h1, h2⟩
      exact ⟨id, hid, Or.inr (Or.inr (Or.inl ⟨i, h1, h2, rfl⟩))⟩
    · rcases (range_cover _ P hP j).mp hj with ⟨id, hid, h1, h2⟩
      exact ⟨id, hid, Or.inr (Or.inr (Or.inr ⟨j, h1, h2, rfl⟩))⟩

theorem toOp_addr (img : ppm_image) (st : SampleStep) :
    (SampleStep.toOp img st).addr = (st.i, st.j) := by
  unfold SampleStep.toOp
  cases st.src <;> rfl

theorem sample_step_unique (img : ppm_image) (step_x step_y : Nat) (st st1 : SampleStep)
    (h : IsSampleStep img step_x step_y st) (h1 : IsSampleStep img step_x step_y st1)
    (hi : st.i = st1.i) (hj : st.j = st1.j) : st = st1 := by
  unfold IsSampleStep at h h1
  rcases h with ⟨i, j, hi1, hj1, rfl⟩ | rfl | ⟨i, hi1, rfl⟩ | ⟨j, hj1, rfl⟩ <;>
  rcases h1 with ⟨i2, j2, hi2, hj2, rfl⟩ | rfl | ⟨i2, hi2, rfl⟩ | ⟨j2, hj2, rfl⟩ <;>
  simp only at hi hj <;>
  first
  | omega
  | (subst hi; subst hj; rfl)
  | (subst hi; rfl)
  | (subst hj; rfl)
  | rfl

theorem sample_ops_functional (img : ppm_image) (step_x step_y P : Nat) (hP : 1 ≤ P) :
    Functional ((sample_trace_all img step_x step_y P).map (SampleStep.toOp img)) := by
  intro op hop op1 hop1 haddr
  rcases List.mem_map.mp hop with ⟨st, hst, rfl⟩
  rcases List.mem_map.mp hop1 with ⟨st1, hst1, rfl⟩
  rw [toOp_addr, toOp_addr, Prod.mk.injEq] at haddr
  have := sample_step_unique img step_x step_y st st1
    ((mem_sample_trace_all img step_x step_y P hP st).mp hst)
    ((mem_sample_trace_all img step_x step_y P hP st1).mp hst1) haddr.1 haddr.2
  rw [this]

theorem sample_all_eq (img : ppm_image) (step_x step_y P : Nat) (grid : Grid)
    (hx : step_x ≠ 0) (hy : step_y ≠ 0) (hP : 1 ≤ P) :
    sample_all img step_x step_y P grid =
      runOps gridStore ((sample_trace_all img step_x step_y P).map (SampleStep.toOp img))
        grid := by
  have hP0 : P ≠ 0 := by omega
  unfold sample_all forRange sample_trace_all
  rw [List.map_flatMap]
  apply forLoop_runOps
  intro id s
  exact sample_phase_eq img step_x step_y P id s hx hy hP0

theorem sample_all_guard (img : ppm_image) (step_x step_y P : Nat) (grid : Grid)
    (hP : 1 ≤ P) (h : step_x = 0 ∨ step_y = 0) :
    sample_all img step_x step_y P grid = none := by
  unfold sample_all forRange
  obtain ⟨n, rfl⟩ : ∃ n, P = n + 1 := ⟨P - 1, by omega⟩
  have hb : sample_phase img step_x step_y (n + 1) 0 grid = none := by
    unfold sample_phase
    rcases h with h | h <;> simp [h]
  simp only [Nat.add_sub_cancel, Nat.sub_zero, forLoop, hb]

theorem sample_all_P_independent (img : ppm_image) (step_x step_y P : Nat) (grid : Grid)
    (hP : 1 ≤ P) :
    sample_all img step_x step_y P grid = sample_all img step_x step_y 1 grid := by
  by_cases h : step_x = 0 ∨ step_y = 0
  · rw [sample_all_guard _ _ _ P grid hP h, sample_all_guard _ _ _ 1 grid (le_refl 1) h]
  · have hx : step_x ≠ 0 := fun e => h (Or.inl e)
    have hy : step_y ≠ 0 := fun e => h (Or.inr e)
    rw [sample_all_eq _ _ _ P grid hx hy hP, sample_all_eq _ _ _ 1 grid hx hy (le_refl 1)]
    apply runOps_congr gridStore_lawful
    · intro op
      simp only [List.mem_map, mem_sample_trace_all img step_x step_y P hP,
        mem_sample_trace_all img step_x step_y 1 (le_refl 1)]
    · exact sample_ops_functional img step_x step_y P hP

/-! ## Results of the sample phase -/

theorem pixel_at_natCast (data : List ppm_pixel) (n : Nat) :
    pixel_at data (n : Int) = data[n]? := by
  unfold pixel_at
  have h : ¬ ((n : Int) < 0) := by omega
  simp [h]

theorem pixel_at_of_eq (data : List ppm_pixel) (idx : Int) (n : Nat) (h : idx = (n : Int)) :
    pixel_at data idx = data[n]? := by
  rw [h, pixel_at_natCast]

theorem getElem?_ne_none_of_lt {γ : Type} (l : List γ) (n : Nat) (h : n < l.length) :
    l[n]? ≠ none := by
  intro hn
  have := List.getElem?_eq_none_iff.mp hn
  omega

theorem grid_get_ne_none (grid : Grid) (p q i j : Nat)
    (hshape : grid.map List.length = List.replicate (p + 1) (q + 1))
    (hi : i ≤ p) (hj : j ≤ q) : grid_get grid i j ≠ none := by
  have h := congrArg (fun l => l[i]?) hshape
  simp only [List.getElem?_map] at h
  have hr : (List.replicate (p + 1) (q + 1))[i]? = some (q + 1) := by
    rw [List.getElem?_replicate]
    simp
    omega
  rw [hr] at h
  unfold grid_get
  cases hrow : grid[i]? with
  | none => rw [hrow] at h; simp at h
  | some row =>
    rw [hrow] at h
    simp only [Option.map_some', Option.some.injEq] at h
    simp only []
    exact getElem?_ne_none_of_lt row j (by omega)

theorem interior_index_lt (x y step_x step_y i j : Nat) (hy : 1 ≤ step_y)
    (hi : i < x / step_x) (hj : j < y / step_y) :
    i * step_x * y + j * step_y < x * y := by
  have h1 : (i + 1) * step_x ≤ x := (Nat.le_div_iff_mul_le (by
    rcases Nat.eq_zero_or_pos step_x with h | h
    · subst h; simp at hi
    · exact h)).mp hi
  have h2 : (j + 1) * step_y ≤ y := (Nat.le_div_iff_mul_le (by omega)).mp hj
  have hsx : 1 ≤ step_x := by
    rcases Nat.eq_zero_or_pos step_x with h | h
    · subst h; simp at hi
    · exact h
  have h3 : i * step_x + 1 ≤ x := by
    have : (i + 1) * step_x = i * step_x + step_x := by ring
    omega
  have h4 : j * step_y < y := by
    have : (j + 1) * step_y = j * step_y + step_y := by ring
    omega
  calc i * step_x * y + j * step_y < i * step_x * y + y := by omega
    _ = (i * step_x + 1) * y := by ring
    _ ≤ x * y := Nat.mul_le_mul_right y h3

theorem row_index_lt (x y step_y j : Nat) (hx : 1 ≤ x) (hy : 1 ≤ step_y)
    (hj : j < y / step_y) : (x - 1) * y + j * step_y < x * y := by
  have h2 : (j + 1) * step_y ≤ y := (Nat.le_div_iff_mul_le (by omega)).mp hj
  have h4 : j * step_y < y := by
    have : (j + 1) * step_y = j * step_y + step_y := by ring
    omega
  obtain ⟨k, rfl⟩ : ∃ k, x = k + 1 := ⟨x - 1, by omega⟩
  have : (k + 1) * y = k * y + y := by ring
  simp only [Nat.add_sub_cancel]
  omega

theorem sample_step_in_bounds (img : ppm_image) (step_x step_y : Nat) (grid : Grid)
    (hr : SampleReady img step_x step_y grid) (st : SampleStep)
    (hst : IsSampleStep img step_x step_y st) :
    (SampleStep.toOp img st).val ≠ none ∧
      gridStore.get grid (SampleStep.toOp img st).addr ≠ none := by
  obtain ⟨hsx, hsy, hlen, hx1, hcol, hshape⟩ := hr
  rw [toOp_addr]
  simp only [gridStore]
  rcases hst with ⟨i, j, hi, hj, rfl⟩ | rfl | ⟨i, hi, rfl⟩ | ⟨j, hj, rfl⟩
  · refine ⟨?_, grid_get_ne_none grid _ _ i j hshape (by omega) (by omega)⟩
    simp only [SampleStep.toOp, pixel_at_natCast]
    have := interior_index_lt img.x img.y step_x step_y i j hsy hi hj
    have h2 := getElem?_ne_none_of_lt img.data (i * step_x * img.y + j * step_y) (by omega)
    cases hd : img.data[i * step_x * img.y + j * step_y]? with
    | none => exact absurd hd h2
    | some px => simp
  · refine ⟨?_, grid_get_ne_none grid _ _ _ _ hshape (le_refl _) (le_refl _)⟩
    simp [SampleStep.toOp]
  · refine ⟨?_, grid_get_ne_none grid _ _ i _ hshape (by omega) (le_refl _)⟩
    simp only [SampleStep.toOp]
    rw [pixel_at_of_eq img.data _ (i * step_x * img.y + img.x - 1) (by omega)]
    have := hcol i hi
    have h2 := getElem?_ne_none_of_lt img.data (i * step_x * img.y + img.x - 1) (by omega)
    cases hd : img.data[i * step_x * img.y + img.x - 1]? with
    | none => exact absurd hd h2
    | some px => simp
  · refine ⟨?_, grid_get_ne_none grid _ _ _ j hshape (le_refl _) (by omega)⟩
    simp only [SampleStep.toOp]
    have hidx : ((img.x : Int) - 1) * img.y + ((j * step_y : Nat) : Int)
        = (((img.x - 1) * img.y + j * step_y : Nat) : Int) := by
      push_cast [Nat.cast_sub hx1]
      ring
    rw [pixel_at_of_eq img.data _ _ hidx]
    have := row_index_lt img.x img.y step_y j hx1 hsy hj
    have h2 := getElem?_ne_none_of_lt img.data ((img.x - 1) * img.y + j * step_y) (by omega)
    cases hd : img.data[(img.x - 1) * img.y + j * step_y]? with
    | none => exact absurd hd h2
    | some px => simp

theorem sample_all_isSome (img : ppm_image) (step_x step_y P : Nat) (grid : Grid)
    (hP : 1 ≤ P) (hr : SampleReady img step_x step_y grid) :
    ∃ g, sample_all img step_x step_y P grid = some g := by
  have hx : step_x ≠ 0 := by have := hr.1; omega
  have hy : step_y ≠ 0 := by have := hr.2.1; omega
  rw [sample_all_eq img step_x step_y P grid hx hy hP]
  apply runOps_isSome gridStore_lawful
  intro op hop
  rcases List.mem_map.mp hop with ⟨st, hst, rfl⟩
  exact sample_step_in_bounds img step_x step_y grid hr st
    ((mem_sample_trace_all img step_x step_y P hP st).mp hst)

theorem sample_all_steps (img : ppm_image) (step_x step_y P : Nat) (grid g : Grid)
    (hP : 1 ≤ P) (h : sample_all img step_x step_y P grid = some g) :
    step_x ≠ 0 ∧ step_y ≠ 0 ∧
      runOps gridStore ((sample_trace_all img step_x step_y P).map (SampleStep.toOp img)) grid
        = some g := by
  by_cases hg : step_x = 0 ∨ step_y = 0
  · rw [sample_all_guard img step_x step_y P grid hP hg] at h
    exact Option.noConfusion h
  · have hx : step_x ≠ 0 := fun e => hg (Or.inl e)
    have hy : step_y ≠ 0 := fun e => hg (Or.inr e)
    rw [sample_all_eq img step_x step_y P grid hx hy hP] at h
    exact ⟨hx, hy, h⟩

theorem sample_all_get (img : ppm_image) (step_x step_y P : Nat) (grid g : Grid)
    (hP : 1 ≤ P) (h : sample_all img step_x step_y P grid = some g)
    (st : SampleStep) (hst : IsSampleStep img step_x step_y st) :
    grid_get g st.i st.j = (SampleStep.toOp img st).val ∧
      (SampleStep.toOp img st).val ≠ none := by
  obtain ⟨_, _, hrun⟩ := sample_all_steps img step_x step_y P grid g hP h
  have hmem : SampleStep.toOp img st ∈
      (sample_trace_all img step_x step_y P).map (SampleStep.toOp img) :=
    List.mem_map.mpr ⟨st, (mem_sample_trace_all img step_x step_y P hP st).mpr hst, rfl⟩
  have := runOps_get_of_mem gridStore_lawful _ grid g hrun
    (sample_ops_functional img step_x step_y P hP) _ hmem
  rw [toOp_addr] at this
  refine ⟨this, ?_⟩
  intro hnone
  have hbad := (runOps_eq_none_iff gridStore_lawful _ grid).mpr ⟨_, hmem, Or.inl hnone⟩
  rw [hbad] at hrun
  exact Option.noConfusion hrun

theorem sample_all_shape (img : ppm_image) (step_x step_y P : Nat) (grid g : Grid)
    (hP : 1 ≤ P) (h : sample_all img step_x step_y P grid = some g) :
    g.map List.length = grid.map List.length := by
  obtain ⟨_, _, hrun⟩ := sample_all_steps img step_x step_y P grid g hP h
  exact runOps_shape gridStore_lawful _ grid g hrun

/-! ## Results of the march phase -/

theorem index_unique (Y a b a1 b1 : Nat) (hb : b < Y) (hb1 : b1 < Y)
    (h : a * Y + b = a1 * Y + b1) : a = a1 ∧ b = b1 := by
  rcases Nat.lt_trichotomy a a1 with hlt | heq | hgt
  · have := Nat.mul_le_mul_right Y (show a + 1 ≤ a1 by omega)
    have h2 : (a + 1) * Y = a * Y + Y := by ring
    omega
  · subst heq
    exact ⟨rfl, by omega⟩
  · have := Nat.mul_le_mul_right Y (show a1 + 1 ≤ a by omega)
    have h2 : (a1 + 1) * Y = a1 * Y + Y := by ring
    omega

theorem mem_update_ops (contour : ppm_image) (x y Y : Nat) (op : WriteOp Nat ppm_pixel) :
    op ∈ update_ops contour x y Y ↔
      ∃ i j, i < contour.x ∧ j < contour.y ∧
        op = ⟨(x + i) * Y + y + j, contour.data[contour.x * i + j]?⟩ := by
  unfold update_ops
  simp only [List.mem_flatMap, List.mem_map, List.mem_range'_1, Nat.sub_zero, Nat.zero_add,
    Nat.zero_le, true_and]
  constructor
  · rintro ⟨i, hi, j, hj, rfl⟩
    exact ⟨i, j, hi, hj, rfl⟩
  · rintro ⟨i, j, hi, hj, rfl⟩
    exact ⟨i, hi, j, hj, rfl⟩

theorem mem_march_rows_ops (contour_map : List ppm_image) (grid : Grid)
    (step_x step_y Y q lo n : Nat) (op : WriteOp Nat ppm_pixel) :
    op ∈ march_rows_ops contour_map grid step_x step_y Y q lo n ↔
      ∃ i j, lo ≤ i ∧ i < lo + n ∧ j < q ∧
        op ∈ march_cell_ops contour_map grid step_x step_y Y i j := by
  unfold march_rows_ops
  simp only [List.mem_flatMap, List.mem_range'_1, Nat.sub_zero, Nat.zero_add, Nat.zero_le,
    true_and]
  constructor
  · rintro ⟨i, ⟨h1, h2⟩, j, hj, h⟩
    exact ⟨i, j, h1, h2, hj, h⟩
  · rintro ⟨i, j, h1, h2, hj, h⟩
    exact ⟨i, ⟨h1, h2⟩, j, hj, h⟩

theorem mem_march_ops_resolved (contour_map : List ppm_image) (grid : Grid)
    (step_x step_y Y p q : Nat) (hres : TilesResolved contour_map grid step_x step_y p q)
    (op : WriteOp Nat ppm_pixel) :
    op ∈ march_rows_ops contour_map grid step_x step_y Y q 0 p ↔
      ∃ i j a b tile, i < p ∧ j < q ∧ a < step_x ∧ b < step_y ∧
        tile_at contour_map grid i j = some tile ∧
        op = ⟨(i * step_x + a) * Y + j * step_y + b, tile.data[step_x * a + b]?⟩ := by
  rw [mem_march_rows_ops]
  constructor
  · rintro ⟨i, j, _, hi, hj, h⟩
    obtain ⟨tile, ht, hx, hy⟩ := hres i j (by omega) hj
    unfold march_cell_ops at h
    rw [ht] at h
    simp only [] at h
    rcases (mem_update_ops tile _ _ Y op).mp h with ⟨a, b, ha, hb, rfl⟩
    rw [hx] at ha
    rw [hy] at hb
    exact ⟨i, j, a, b, tile, by omega, hj, ha, hb, ht, by rw [hx]⟩
  · rintro ⟨i, j, a, b, tile, hi, hj, ha, hb, ht, rfl⟩
    obtain ⟨tile1, ht1, hx, hy⟩ := hres i j hi hj
    rw [ht] at ht1
    cases ht1
    refine ⟨i, j, Nat.zero_le _, by omega, hj, ?_⟩
    unfold march_cell_ops
    rw [ht]
    simp only []
    exact (mem_update_ops tile _ _ Y _).mpr ⟨a, b, by omega, by omega, by rw [hx]⟩

theorem block_index_unique (s i a i1 a1 : Nat) (ha : a < s) (ha1 : a1 < s)
    (h : i * s + a = i1 * s + a1) : i = i1 ∧ a = a1 :=
  index_unique s i a i1 a1 ha ha1 h

theorem block_offset_lt (s n i a : Nat) (hi : i < n) (ha : a < s) : i * s + a < n * s := by
  have := Nat.mul_le_mul_right s (show i + 1 ≤ n by omega)
  have h2 : (i + 1) * s = i * s + s := by ring
  omega

theorem march_ops_functional (contour_map : List ppm_image) (grid : Grid)
    (step_x step_y Y p q : Nat) (hres : TilesResolved contour_map grid step_x step_y p q)
    (hq : q * step_y ≤ Y) :
    Functional (march_rows_ops contour_map grid step_x step_y Y q 0 p) := by
  intro op hop op1 hop1 haddr
  rcases (mem_march_ops_resolved contour_map grid step_x step_y Y p q hres op).mp hop with
    ⟨i, j, a, b, tile, hi, hj, ha, hb, ht, rfl⟩
  rcases (mem_march_ops_resolved contour_map grid step_x step_y Y p q hres op1).mp hop1 with
    ⟨i1, j1, a1, b1, tile1, hi1, hj1, ha1, hb1, ht1, rfl⟩
  simp only at haddr ⊢
  have hc := block_offset_lt step_y q j b hj hb
  have hc1 := block_offset_lt step_y q j1 b1 hj1 hb1
  have h1 : (i * step_x + a) * Y + (j * step_y + b)
      = (i1 * step_x + a1) * Y + (j1 * step_y + b1) := by omega
  obtain ⟨hrow, hcol⟩ := index_unique Y _ _ _ _ (by omega) (by omega) h1
  obtain ⟨rfl, rfl⟩ := block_index_unique step_x i a i1 a1 ha ha1 hrow
  obtain ⟨rfl, rfl⟩ := block_index_unique step_y j b j1 b1 hb hb1 hcol
  rw [ht] at ht1
  cases ht1
  rfl

theorem tile_at_mem (contour_map : List ppm_image) (grid : Grid) (i j : Nat) (tile : ppm_image)
    (h : tile_at contour_map grid i j = some tile) : tile ∈ contour_map := by
  unfold tile_at at h
  cases h1 : grid_get grid i j with
  | none => rw [h1] at h; simp at h
  | some tl =>
    cases h2 : grid_get grid i (j + 1) with
    | none => rw [h1, h2] at h; simp at h
    | some tr =>
      cases h3 : grid_get grid (i + 1) (j + 1) with
      | none => rw [h1, h2, h3] at h; simp at h
      | some br =>
        cases h4 : grid_get grid (i + 1) j with
        | none => rw [h1, h2, h3, h4] at h; simp at h
        | some bl =>
          rw [h1, h2, h3, h4] at h
          exact List.getElem?_mem h

theorem tile_at_of_cells (contour_map : List ppm_image) (grid : Grid) (i j tl tr br bl : Nat)
    (h1 : grid_get grid i j = some tl) (h2 : grid_get grid i (j + 1) = some tr)
    (h3 : grid_get grid (i + 1) (j + 1) = some br) (h4 : grid_get grid (i + 1) j = some bl) :
    tile_at contour_map grid i j = contour_map[config_index tl tr br bl]? := by
  unfold tile_at
  rw [h1, h2, h3, h4]

theorem march_all_steps (contour_map : List ppm_image) (grid : Grid) (step_x step_y P : Nat)
    (img img1 : ppm_image) (hP : 1 ≤ P)
    (h : march_all contour_map grid step_x step_y P img = some img1) :
    step_x ≠ 0 ∧ step_y ≠ 0 ∧
      runOps imageStore
        (march_rows_ops contour_map grid step_x step_y img.y (img.y / step_y) 0
          (img.x / step_x)) img = some img1 := by
  by_cases hg : step_x = 0 ∨ step_y = 0
  · rw [march_all_guard contour_map grid step_x step_y P img hP hg] at h
    exact Option.noConfusion h
  · have hx : step_x ≠ 0 := fun e => hg (Or.inl e)
    have hy : step_y ≠ 0 := fun e => hg (Or.inr e)
    rw [march_all_eq contour_map grid step_x step_y P img hx hy hP] at h
    exact ⟨hx, hy, h⟩

theorem march_all_resolved (contour_map : List ppm_image) (grid : Grid) (step_x step_y P : Nat)
    (img img1 : ppm_image) (hP : 1 ≤ P)
    (hcat : ∀ t ∈ contour_map, t.x = step_x ∧ t.y = step_y)
    (h : march_all contour_map grid step_x step_y P img = some img1) :
    TilesResolved contour_map grid step_x step_y (img.x / step_x) (img.y / step_y) := by
  obtain ⟨_, _, hrun⟩ := march_all_steps contour_map grid step_x step_y P img img1 hP h
  intro i j hi hj
  cases ht : tile_at contour_map grid i j with
  | none =>
    have hmem : (⟨0, none⟩ : WriteOp Nat ppm_pixel) ∈
        march_rows_ops contour_map grid step_x step_y img.y (img.y / step_y) 0
          (img.x / step_x) := by
      rw [mem_march_rows_ops]
      refine ⟨i, j, Nat.zero_le _, by omega, hj, ?_⟩
      unfold march_cell_ops
      rw [ht]
      exact List.mem_singleton.mpr rfl
    have hbad := (runOps_eq_none_iff imageStore_lawful _ img).mpr ⟨_, hmem, Or.inl rfl⟩
    rw [hbad] at hrun
    exact Option.noConfusion hrun
  | some tile =>
    have := hcat tile (tile_at_mem contour_map grid i j tile ht)
    exact ⟨tile, rfl, this.1, this.2⟩

theorem march_all_pixel (contour_map : List ppm_image) (grid : Grid) (step_x step_y P : Nat)
    (img img1 : ppm_image) (hP : 1 ≤ P)
    (hcat : ∀ t ∈ contour_map, t.x = step_x ∧ t.y = step_y)
    (h : march_all contour_map grid step_x step_y P img = some img1)
    (i j a b : Nat) (hi : i < img.x / step_x) (hj : j < img.y / step_y)
    (ha : a < step_x) (hb : b < step_y) :
    ∃ tile px, tile_at contour_map grid i j = some tile ∧
      tile.data[step_x * a + b]? = some px ∧
      img1.data[(i * step_x + a) * img.y + j * step_y + b]? = some px := by
  have hres := march_all_resolved contour_map grid step_x step_y P img img1 hP hcat h
  obtain ⟨_, _, hrun⟩ := march_all_steps contour_map grid step_x step_y P img img1 hP h
  obtain ⟨tile, ht, _, _⟩ := hres i j hi hj
  have hmem : (⟨(i * step_x + a) * img.y + j * step_y + b, tile.data[step_x * a + b]?⟩ :
      WriteOp Nat ppm_pixel) ∈
      march_rows_ops contour_map grid step_x step_y img.y (img.y / step_y) 0
        (img.x / step_x) :=
    (mem_march_ops_resolved contour_map grid step_x step_y img.y _ _ hres _).mpr
      ⟨i, j, a, b, tile, hi, hj, ha, hb, ht, rfl⟩
  have hq : img.y / step_y * step_y ≤ img.y := Nat.div_mul_le_self _ _
  have hf := march_ops_functional contour_map grid step_x step_y img.y _ _ hres hq
  have hget := runOps_get_of_mem imageStore_lawful _ img img1 hrun hf _ hmem
  simp only [imageStore] at hget
  cases hd : tile.data[step_x * a + b]? with
  | none =>
    have hbad := (runOps_eq_none_iff imageStore_lawful _ img).mpr ⟨_, hmem, Or.inl hd⟩
    rw [hbad] at hrun
    exact Option.noConfusion hrun
  | some px =>
    rw [hd] at hget
    exact ⟨tile, px, ht, hd, hget⟩

theorem march_all_dims (contour_map : List ppm_image) (grid : Grid) (step_x step_y P : Nat)
    (img img1 : ppm_image) (hP : 1 ≤ P)
    (h : march_all contour_map grid step_x step_y P img = some img1) :
    img1.x = img.x ∧ img1.y = img.y ∧ img1.data.length = img.data.length := by
  obtain ⟨_, _, hrun⟩ := march_all_steps contour_map grid step_x step_y P img img1 hP h
  have hshape := runOps_shape imageStore_lawful _ img img1 hrun
  simp only [imageStore, Prod.mk.injEq] at hshape
  refine ⟨hshape.1, hshape.2, ?_⟩
  by_contra hne
  rcases Nat.lt_or_gt_of_ne hne with hlt | hgt
  · have h1 : img1.data[img1.data.length]? = none := List.getElem?_eq_none_iff.mpr (le_refl _)
    have h2 : img.data[img1.data.length]? ≠ none := getElem?_ne_none_of_lt _ _ hlt
    rcases runOps_get imageStore_lawful _ img img1 hrun img1.data.length with
      ⟨op, hop, hab, hg⟩ | ⟨_, hg⟩
    · simp only [imageStore] at hg
      rw [h1] at hg
      have hbad := (runOps_eq_none_iff imageStore_lawful _ img).mpr ⟨op, hop, Or.inl hg.symm⟩
      rw [hbad] at hrun
      exact Option.noConfusion hrun
    · simp only [imageStore] at hg
      rw [h1] at hg
      exact h2 hg.symm
  · have h1 : img.data[img.data.length]? = none := List.getElem?_eq_none_iff.mpr (le_refl _)
    have h2 : img1.data[img.data.length]? ≠ none := getElem?_ne_none_of_lt _ _ hgt
    rcases runOps_get imageStore_lawful _ img img1 hrun img.data.length with
      ⟨op, hop, hab, hg⟩ | ⟨_, hg⟩
    · have hbad := (runOps_eq_none_iff imageStore_lawful _ img).mpr
        ⟨op, hop, Or.inr (by rw [hab]; exact h1)⟩
      rw [hbad] at hrun
      exact Option.noConfusion hrun
    · simp only [imageStore] at hg
      rw [h1] at hg
      exact h2 hg

theorem march_all_isSome (contour_map : List ppm_image) (grid : Grid) (s P : Nat)
    (img : ppm_image) (hP : 1 ≤ P) (hs : 1 ≤ s) (hlen : img.data.length = img.x * img.y)
    (hcat : ∀ t ∈ contour_map, t.x = s ∧ t.y = s ∧ t.data.length = s * s)
    (htiles : ∀ i j, i < img.x / s → j < img.y / s → tile_at contour_map grid i j ≠ none) :
    ∃ img1, march_all contour_map grid s s P img = some img1 := by
  have hs0 : s ≠ 0 := by omega
  have hres : TilesResolved contour_map grid s s (img.x / s) (img.y / s) := by
    intro i j hi hj
    cases ht : tile_at contour_map grid i j with
    | none => exact absurd ht (htiles i j hi hj)
    | some tile =>
      have := hcat tile (tile_at_mem contour_map grid i j tile ht)
      exact ⟨tile, rfl, this.1, this.2.1⟩
  rw [march_all_eq contour_map grid s s P img hs0 hs0 hP]
  apply runOps_isSome imageStore_lawful
  intro op hop
  rcases (mem_march_ops_resolved contour_map grid s s img.y _ _ hres op).mp hop with
    ⟨i, j, a, b, tile, hi, hj, ha, hb, ht, rfl⟩
  have htl := (hcat tile (tile_at_mem contour_map grid i j tile ht)).2.2
  simp only [imageStore]
  constructor
  · apply getElem?_ne_none_of_lt
    rw [htl]
    have := Nat.mul_le_mul_left s (show a + 1 ≤ s by omega)
    have h2 : s * (a + 1) = s * a + s := by ring
    omega
  · apply getElem?_ne_none_of_lt
    rw [hlen]
    have hr := block_offset_lt s (img.x / s) i a hi ha
    have hc := block_offset_lt s (img.y / s) j b hj hb
    have hx : img.x / s * s ≤ img.x := Nat.div_mul_le_self _ _
    have hy : img.y / s * s ≤ img.y := Nat.div_mul_le_self _ _
    have := Nat.mul_le_mul_right img.y (show i * s + a + 1 ≤ img.x by omega)
    have h2 : (i * s + a + 1) * img.y = (i * s + a) * img.y + img.y := by ring
    omega

theorem threshold_le_one (px : ppm_pixel) : threshold px ≤ 1 := by
  unfold threshold
  simp only []
  split <;> omega

theorem toOp_val_le_one (img : ppm_image) (st : SampleStep) (v : Nat)
    (h : (SampleStep.toOp img st).val = some v) : v ≤ 1 := by
  unfold SampleStep.toOp at h
  cases hsrc : st.src with
  | none =>
    rw [hsrc] at h
    simp only [Option.some.injEq] at h
    omega
  | some idx =>
    rw [hsrc] at h
    simp only [] at h
    cases hpx : pixel_at img.data idx with
    | none => rw [hpx] at h; simp at h
    | some px =>
      rw [hpx] at h
      simp only [Option.map_some', Option.some.injEq] at h
      rw [← h]
      exact threshold_le_one px

theorem sample_all_binary (img : ppm_image) (step_x step_y P : Nat) (grid g : Grid)
    (hP : 1 ≤ P) (h : sample_all img step_x step_y P grid = some g)
    (i j : Nat) (hi : i ≤ img.x / step_x) (hj : j ≤ img.y / step_y) :
    ∃ v, grid_get g i j = some v ∧ v ≤ 1 := by
  have key : ∀ st, IsSampleStep img step_x step_y st →
      ∃ v, grid_get g st.i st.j = some v ∧ v ≤ 1 := by
    intro st hst
    obtain ⟨hget, hne⟩ := sample_all_get img step_x step_y P grid g hP h st hst
    rw [hget]
    cases hv : (SampleStep.toOp img st).val with
    | none => exact absurd hv hne
    | some v => exact ⟨v, rfl, toOp_val_le_one img st v hv⟩
  rcases Nat.lt_or_ge i (img.x / step_x) with hi1 | hi1
  · rcases Nat.lt_or_ge j (img.y / step_y) with hj1 | hj1
    · exact key ⟨_, i, j⟩ (Or.inl ⟨i, j, hi1, hj1, rfl⟩)
    · have hj2 : j = img.y / step_y := by omega
      subst hj2
      exact key ⟨_, i, _⟩ (Or.inr (Or.inr (Or.inl ⟨i, hi1, rfl⟩)))
  · have hi2 : i = img.x / step_x := by omega
    subst hi2
    rcases Nat.lt_or_ge j (img.y / step_y) with hj1 | hj1
    · exact key ⟨_, _, j⟩ (Or.inr (Or.inr (Or.inr ⟨j, hj1, rfl⟩)))
    · have hj2 : j = img.y / step_y := by omega
      subst hj2
      exact key ⟨_, _, _⟩ (Or.inr (Or.inl rfl))

theorem config_index_le (tl tr br bl : Nat) (h1 : tl ≤ 1) (h2 : tr ≤ 1) (h3 : br ≤ 1)
    (h4 : bl ≤ 1) : config_index tl tr br bl ≤ 15 := by
  unfold config_index
  omega

theorem tile_at_of_sample (contour_map : List ppm_image) (img : ppm_image)
    (step_x step_y P : Nat) (grid g : Grid) (hP : 1 ≤ P)
    (h : sample_all img step_x step_y P grid = some g)
    (hlen : contour_map.length = CONTOUR_CONFIG_COUNT)
    (i j : Nat) (hi : i < img.x / step_x) (hj : j < img.y / step_y) :
    tile_at contour_map g i j ≠ none := by
  obtain ⟨tl, h1, b1⟩ := sample_all_binary img step_x step_y P grid g hP h i j
    (by omega) (by omega)
  obtain ⟨tr, h2, b2⟩ := sample_all_binary img step_x step_y P grid g hP h i (j + 1)
    (by omega) (by omega)
  obtain ⟨br, h3, b3⟩ := sample_all_binary img step_x step_y P grid g hP h (i + 1) (j + 1)
    (by omega) (by omega)
  obtain ⟨bl, h4, b4⟩ := sample_all_binary img step_x step_y P grid g hP h (i + 1) j
    (by omega) (by omega)
  rw [tile_at_of_cells contour_map g i j tl tr br bl h1 h2 h3 h4]
  apply getElem?_ne_none_of_lt
  have := config_index_le tl tr br bl b1 b2 b3 b4
  rw [hlen]
  unfold CONTOUR_CONFIG_COUNT
  omega

theorem sample_then_march_isSome (contour_map : List ppm_image) (s P : Nat)
    (img : ppm_image) (grid : Grid) (hP : 1 ≤ P)
    (hr : SampleReady img s s grid)
    (hlen : contour_map.length = CONTOUR_CONFIG_COUNT)
    (hcat : ∀ t ∈ contour_map, t.x = s ∧ t.y = s ∧ t.data.length = s * s) :
    ∃ g im, sample_then_march contour_map s s P img grid = some (g, im) := by
  obtain ⟨g, hg⟩ := sample_all_isSome img s s P grid hP hr
  obtain ⟨im, him⟩ := march_all_isSome contour_map g s P img hP hr.1 hr.2.2.1 hcat
    (fun i j hi hj => tile_at_of_sample contour_map img s s P grid g hP hg hlen i j hi hj)
  refine ⟨g, im, ?_⟩
  unfold sample_then_march
  rw [hg]
  simp only []
  rw [him]

/-! ## Independence of the worker count -/

/-- Claim C1: for every image (in particular every image that needs no
rescaling), every tile catalog, every grid and every worker count `P ≥ 1`,
running the sample phase of the workers `0, ..., P-1` and then their march phase
gives the same outcome (the same grid and the same pixel buffer, or the same
failure on an out-of-bounds access) as the run with one worker; and with equal
steps, in-bounds sampling and a catalog of 16 step-sized tiles the run
completes with a grid and a buffer. -/
theorem sample_then_march_P_independent (contour_map : List ppm_image)
    (step_x step_y P : Nat) (img : ppm_image) (grid : Grid) (hP : 1 ≤ P) :
    sample_then_march contour_map step_x step_y P img grid =
      sample_then_march contour_map step_x step_y 1 img grid ∧
    (step_x = step_y → SampleReady img step_x step_y grid →
      contour_map.length = CONTOUR_CONFIG_COUNT →
      (∀ t ∈ contour_map, t.x = step_x ∧ t.y = step_y ∧ t.data.length = step_x * step_y) →
      ∃ g im, sample_then_march contour_map step_x step_y P img grid = some (g, im)) := by
  constructor
  · unfold sample_then_march
    rw [sample_all_P_independent img step_x step_y P grid hP]
    cases sample_all img step_x step_y 1 grid with
    | none => rfl
    | some g =>
      simp only []
      rw [march_all_P_independent contour_map g step_x step_y P img hP]
  · intro hs hr hlen hcat
    subst hs
    exact sample_then_march_isSome contour_map step_x P img grid hP hr hlen hcat

/-- Witness of `sample_then_march_P_independent`: the one-pixel image with a
catalog of 16 one-pixel tiles, run by three workers and by one. -/
theorem sample_then_march_P_independent_witness :
    ∃ g im,
      sample_then_march (List.replicate 16 image_1x1) 1 1 3 image_1x1 grid_2x2 = some (g, im) ∧
      sample_then_march (List.replicate 16 image_1x1) 1 1 1 image_1x1 grid_2x2 = some (g, im) := by
  have h := sample_then_march_P_independent (List.replicate 16 image_1x1) 1 1 3 image_1x1
    grid_2x2 (by decide)
  obtain ⟨g, im, hrun⟩ := h.2 rfl (by unfold SampleReady; decide) (by decide) (by decide)
  exact ⟨g, im, hrun, by rw [← h.1]; exact hrun⟩

/-! ## Tile copy -/

theorem update_ops_functional (contour : ppm_image) (x y Y : Nat) (hy : y + contour.y ≤ Y) :
    Functional (update_ops contour x y Y) := by
  intro op hop op1 hop1 haddr
  rcases (mem_update_ops contour x y Y op).mp hop with ⟨i, j, hi, hj, rfl⟩
  rcases (mem_update_ops contour x y Y op1).mp hop1 with ⟨i1, j1, hi1, hj1, rfl⟩
  simp only at haddr ⊢
  have h1 : (x + i) * Y + (y + j) = (x + i1) * Y + (y + j1) := by omega
  obtain ⟨hrow, hcol⟩ := index_unique Y _ _ _ _ (by omega) (by omega) h1
  have e1 : i = i1 := by omega
  have e2 : j = j1 := by omega
  subst e1
  subst e2
  rfl

theorem update_image_pixel (image contour img1 : ppm_image) (x y : Nat)
    (h : update_image image contour x y = some img1) (hy : y + contour.y ≤ image.y)
    (i j : Nat) (hi : i < contour.x) (hj : j < contour.y) :
    ∃ px, contour.data[contour.x * i + j]? = some px ∧
      img1.data[(x + i) * image.y + y + j]? = some px := by
  rw [update_image_eq] at h
  have hmem : (⟨(x + i) * image.y + y + j, contour.data[contour.x * i + j]?⟩ :
      WriteOp Nat ppm_pixel) ∈ update_ops contour x y image.y :=
    (mem_update_ops contour x y image.y _).mpr ⟨i, j, hi, hj, rfl⟩
  have hget := runOps_get_of_mem imageStore_lawful _ image img1 h
    (update_ops_functional contour x y image.y hy) _ hmem
  simp only [imageStore] at hget
  cases hd : contour.data[contour.x * i + j]? with
  | none =>
    have hbad := (runOps_eq_none_iff imageStore_lawful _ image).mpr ⟨_, hmem, Or.inl hd⟩
    rw [hbad] at h
    exact Option.noConfusion h
  | some px =>
    rw [hd] at hget
    exact ⟨px, rfl, hget⟩

theorem update_image_isSome (image contour : ppm_image) (x y : Nat)
    (hlen : image.data.length = image.x * image.y)
    (hx : x + contour.x ≤ image.x) (hy : y + contour.y ≤ image.y)
    (hreads : ∀ i j, i < contour.x → j < contour.y → contour.x * i + j < contour.data.length) :
    ∃ img1, update_image image contour x y = some img1 := by
  rw [update_image_eq]
  apply runOps_isSome imageStore_lawful
  intro op hop
  rcases (mem_update_ops contour x y image.y op).mp hop with ⟨i, j, hi, hj, rfl⟩
  simp only [imageStore]
  constructor
  · exact getElem?_ne_none_of_lt _ _ (hreads i j hi hj)
  · apply getElem?_ne_none_of_lt
    rw [hlen]
    have := Nat.mul_le_mul_right image.y (show x + i + 1 ≤ image.x by omega)
    have h2 : (x + i + 1) * image.y = (x + i) * image.y + image.y := by ring
    omega

theorem update_image_square (image tile : ppm_image) (x y : Nat)
    (hsq : tile.x = tile.y) (htl : tile.data.length = tile.x * tile.y)
    (hlen : image.data.length = image.x * image.y)
    (hx : x + tile.x ≤ image.x) (hy : y + tile.y ≤ image.y) :
    ∃ img1, update_image image tile x y = some img1 ∧
      ∀ i j, i < tile.x → j < tile.y →
        ∃ px, tile.data[i * tile.y + j]? = some px ∧
          img1.data[(x + i) * image.y + y + j]? = some px := by
  have hreads : ∀ i j, i < tile.x → j < tile.y → tile.x * i + j < tile.data.length := by
    intro i j hi hj
    rw [htl, ← hsq]
    have := Nat.mul_le_mul_left tile.x (show i + 1 ≤ tile.x by omega)
    have h2 : tile.x * (i + 1) = tile.x * i + tile.x := by ring
    omega
  obtain ⟨img1, h1⟩ := update_image_isSome image tile x y hlen hx hy hreads
  refine ⟨img1, h1, ?_⟩
  intro i j hi hj
  obtain ⟨px, hpx, hres⟩ := update_image_pixel image tile img1 x y h1 hy i j hi hj
  refine ⟨px, ?_, hres⟩
  rw [← hsq, Nat.mul_comm i tile.x]
  exact hpx

/-- Claim C3 at its failing input: copying the tile of two rows and three
columns onto the black 2 by 3 image at offset (0, 0) completes, and the image
pixel at row 1, column 0 (index `1 * 3 + 0`) then holds the tile pixel at index
`contour->x * 1 + 0 = 2`, which is `gray 30`; the tile pixel (1, 0) is at index
`1 * 3 + 0 = 3` and is `gray 40`. -/
theorem update_image_row_stride :
    update_image canvas_2x3 tile_2x3 0 0 =
      some ⟨2, 3, [gray 10, gray 20, gray 30, gray 30, gray 40, gray 50]⟩ ∧
    (⟨2, 3, [gray 10, gray 20, gray 30, gray 30, gray 40, gray 50]⟩ :
      ppm_image).data[(0 + 1) * canvas_2x3.y + 0 + 0]? = some (gray 30) ∧
    tile_2x3.data[1 * tile_2x3.y + 0]? = some (gray 40) ∧
    0 + tile_2x3.x ≤ canvas_2x3.x ∧ 0 + tile_2x3.y ≤ canvas_2x3.y := by
  decide

/-! ## Range coverage -/

theorem range_cover_exactly_once (N P : Nat) (hP : 1 ≤ P) :
    (∀ n, n < N →
      ∃! id, id < P ∧ range_start id N P ≤ n ∧ n < range_end id N P) ∧
    (∀ id n, range_start id N P ≤ n → n < range_end id N P → n < N) := by
  constructor
  · intro n hn
    rcases (range_cover N P hP n).mp hn with ⟨id, hid, h1, h2⟩
    refine ⟨id, ⟨hid, h1, h2⟩, ?_⟩
    rintro id1 ⟨hid1, h3, h4⟩
    rcases Nat.lt_trichotomy id1 id with hlt | heq | hgt
    · exact (range_disjoint N P id1 id n hid1 hlt h4 h1).elim
    · exact heq
    · exact (range_disjoint N P id id1 n hid hgt h2 h3).elim
  · intro id n _ h2
    exact lt_of_lt_of_le h2 (range_end_le id N P)

/-! ## The threshold rule -/

/-- Claim C4 as stated fails: on the one-pixel black image the brightness 0 is
not above `SIGMA`, yet the sample phase stores 1, not 0, in the interior cell
`(0, 0)`. -/
theorem threshold_rule_counterexample :
    ¬ (∀ (img : ppm_image) (step_x step_y P : Nat) (grid g : Grid) (i j : Nat)
        (px : ppm_pixel),
        1 ≤ P → i < img.x / step_x → j < img.y / step_y →
        sample_all img step_x step_y P grid = some g →
        img.data[i * step_x * img.y + j * step_y]? = some px →
        grid_get g i j =
          some (if (px.red.val + px.green.val + px.blue.val) / 3 > SIGMA then 1 else 0)) := by
  intro h
  have := h image_1x1 1 1 1 grid_2x2 [[1, 1], [1, 0]] 0 0 black (by decide) (by decide)
    (by decide) (by decide) (by decide)
  revert this
  decide

theorem threshold_eq (px : ppm_pixel) :
    threshold px = if (px.red.val + px.green.val + px.blue.val) / 3 > SIGMA then 0 else 1 := by
  unfold threshold
  have h1 := px.red.isLt
  have h2 := px.green.isLt
  have h3 := px.blue.isLt
  have : (px.red.val + px.green.val + px.blue.val) / 3 % 256
      = (px.red.val + px.green.val + px.blue.val) / 3 := by
    apply Nat.mod_eq_of_lt
    omega
  simp only [this]

theorem sample_all_interior (img : ppm_image) (step_x step_y P : Nat) (grid g : Grid)
    (i j : Nat) (hP : 1 ≤ P) (hi : i < img.x / step_x) (hj : j < img.y / step_y)
    (hg : sample_all img step_x step_y P grid = some g) :
    ∃ px, img.data[i * step_x * img.y + j * step_y]? = some px ∧
      grid_get g i j =
        some (if (px.red.val + px.green.val + px.blue.val) / 3 > 200 then 0 else 1) := by
  have hst : IsSampleStep img step_x step_y
      ⟨some ((i * step_x * img.y + j * step_y : Nat) : Int), i, j⟩ :=
    Or.inl ⟨i, j, hi, hj, rfl⟩
  obtain ⟨hget, hne⟩ := sample_all_get img step_x step_y P grid g hP hg _ hst
  simp only [SampleStep.toOp, pixel_at_natCast] at hget hne
  cases hd : img.data[i * step_x * img.y + j * step_y]? with
  | none => rw [hd] at hne; simp at hne
  | some px =>
    rw [hd] at hget
    refine ⟨px, rfl, ?_⟩
    rw [hget, Option.map_some', threshold_eq]
    rfl

/-- Claim C4, amended: for every image, steps, worker count `P ≥ 1` and interior
cell `(i, j)` with `i < p` and `j < q`: whenever the sample phase of all workers
completes, the pixel at index `i * step_x * y + j * step_y` exists and
`grid[i][j]` is 0 if its brightness `(R + G + B) / 3` is above `SIGMA = 200` and
1 otherwise; and the sample phase does complete when its accesses are in
bounds (`SampleReady`). -/
theorem threshold_rule (img : ppm_image) (step_x step_y P : Nat) (grid : Grid) (i j : Nat)
    (hP : 1 ≤ P) (hi : i < img.x / step_x) (hj : j < img.y / step_y) :
    (SampleReady img step_x step_y grid → ∃ g, sample_all img step_x step_y P grid = some g) ∧
    (∀ g, sample_all img step_x step_y P grid = some g →
      ∃ px, img.data[i * step_x * img.y + j * step_y]? = some px ∧
        grid_get g i j =
          some (if (px.red.val + px.green.val + px.blue.val) / 3 > 200 then 0 else 1)) :=
  ⟨sample_all_isSome img step_x step_y P grid hP,
    fun g hg => sample_all_interior img step_x step_y P grid g i j hP hi hj hg⟩

/-- Witness of `threshold_rule`: the one-pixel black image, sampled by two
workers, gives `grid[0][0] = 1`. -/
theorem threshold_rule_witness :
    ∃ g, sample_all image_1x1 1 1 2 grid_2x2 = some g ∧
      ∃ px, image_1x1.data[0 * 1 * image_1x1.y + 0 * 1]? = some px ∧
        grid_get g 0 0 =
          some (if (px.red.val + px.green.val + px.blue.val) / 3 > 200 then 0 else 1) := by
  have h := threshold_rule image_1x1 1 1 2 grid_2x2 0 0 (by decide) (by decide) (by decide)
  obtain ⟨g, hg⟩ := h.1 (by unfold SampleReady; decide)
  exact ⟨g, hg, h.2 g hg⟩

/-! ## Uniform images -/

/-- Claim C5: for every image all of whose pixels are the gray value
`(b, b, b)`, every `P ≥ 1` and every interior cell `(i, j)`: whenever the sample
phase completes, `grid[i][j]` is 1 when `b < 200` and 0 when `b > 200`; and the
sample phase does complete when its accesses are in bounds. -/
theorem uniform_image_grid (img : ppm_image) (b : Fin 256) (step_x step_y P : Nat)
    (grid : Grid) (i j : Nat)
    (hu : ∀ px ∈ img.data, px = ⟨b, b, b⟩)
    (hP : 1 ≤ P) (hi : i < img.x / step_x) (hj : j < img.y / step_y) :
    (SampleReady img step_x step_y grid → ∃ g, sample_all img step_x step_y P grid = some g) ∧
    (∀ g, sample_all img step_x step_y P grid = some g →
      (b.val < 200 → grid_get g i j = some 1) ∧ (b.val > 200 → grid_get g i j = some 0)) := by
  refine ⟨sample_all_isSome img step_x step_y P grid hP, ?_⟩
  intro g hg
  obtain ⟨px, hpx, hcell⟩ := sample_all_interior img step_x step_y P grid g i j hP hi hj hg
  have hmem : px ∈ img.data := List.getElem?_mem hpx
  have hb := hu px hmem
  subst hb
  rw [hcell]
  simp only []
  have h3 : (b.val + b.val + b.val) / 3 = b.val := by omega
  rw [h3]
  constructor
  · intro h
    have : ¬ b.val > 200 := by omega
    simp [this]
  · intro h
    simp [h]

/-- Witness of `uniform_image_grid`: the uniform black image of one pixel. -/
theorem uniform_image_grid_witness :
    ∃ g, sample_all image_1x1 1 1 1 grid_2x2 = some g ∧
      ((0 : Fin 256).val < 200 → grid_get g 0 0 = some 1) ∧
      ((0 : Fin 256).val > 200 → grid_get g 0 0 = some 0) := by
  have h := uniform_image_grid image_1x1 0 1 1 1 grid_2x2 0 0 (by decide) (by decide)
    (by decide) (by decide)
  obtain ⟨g, hg⟩ := h.1 (by unfold SampleReady; decide)
  exact ⟨g, hg, h.2 g hg⟩

/-! ## The configuration index -/

/-- Claim C6: for grid values in `{0, 1}` the configuration index of line 169 is
at most 15, so the lookup in a catalog of 16 tiles succeeds. -/
theorem config_index_range (tl tr br bl : Nat) (contour_map : List ppm_image)
    (h1 : tl ≤ 1) (h2 : tr ≤ 1) (h3 : br ≤ 1) (h4 : bl ≤ 1)
    (hlen : contour_map.length = CONTOUR_CONFIG_COUNT) :
    config_index tl tr br bl ≤ 15 ∧
      ∃ tile, contour_map[config_index tl tr br bl]? = some tile := by
  have hk : config_index tl tr br bl ≤ 15 := config_index_le tl tr br bl h1 h2 h3 h4
  refine ⟨hk, ?_⟩
  have hlt : config_index tl tr br bl < contour_map.length := by
    rw [hlen]
    unfold CONTOUR_CONFIG_COUNT
    omega
  exact ⟨contour_map[config_index tl tr br bl], List.getElem?_eq_getElem hlt⟩

/-- Witness of `config_index_range`: the corners 1, 0, 1, 1 and a catalog of 16
copies of the one-pixel image. -/
theorem config_index_range_witness :
    config_index 1 0 1 1 ≤ 15 ∧
      ∃ tile, (List.replicate 16 image_1x1)[config_index 1 0 1 1]? = some tile :=
  config_index_range 1 0 1 1 (List.replicate 16 image_1x1) (by decide) (by decide)
    (by decide) (by decide) (by decide)

/-! ## The boundary column -/

theorem sample_all_column (img : ppm_image) (step_x step_y P : Nat) (grid g : Grid)
    (i : Nat) (hP : 1 ≤ P) (hi : i < img.x / step_x)
    (hg : sample_all img step_x step_y P grid = some g) :
    ∃ px, pixel_at img.data ((i * step_x * img.y + img.x : Nat) - 1 : Int) = some px ∧
      grid_get g i (img.y / step_y) =
        some (if (px.red.val + px.green.val + px.blue.val) / 3 > 200 then 0 else 1) := by
  have hst : IsSampleStep img step_x step_y
      ⟨some ((i * step_x * img.y + img.x : Nat) - 1 : Int), i, img.y / step_y⟩ :=
    Or.inr (Or.inr (Or.inl ⟨i, hi, rfl⟩))
  obtain ⟨hget, hne⟩ := sample_all_get img step_x step_y P grid g hP hg _ hst
  simp only [SampleStep.toOp] at hget hne
  cases hd : pixel_at img.data ((i * step_x * img.y + img.x : Nat) - 1 : Int) with
  | none => rw [hd] at hne; simp at hne
  | some px =>
    rw [hd] at hget
    refine ⟨px, rfl, ?_⟩
    rw [hget, Option.map_some', threshold_eq]
    rfl

/-- Claim C7 at its failing input: on the image of one row and two columns
(white, black) with step 1, the sample phase completes and stores 0 in the
boundary cell `grid[0][q]`, `q = 2`: the thresholded brightness of the white
pixel at index `0 * 1 * 2 + x - 1 = 0`.  The pixel in row 0 at the last column
`y - 1 = 1` is black, for which the threshold rule gives 1. -/
theorem boundary_column_reads_index_x :
    sample_all image_1x2 1 1 1 grid_2x3 = some [[0, 1, 0], [0, 1, 0]] ∧
    grid_get [[0, 1, 0], [0, 1, 0]] 0 (image_1x2.y / 1) = some 0 ∧
    (image_1x2.data[0 * 1 * image_1x2.y + (image_1x2.y - 1)]?).map threshold = some 1 ∧
    (image_1x2.data[0 * 1 * image_1x2.y + (image_1x2.x - 1)]?).map threshold = some 0 := by
  decide

/-! ## The corner cell -/

/-- Claim C9: for every image, steps and worker count `P ≥ 1`: whenever the
sample phase of all workers completes, `grid[p][q] = 0`; every step of every
worker that writes the cell `(p, q)` is the constant store of line 134, which
reads no pixel; and the sample phase does complete when its accesses are in
bounds. -/
theorem corner_cell_zero (img : ppm_image) (step_x step_y P : Nat) (grid : Grid)
    (hP : 1 ≤ P) :
    (SampleReady img step_x step_y grid → ∃ g, sample_all img step_x step_y P grid = some g) ∧
    (∀ g, sample_all img step_x step_y P grid = some g →
      grid_get g (img.x / step_x) (img.y / step_y) = some 0) ∧
    (∀ id st, st ∈ sample_trace img step_x step_y P id →
      st.i = img.x / step_x → st.j = img.y / step_y → st.src = none) ∧
    (∀ id g0 g1, step_x ≠ 0 → step_y ≠ 0 →
      sample_phase img step_x step_y P id g0 = some g1 →
      runOps gridStore ((sample_trace img step_x step_y P id).map (SampleStep.toOp img)) g0
        = some g1) := by
  refine ⟨sample_all_isSome img step_x step_y P grid hP, ?_, ?_, ?_⟩
  · intro g hg
    have hst : IsSampleStep img step_x step_y ⟨none, img.x / step_x, img.y / step_y⟩ :=
      Or.inr (Or.inl rfl)
    exact (sample_all_get img step_x step_y P grid g hP hg _ hst).1
  · intro id st hst hi hj
    rcases (mem_sample_trace img step_x step_y P id st).mp hst with
      ⟨i, j, h1, h2, h3, rfl⟩ | rfl | ⟨i, h1, h2, rfl⟩ | ⟨j, h1, h2, rfl⟩
    · simp only at hi hj
      omega
    · rfl
    · simp only at hi
      have := range_end_le id (img.x / step_x) P
      omega
    · simp only at hj
      have := range_end_le id (img.y / step_y) P
      omega
  · intro id g0 g1 hx hy h
    rw [← sample_phase_eq img step_x step_y P id g0 hx hy (by omega)]
    exact h

/-- Witness of `corner_cell_zero`: the one-pixel image sampled by two workers. -/
theorem corner_cell_zero_witness :
    ∃ g, sample_all image_1x1 1 1 2 grid_2x2 = some g ∧
      grid_get g (image_1x1.x / 1) (image_1x1.y / 1) = some 0 := by
  have h := corner_cell_zero image_1x1 1 1 2 grid_2x2 (by decide)
  obtain ⟨g, hg⟩ := h.1 (by unfold SampleReady; decide)
  exact ⟨g, hg, h.2.1 g hg⟩

/-! ## Skipping the rescale -/

/-- Claim C10: for every source image with `x ≤ 2048` and `y ≤ 2048`, the buffer
selected by `main` is the source image itself, and phase 1 of every worker id
for every worker count, as well as phase 1 of all workers together, returns it
unchanged, whatever the interpolation helper computes. -/
theorem rescale_skip (sample_bicubic : ppm_image → Nat → Nat → Nat → Nat → ppm_pixel)
    (image : ppm_image) (fresh : List ppm_pixel)
    (hx : image.x ≤ 2048) (hy : image.y ≤ 2048) :
    select_scaled image fresh = image ∧
    (∀ P id, rescale_phase sample_bicubic image P id (select_scaled image fresh) = some image) ∧
    (∀ P, rescale_all sample_bicubic image P (select_scaled image fresh) = some image) := by
  have hsel : select_scaled image fresh = image := by
    unfold select_scaled RESCALE_X RESCALE_Y
    simp [hx, hy]
  have hphase : ∀ P id, rescale_phase sample_bicubic image P id image = some image := by
    intro P id
    unfold rescale_phase RESCALE_X RESCALE_Y
    simp [hx, hy]
  rw [hsel]
  refine ⟨rfl, hphase, ?_⟩
  intro P
  unfold rescale_all forRange
  generalize P - 0 = n
  generalize 0 = lo
  induction n generalizing lo with
  | zero => rfl
  | succ n ih =>
    simp only [forLoop, hphase]
    exact ih (lo + 1)

/-- Witness of `rescale_skip`: the image of one row and two columns. -/
theorem rescale_skip_witness :
    select_scaled image_1x2 [] = image_1x2 ∧
    (∀ P id, rescale_phase (fun _ _ _ _ _ => white) image_1x2 P id
      (select_scaled image_1x2 []) = some image_1x2) ∧
    (∀ P, rescale_all (fun _ _ _ _ _ => white) image_1x2 P
      (select_scaled image_1x2 []) = some image_1x2) :=
  rescale_skip (fun _ _ _ _ _ => white) image_1x2 [] (by decide) (by decide)

/-! ## The solid black image -/

theorem pixel_at_mem (data : List ppm_pixel) (idx : Int) (px : ppm_pixel)
    (h : pixel_at data idx = some px) : px ∈ data := by
  unfold pixel_at at h
  by_cases hneg : idx < 0
  · simp [hneg] at h
  · simp only [hneg, if_false] at h
    exact List.getElem?_mem h

theorem sample_all_uniform (img : ppm_image) (step_x step_y P : Nat) (grid g : Grid) (v : Nat)
    (hP : 1 ≤ P) (hu : ∀ px ∈ img.data, threshold px = v)
    (h : sample_all img step_x step_y P grid = some g)
    (i j : Nat) (hi : i ≤ img.x / step_x) (hj : j ≤ img.y / step_y) :
    grid_get g i j = some (if i = img.x / step_x ∧ j = img.y / step_y then 0 else v) := by
  have key : ∀ st, IsSampleStep img step_x step_y st →
      grid_get g st.i st.j = some (if st.src = none then 0 else v) := by
    intro st hst
    obtain ⟨hget, hne⟩ := sample_all_get img step_x step_y P grid g hP h st hst
    rw [hget]
    unfold SampleStep.toOp at hne ⊢
    cases hsrc : st.src with
    | none => simp
    | some idx =>
      rw [hsrc] at hne
      simp only [] at hne ⊢
      cases hpx : pixel_at img.data idx with
      | none => rw [hpx] at hne; simp at hne
      | some px =>
        simp [hu px (pixel_at_mem img.data idx px hpx)]
  rcases Nat.lt_or_ge i (img.x / step_x) with hi1 | hi1
  · have hne : ¬ (i = img.x / step_x ∧ j = img.y / step_y) := by omega
    rcases Nat.lt_or_ge j (img.y / step_y) with hj1 | hj1
    · have := key ⟨_, i, j⟩ (Or.inl ⟨i, j, hi1, hj1, rfl⟩)
      simpa [hne] using this
    · have hj2 : j = img.y / step_y := by omega
      have := key ⟨_, i, _⟩ (Or.inr (Or.inr (Or.inl ⟨i, hi1, rfl⟩)))
      have hne1 : ¬ i = img.x / step_x := by omega
      rw [hj2]
      simpa [hne1] using this
  · have hi2 : i = img.x / step_x := by omega
    rcases Nat.lt_or_ge j (img.y / step_y) with hj1 | hj1
    · have hne : ¬ (i = img.x / step_x ∧ j = img.y / step_y) := by omega
      have := key ⟨_, _, j⟩ (Or.inr (Or.inr (Or.inr ⟨j, hj1, rfl⟩)))
      have hne1 : ¬ j = img.y / step_y := by omega
      rw [hi2]
      simpa [hne1] using this
    · have hj2 : j = img.y / step_y := by omega
      have := key ⟨_, _, _⟩ (Or.inr (Or.inl rfl))
      rw [hi2, hj2]
      simpa using this

theorem sample_then_march_some (contour_map : List ppm_image) (step_x step_y P : Nat)
    (img : ppm_image) (grid g : Grid) (im : ppm_image)
    (h : sample_then_march contour_map step_x step_y P img grid = some (g, im)) :
    sample_all img step_x step_y P grid = some g ∧
      march_all contour_map g step_x step_y P img = some im := by
  unfold sample_then_march at h
  cases hs : sample_all img step_x step_y P grid with
  | none => rw [hs] at h; exact Option.noConfusion h
  | some g1 =>
    rw [hs] at h
    simp only [] at h
    cases hm : march_all contour_map g1 step_x step_y P img with
    | none => rw [hm] at h; exact Option.noConfusion h
    | some im1 =>
      rw [hm] at h
      simp only [Option.some.injEq, Prod.mk.injEq] at h
      obtain ⟨rfl, rfl⟩ := h
      exact ⟨rfl, hm⟩

set_option maxRecDepth 100000 in
/-- Claim C8 as stated fails: on the 16 by 16 solid black image with step 8 the
sample phase leaves 0, not 1, in the corner cell `(2, 2)`, and the configuration
index of the interior cell `(1, 1)` is 13, not 15. -/
theorem solid_black_counterexample :
    ∃ g, sample_all image_16x16_black 8 8 1 grid_3x3 = some g ∧
      grid_get g 2 2 = some 0 ∧
      ∃ tl tr br bl, grid_get g 1 1 = some tl ∧ grid_get g 1 2 = some tr ∧
        grid_get g 2 2 = some br ∧ grid_get g 2 1 = some bl ∧
        config_index tl tr br bl = 13 :=
  ⟨[[1, 1, 1], [1, 1, 1], [1, 1, 0]], by decide, by decide, 1, 1, 0, 1, by decide, by decide,
    by decide, by decide, by decide⟩

theorem black_threshold : ∀ px ∈ image_16x16_black.data, threshold px = 1 := by
  intro px hpx
  have : px = black := List.eq_of_mem_replicate hpx
  subst this
  decide

theorem image_16x16_ready (grid : Grid) (hgrid : grid.map List.length = [3, 3, 3]) :
    SampleReady image_16x16_black 8 8 grid := by
  have hl : image_16x16_black.data.length = image_16x16_black.x * image_16x16_black.y := by
    show (List.replicate 256 black).length = 16 * 16
    rw [List.length_replicate]
  refine ⟨by decide, by decide, hl, by decide, ?_, ?_⟩
  · intro i hi
    have h2 : i < 2 := hi
    have hx : image_16x16_black.x = 16 := rfl
    have hy : image_16x16_black.y = 16 := rfl
    rw [hx, hy]
    omega
  · rw [hgrid]
    rfl

/-- Claim C8, amended: for the 16 by 16 image whose pixels are all (0, 0, 0),
step 8, every worker count `P ≥ 1`, every 3 by 3 grid and every catalog of 16
tiles of 8 by 8 pixels, the run completes; the grid is 1 in every cell except
the corner `(2, 2)`, which is 0; the configuration index is 15 for the interior
cells `(0, 0)`, `(0, 1)`, `(1, 0)` and 13 for `(1, 1)`; and each 8 by 8 block
`(i, j)` of the output buffer holds the pixels of the tile with that index. -/
theorem solid_black_16x16 (contour_map : List ppm_image) (P : Nat) (grid : Grid)
    (hP : 1 ≤ P) (hgrid : grid.map List.length = [3, 3, 3])
    (hlen : contour_map.length = 16)
    (hcat : ∀ t ∈ contour_map, t.x = 8 ∧ t.y = 8 ∧ t.data.length = 8 * 8) :
    ∃ g im, sample_then_march contour_map 8 8 P image_16x16_black grid = some (g, im) ∧
      (∀ i j, i ≤ 2 → j ≤ 2 →
        grid_get g i j = some (if i = 2 ∧ j = 2 then 0 else 1)) ∧
      (∀ i j, i < 2 → j < 2 →
        ∃ tl tr br bl, grid_get g i j = some tl ∧ grid_get g i (j + 1) = some tr ∧
          grid_get g (i + 1) (j + 1) = some br ∧ grid_get g (i + 1) j = some bl ∧
          config_index tl tr br bl = if i = 1 ∧ j = 1 then 13 else 15) ∧
      (∀ i j a b, i < 2 → j < 2 → a < 8 → b < 8 →
        ∃ tile px, contour_map[if i = 1 ∧ j = 1 then 13 else 15]? = some tile ∧
          tile.data[a * 8 + b]? = some px ∧
          im.data[(i * 8 + a) * 16 + (j * 8 + b)]? = some px) := by
  have hready := image_16x16_ready grid hgrid
  obtain ⟨g, im, hrun⟩ := sample_then_march_isSome contour_map 8 P image_16x16_black grid hP
    hready hlen hcat
  obtain ⟨hs, hm⟩ := sample_then_march_some contour_map 8 8 P image_16x16_black grid g im hrun
  have hcell : ∀ i j, i ≤ 2 → j ≤ 2 →
      grid_get g i j = some (if i = 2 ∧ j = 2 then 0 else 1) := by
    intro i j hi hj
    exact sample_all_uniform image_16x16_black 8 8 P grid g 1 hP black_threshold hs i j hi hj
  have hidx : ∀ i j, i < 2 → j < 2 →
      ∃ tl tr br bl, grid_get g i j = some tl ∧ grid_get g i (j + 1) = some tr ∧
        grid_get g (i + 1) (j + 1) = some br ∧ grid_get g (i + 1) j = some bl ∧
        config_index tl tr br bl = if i = 1 ∧ j = 1 then 13 else 15 := by
    intro i j hi hj
    refine ⟨_, _, _, _, hcell i j (by omega) (by omega), hcell i (j + 1) (by omega) (by omega),
      hcell (i + 1) (j + 1) (by omega) (by omega), hcell (i + 1) j (by omega) (by omega), ?_⟩
    interval_cases i <;> interval_cases j <;> decide
  refine ⟨g, im, hrun, hcell, hidx, ?_⟩
  intro i j a b hi hj ha hb
  obtain ⟨tl, tr, br, bl, h1, h2, h3, h4, hk⟩ := hidx i j hi hj
  have hcat2 : ∀ t ∈ contour_map, t.x = 8 ∧ t.y = 8 := fun t ht => ⟨(hcat t ht).1, (hcat t ht).2.1⟩
  obtain ⟨tile, px, ht, hpx, him⟩ := march_all_pixel contour_map g 8 8 P image_16x16_black im hP
    hcat2 hm i j a b hi hj ha hb
  rw [tile_at_of_cells contour_map g i j tl tr br bl h1 h2 h3 h4, hk] at ht
  refine ⟨tile, px, ht, ?_, ?_⟩
  · rw [Nat.mul_comm a 8]
    exact hpx
  · have hy : image_16x16_black.y = 16 := rfl
    rw [hy] at him
    rw [← Nat.add_assoc]
    exact him

/-- Witness of `solid_black_16x16`: one worker, the 3 by 3 grid of arbitrary
contents and a catalog of 16 black tiles of 8 by 8 pixels. -/
theorem solid_black_16x16_witness :
    ∃ g im, sample_then_march (List.replicate 16 ⟨8, 8, List.replicate 64 black⟩) 8 8 1
        image_16x16_black grid_3x3 = some (g, im) ∧
      (∀ i j, i ≤ 2 → j ≤ 2 →
        grid_get g i j = some (if i = 2 ∧ j = 2 then 0 else 1)) ∧
      (∀ i j, i < 2 → j < 2 →
        ∃ tl tr br bl, grid_get g i j = some tl ∧ grid_get g i (j + 1) = some tr ∧
          grid_get g (i + 1) (j + 1) = some br ∧ grid_get g (i + 1) j = some bl ∧
          config_index tl tr br bl = if i = 1 ∧ j = 1 then 13 else 15) ∧
      (∀ i j a b, i < 2 → j < 2 → a < 8 → b < 8 →
        ∃ tile px, (List.replicate 16 (⟨8, 8, List.replicate 64 black⟩ : ppm_image))[
            if i = 1 ∧ j = 1 then 13 else 15]? = some tile ∧
          tile.data[a * 8 + b]? = some px ∧
          im.data[(i * 8 + a) * 16 + (j * 8 + b)]? = some px) :=
  solid_black_16x16 (List.replicate 16 ⟨8, 8, List.replicate 64 black⟩) 1 grid_3x3
    (by decide) (by decide) (by simp)
    (by
      intro t ht
      have : t = ⟨8, 8, List.replicate 64 black⟩ := List.eq_of_mem_replicate ht
      subst this
      simp)

/-! ## The boundary row -/

theorem sample_all_row (img : ppm_image) (step_x step_y P : Nat) (grid g : Grid)
    (j : Nat) (hP : 1 ≤ P) (hj : j < img.y / step_y)
    (hg : sample_all img step_x step_y P grid = some g) :
    ∃ px, 1 ≤ img.x ∧ img.data[(img.x - 1) * img.y + j * step_y]? = some px ∧
      grid_get g (img.x / step_x) j =
        some (if (px.red.val + px.green.val + px.blue.val) / 3 > 200 then 0 else 1) := by
  have hst : IsSampleStep img step_x step_y
      ⟨some (((img.x : Int) - 1) * img.y + (j * step_y : Nat)), img.x / step_x, j⟩ :=
    Or.inr (Or.inr (Or.inr ⟨j, hj, rfl⟩))
  obtain ⟨hget, hne⟩ := sample_all_get img step_x step_y P grid g hP hg _ hst
  simp only [SampleStep.toOp] at hget hne
  have hsy : 1 ≤ step_y := by
    rcases Nat.eq_zero_or_pos step_y with h | h
    · subst h; simp at hj
    · exact h
  have h2 : (j + 1) * step_y ≤ img.y := (Nat.le_div_iff_mul_le (by omega)).mp hj
  have h4 : j * step_y < img.y := by
    have : (j + 1) * step_y = j * step_y + step_y := by ring
    omega
  have hx1 : 1 ≤ img.x := by
    by_contra hx0
    have hx : img.x = 0 := by omega
    have hneg : ((img.x : Int) - 1) * img.y + ((j * step_y : Nat) : Int) < 0 := by
      rw [hx]
      simp only [Nat.cast_zero, zero_sub, neg_mul, one_mul]
      omega
    apply hne
    have hnone : pixel_at img.data
        (((img.x : Int) - 1) * img.y + ((j * step_y : Nat) : Int)) = none := by
      unfold pixel_at
      rw [if_pos hneg]
    rw [hnone]
    rfl
  have hidx : ((img.x : Int) - 1) * img.y + ((j * step_y : Nat) : Int)
      = (((img.x - 1) * img.y + j * step_y : Nat) : Int) := by
    push_cast [Nat.cast_sub hx1]
    ring
  rw [pixel_at_of_eq img.data _ _ hidx] at hget hne
  cases hd : img.data[(img.x - 1) * img.y + j * step_y]? with
  | none => rw [hd] at hne; simp at hne
  | some px =>
    rw [hd] at hget
    refine ⟨px, hx1, rfl, ?_⟩
    rw [hget, Option.map_some', threshold_eq]
    rfl

/-- Claim C11: for every image, steps, worker count `P ≥ 1` and column `j < q`:
whenever the sample phase of all workers completes, the image has a last row
`x - 1`, the pixel of that row at column `j * step_y` (index
`(x - 1) * y + j * step_y`) exists, and the boundary cell `grid[p][j]` is 0 if its
brightness `(R + G + B) / 3` is above 200 and 1 otherwise; and the sample phase
does complete when its accesses are in bounds. -/
theorem boundary_row_last_row (img : ppm_image) (step_x step_y P : Nat) (grid : Grid) (j : Nat)
    (hP : 1 ≤ P) (hj : j < img.y / step_y) :
    (SampleReady img step_x step_y grid → ∃ g, sample_all img step_x step_y P grid = some g) ∧
    (∀ g, sample_all img step_x step_y P grid = some g →
      ∃ px, 1 ≤ img.x ∧ img.data[(img.x - 1) * img.y + j * step_y]? = some px ∧
        grid_get g (img.x / step_x) j =
          some (if (px.red.val + px.green.val + px.blue.val) / 3 > 200 then 0 else 1)) :=
  ⟨sample_all_isSome img step_x step_y P grid hP,
    fun g hg => sample_all_row img step_x step_y P grid g j hP hj hg⟩

/-- Witness of `boundary_row_last_row`: the image of one row (white, black),
whose boundary row is `grid[1][0] = 0` and `grid[1][1] = 1`; here the column 1. -/
theorem boundary_row_last_row_witness :
    ∃ g, sample_all image_1x2 1 1 2 grid_2x3 = some g ∧
      ∃ px, 1 ≤ image_1x2.x ∧
        image_1x2.data[(image_1x2.x - 1) * image_1x2.y + 1 * 1]? = some px ∧
        grid_get g (image_1x2.x / 1) 1 =
          some (if (px.red.val + px.green.val + px.blue.val) / 3 > 200 then 0 else 1) := by
  have h := boundary_row_last_row image_1x2 1 1 2 grid_2x3 1 (by decide) (by decide)
  obtain ⟨g, hg⟩ := h.1 (by unfold SampleReady; decide)
  exact ⟨g, hg, h.2 g hg⟩

/-! ## The grid before marching -/

theorem cell_has_step (img : ppm_image) (step_x step_y : Nat) (i j : Nat)
    (hi : i ≤ img.x / step_x) (hj : j ≤ img.y / step_y) :
    ∃ st, IsSampleStep img step_x step_y st ∧ st.i = i ∧ st.j = j := by
  rcases Nat.lt_or_ge i (img.x / step_x) with hi1 | hi1
  · rcases Nat.lt_or_ge j (img.y / step_y) with hj1 | hj1
    · exact ⟨⟨_, i, j⟩, Or.inl ⟨i, j, hi1, hj1, rfl⟩, rfl, rfl⟩
    · have hj2 : j = img.y / step_y := by omega
      exact ⟨⟨_, i, _⟩, Or.inr (Or.inr (Or.inl ⟨i, hi1, rfl⟩)), rfl, hj2.symm⟩
  · have hi2 : i = img.x / step_x := by omega
    rcases Nat.lt_or_ge j (img.y / step_y) with hj1 | hj1
    · exact ⟨⟨_, _, j⟩, Or.inr (Or.inr (Or.inr ⟨j, hj1, rfl⟩)), hi2.symm, rfl⟩
    · have hj2 : j = img.y / step_y := by omega
      exact ⟨⟨_, _, _⟩, Or.inr (Or.inl rfl), hi2.symm, hj2.symm⟩

theorem mem_sample_trace_all_worker (img : ppm_image) (step_x step_y P : Nat)
    (st : SampleStep) :
    st ∈ sample_trace_all img step_x step_y P ↔
      ∃ id, id < P ∧ st ∈ sample_trace img step_x step_y P id := by
  unfold sample_trace_all
  simp only [List.mem_flatMap, List.mem_range'_1, Nat.sub_zero, Nat.zero_add, Nat.zero_le,
    true_and]

/-- Claim C12: for every image, steps and worker count `P ≥ 1`: whenever the
sample phase of the workers `0, ..., P-1` completes, every cell `grid[i][j]` with
`i ≤ p` and `j ≤ q` holds 0 or 1, and it holds the value stored by a step of
some worker `id < P` that writes that cell; and the sample phase does complete
when its accesses are in bounds. -/
theorem grid_populated_binary (img : ppm_image) (step_x step_y P : Nat) (grid : Grid)
    (hP : 1 ≤ P) :
    (SampleReady img step_x step_y grid → ∃ g, sample_all img step_x step_y P grid = some g) ∧
    (∀ g, sample_all img step_x step_y P grid = some g →
      ∀ i j, i ≤ img.x / step_x → j ≤ img.y / step_y →
        (grid_get g i j = some 0 ∨ grid_get g i j = some 1) ∧
        ∃ id st, id < P ∧ st ∈ sample_trace img step_x step_y P id ∧ st.i = i ∧ st.j = j ∧
          grid_get g i j = (SampleStep.toOp img st).val) := by
  refine ⟨sample_all_isSome img step_x step_y P grid hP, ?_⟩
  intro g hg i j hi hj
  constructor
  · obtain ⟨v, hv, hle⟩ := sample_all_binary img step_x step_y P grid g hP hg i j hi hj
    rw [hv]
    rcases Nat.eq_zero_or_pos v with h0 | h1
    · left; rw [h0]
    · right
      have : v = 1 := by omega
      rw [this]
  · obtain ⟨st, hst, rfl, rfl⟩ := cell_has_step img step_x step_y i j hi hj
    have hmem := (mem_sample_trace_all img step_x step_y P hP st).mpr hst
    obtain ⟨id, hid, hin⟩ := (mem_sample_trace_all_worker img step_x step_y P st).mp hmem
    exact ⟨id, st, hid, hin, rfl, rfl,
      (sample_all_get img step_x step_y P grid g hP hg st hst).1⟩

/-- Witness of `grid_populated_binary`: the one-pixel image sampled by two
workers into a grid that held the value 7 everywhere. -/
theorem grid_populated_binary_witness :
    ∃ g, sample_all image_1x1 1 1 2 grid_2x2 = some g ∧
      ∀ i j, i ≤ image_1x1.x / 1 → j ≤ image_1x1.y / 1 →
        (grid_get g i j = some 0 ∨ grid_get g i j = some 1) ∧
        ∃ id st, id < 2 ∧ st ∈ sample_trace image_1x1 1 1 2 id ∧ st.i = i ∧ st.j = j ∧
          grid_get g i j = (SampleStep.toOp image_1x1 st).val := by
  have h := grid_populated_binary image_1x1 1 1 2 grid_2x2 (by decide)
  obtain ⟨g, hg⟩ := h.1 (by unfold SampleReady; decide)
  exact ⟨g, hg, h.2 g hg⟩

/-! ## Writers of a grid cell -/

theorem ranges_disjoint_ne (N P a b n : Nat) (ha : a < P) (hb : b < P) (hab : a ≠ b)
    (h1 : range_start a N P ≤ n) (h2 : n < range_end a N P)
    (h3 : range_start b N P ≤ n) (h4 : n < range_end b N P) : False := by
  rcases Nat.lt_or_gt_of_ne hab with h | h
  · exact range_disjoint N P a b n ha h h2 h3
  · exact range_disjoint N P b a n hb h h4 h1

theorem sample_trace_overlap (img : ppm_image) (step_x step_y P a b : Nat)
    (ha : a < P) (hb : b < P) (hab : a ≠ b) (st st1 : SampleStep)
    (hst : st ∈ sample_trace img step_x step_y P a)
    (hst1 : st1 ∈ sample_trace img step_x step_y P b)
    (hi : st.i = st1.i) (hj : st.j = st1.j) :
    st.i = img.x / step_x ∧ st.j = img.y / step_y ∧ st.src = none ∧ st1.src = none := by
  have e1 := range_end_le a (img.x / step_x) P
  have e2 := range_end_le b (img.x / step_x) P
  have e3 := range_end_le a (img.y / step_y) P
  have e4 := range_end_le b (img.y / step_y) P
  rcases (mem_sample_trace img step_x step_y P a st).mp hst with
    ⟨i, j, h1, h2, hj1, rfl⟩ | rfl | ⟨i, h1, h2, rfl⟩ | ⟨j, h1, h2, rfl⟩ <;>
  rcases (mem_sample_trace img step_x step_y P b st1).mp hst1 with
    ⟨i2, j2, h3, h4, hj2, rfl⟩ | rfl | ⟨i2, h3, h4, rfl⟩ | ⟨j2, h3, h4, rfl⟩ <;>
  simp only at hi hj <;>
  first
  | exact ⟨rfl, rfl, rfl, rfl⟩
  | (exfalso; omega)
  | (exfalso; subst hi; exact ranges_disjoint_ne _ P a b _ ha hb hab h1 h2 h3 h4)
  | (exfalso; subst hj; exact ranges_disjoint_ne _ P a b _ ha hb hab h1 h2 h3 h4)

theorem corner_step_mem (img : ppm_image) (step_x step_y P id : Nat) :
    (⟨none, img.x / step_x, img.y / step_y⟩ : SampleStep) ∈
      sample_trace img step_x step_y P id :=
  (mem_sample_trace img step_x step_y P id _).mpr (Or.inr (Or.inl rfl))

/-- Claim C13 as stated fails: with two workers on the one-pixel image, the
workers 0 and 1 both write the corner cell `(1, 1)`. -/
theorem single_writer_counterexample :
    ¬ (∀ (img : ppm_image) (step_x step_y P a b : Nat), 2 ≤ P → a < P → b < P → a ≠ b →
        ∀ st ∈ sample_trace img step_x step_y P a,
        ∀ st1 ∈ sample_trace img step_x step_y P b, ¬ (st.i = st1.i ∧ st.j = st1.j)) := by
  intro h
  exact h image_1x1 1 1 2 0 1 (by decide) (by decide) (by decide) (by decide)
    ⟨none, 1, 1⟩ (by decide) ⟨none, 1, 1⟩ (by decide) ⟨rfl, rfl⟩

/-- Claim C13, amended: for two distinct workers `a` and `b` below `P`, a cell
written by a step of `a` and by a step of `b` is the corner `(p, q)`, and both
steps are the constant store of line 134; the corner is written by every
worker; every other cell `(i, j)` with `i ≤ p`, `j ≤ q` is written by exactly
one worker below `P`.  The steps of a worker are the stores its sample phase
executes. -/
theorem single_writer_except_corner (img : ppm_image) (step_x step_y P a b : Nat)
    (ha : a < P) (hb : b < P) (hab : a ≠ b) :
    (∀ st ∈ sample_trace img step_x step_y P a,
      ∀ st1 ∈ sample_trace img step_x step_y P b, st.i = st1.i → st.j = st1.j →
        st.i = img.x / step_x ∧ st.j = img.y / step_y ∧ st.src = none ∧ st1.src = none) ∧
    (∀ id, (⟨none, img.x / step_x, img.y / step_y⟩ : SampleStep) ∈
      sample_trace img step_x step_y P id) ∧
    (∀ i j, i ≤ img.x / step_x → j ≤ img.y / step_y →
      ¬ (i = img.x / step_x ∧ j = img.y / step_y) →
      ∃! id, id < P ∧ ∃ st ∈ sample_trace img step_x step_y P id, st.i = i ∧ st.j = j) ∧
    (∀ id g0 g1, step_x ≠ 0 → step_y ≠ 0 →
      sample_phase img step_x step_y P id g0 = some g1 →
      runOps gridStore ((sample_trace img step_x step_y P id).map (SampleStep.toOp img)) g0
        = some g1) := by
  have hP : 1 ≤ P := by omega
  refine ⟨?_, corner_step_mem img step_x step_y P, ?_, ?_⟩
  · intro st hst st1 hst1 hi hj
    exact sample_trace_overlap img step_x step_y P a b ha hb hab st st1 hst hst1 hi hj
  · intro i j hi hj hne
    obtain ⟨st, hst, rfl, rfl⟩ := cell_has_step img step_x step_y i j hi hj
    have hmem := (mem_sample_trace_all img step_x step_y P hP st).mpr hst
    obtain ⟨id, hid, hin⟩ := (mem_sample_trace_all_worker img step_x step_y P st).mp hmem
    refine ⟨id, ⟨hid, st, hin, rfl, rfl⟩, ?_⟩
    rintro id1 ⟨hid1, st1, hin1, h1, h2⟩
    by_contra hdiff
    have := sample_trace_overlap img step_x step_y P id1 id hid1 hid hdiff st1 st hin1 hin h1 h2
    exact hne ⟨h1 ▸ this.1, h2 ▸ this.2.1⟩
  · intro id g0 g1 hx hy h
    rw [← sample_phase_eq img step_x step_y P id g0 hx hy (by omega)]
    exact h

/-- Witness of `single_writer_except_corner`: the image of one row and two
columns sampled by the workers 0 and 1 of two. -/
theorem single_writer_except_corner_witness :
    (∀ st ∈ sample_trace image_1x2 1 1 2 0,
      ∀ st1 ∈ sample_trace image_1x2 1 1 2 1, st.i = st1.i → st.j = st1.j →
        st.i = image_1x2.x / 1 ∧ st.j = image_1x2.y / 1 ∧ st.src = none ∧ st1.src = none) ∧
    (∀ id, (⟨none, image_1x2.x / 1, image_1x2.y / 1⟩ : SampleStep) ∈
      sample_trace image_1x2 1 1 2 id) ∧
    (∀ i j, i ≤ image_1x2.x / 1 → j ≤ image_1x2.y / 1 →
      ¬ (i = image_1x2.x / 1 ∧ j = image_1x2.y / 1) →
      ∃! id, id < 2 ∧ ∃ st ∈ sample_trace image_1x2 1 1 2 id, st.i = i ∧ st.j = j) ∧
    (∀ id g0 g1, 1 ≠ 0 → 1 ≠ 0 →
      sample_phase image_1x2 1 1 2 id g0 = some g1 →
      runOps gridStore ((sample_trace image_1x2 1 1 2 id).map (SampleStep.toOp image_1x2)) g0
        = some g1) :=
  single_writer_except_corner image_1x2 1 1 2 0 1 (by decide) (by decide) (by decide)

/-! ## Reads of the sample phase -/

/-- Claim C17 at its failing input: on the image of two rows and one column
(`x = 2`, `y = 1`, two pixels) with step 1, the worker 0 of one performs the
boundary-column step for the row `i = 1`, which reads the pixel index
`1 * 1 * 1 + 2 - 1 = 2`; the buffer has `x * y = 2` pixels, and the sample
phase fails on that read. -/
theorem sample_column_read_out_of_bounds :
    (⟨some 2, 1, 1⟩ : SampleStep) ∈ sample_trace image_2x1 1 1 1 0 ∧
    ((1 * 1 * image_2x1.y + image_2x1.x : Nat) - 1 : Int) = 2 ∧
    image_2x1.x * image_2x1.y = 2 ∧ image_2x1.data.length = 2 ∧
    1 ≤ image_2x1.x ∧ 1 ≤ image_2x1.y ∧ 1 < image_2x1.x / 1 ∧
    pixel_at image_2x1.data 2 = none ∧
    sample_phase image_2x1 1 1 1 0 grid_3x2 = none := by
  decide

/-! ## The last interior cell -/

theorem march_cell_of_cells (contour_map : List ppm_image) (grid : Grid)
    (step_x step_y i j tl tr br bl : Nat) (im : ppm_image)
    (h1 : grid_get grid i j = some tl) (h2 : grid_get grid i (j + 1) = some tr)
    (h3 : grid_get grid (i + 1) (j + 1) = some br) (h4 : grid_get grid (i + 1) j = some bl) :
    march_cell contour_map grid step_x step_y i j im =
      match contour_map[config_index tl tr br bl]? with
      | none => none
      | some tile => update_image im tile (i * step_x) (j * step_y) := by
  unfold march_cell
  rw [h1, h2, h3, h4]

theorem config_index_corner_clear (tl tr bl : Nat) (h1 : tl ≤ 1) (h2 : tr ≤ 1) (h4 : bl ≤ 1) :
    config_index tl tr 0 bl ∈ [0, 1, 4, 5, 8, 9, 12, 13] ∧
      config_index tl tr 0 bl / 2 % 2 = 0 := by
  have ht : tl = 0 ∨ tl = 1 := by omega
  have hr : tr = 0 ∨ tr = 1 := by omega
  have hb : bl = 0 ∨ bl = 1 := by omega
  rcases ht with rfl | rfl <;> rcases hr with rfl | rfl <;> rcases hb with rfl | rfl <;> decide

/-- Claim C19: for every image with `p ≥ 1` and `q ≥ 1`, steps and worker count
`P ≥ 1`: whenever the sample phase completes, the four corners read by the
march step of the interior cell `(p - 1, q - 1)` exist, the bottom-right one is
`grid[p][q] = 0`, and the configuration index that the march step computes from
them is one of 0, 1, 4, 5, 8, 9, 12, 13 (its weight-2 bit is clear); and the
sample phase does complete when its accesses are in bounds. -/
theorem last_cell_corner_clear (contour_map : List ppm_image) (img : ppm_image)
    (step_x step_y P : Nat) (grid : Grid)
    (hP : 1 ≤ P) (hp : 1 ≤ img.x / step_x) (hq : 1 ≤ img.y / step_y) :
    (SampleReady img step_x step_y grid → ∃ g, sample_all img step_x step_y P grid = some g) ∧
    (∀ g, sample_all img step_x step_y P grid = some g →
      ∃ tl tr bl,
        grid_get g (img.x / step_x - 1) (img.y / step_y - 1) = some tl ∧
        grid_get g (img.x / step_x - 1) (img.y / step_y - 1 + 1) = some tr ∧
        grid_get g (img.x / step_x - 1 + 1) (img.y / step_y - 1 + 1) = some 0 ∧
        grid_get g (img.x / step_x - 1 + 1) (img.y / step_y - 1) = some bl ∧
        config_index tl tr 0 bl ∈ [0, 1, 4, 5, 8, 9, 12, 13] ∧
        config_index tl tr 0 bl / 2 % 2 = 0 ∧
        ∀ im, march_cell contour_map g step_x step_y (img.x / step_x - 1)
            (img.y / step_y - 1) im =
          match contour_map[config_index tl tr 0 bl]? with
          | none => none
          | some tile =>
            update_image im tile ((img.x / step_x - 1) * step_x)
              ((img.y / step_y - 1) * step_y)) := by
  refine ⟨sample_all_isSome img step_x step_y P grid hP, ?_⟩
  intro g hg
  have hp1 : img.x / step_x - 1 + 1 = img.x / step_x := by omega
  have hq1 : img.y / step_y - 1 + 1 = img.y / step_y := by omega
  obtain ⟨tl, h1, b1⟩ := sample_all_binary img step_x step_y P grid g hP hg
    (img.x / step_x - 1) (img.y / step_y - 1) (by omega) (by omega)
  obtain ⟨tr, h2, b2⟩ := sample_all_binary img step_x step_y P grid g hP hg
    (img.x / step_x - 1) (img.y / step_y - 1 + 1) (by omega) (by omega)
  obtain ⟨bl, h4, b4⟩ := sample_all_binary img step_x step_y P grid g hP hg
    (img.x / step_x - 1 + 1) (img.y / step_y - 1) (by omega) (by omega)
  have h3 : grid_get g (img.x / step_x - 1 + 1) (img.y / step_y - 1 + 1) = some 0 := by
    rw [hp1, hq1]
    have hst : IsSampleStep img step_x step_y ⟨none, img.x / step_x, img.y / step_y⟩ :=
      Or.inr (Or.inl rfl)
    exact (sample_all_get img step_x step_y P grid g hP hg _ hst).1
  obtain ⟨hk1, hk2⟩ := config_index_corner_clear tl tr bl b1 b2 b4
  exact ⟨tl, tr, bl, h1, h2, h3, h4, hk1, hk2,
    fun im => march_cell_of_cells contour_map g step_x step_y _ _ tl tr 0 bl im h1 h2 h3 h4⟩

/-- Witness of `last_cell_corner_clear`: the one-pixel black image, whose only
interior cell `(0, 0)` has the corners 1, 1, 0, 1. -/
theorem last_cell_corner_clear_witness :
    ∃ g, sample_all image_1x1 1 1 1 grid_2x2 = some g ∧
      ∃ tl tr bl,
        grid_get g (image_1x1.x / 1 - 1) (image_1x1.y / 1 - 1) = some tl ∧
        grid_get g (image_1x1.x / 1 - 1) (image_1x1.y / 1 - 1 + 1) = some tr ∧
        grid_get g (image_1x1.x / 1 - 1 + 1) (image_1x1.y / 1 - 1 + 1) = some 0 ∧
        grid_get g (image_1x1.x / 1 - 1 + 1) (image_1x1.y / 1 - 1) = some bl ∧
        config_index tl tr 0 bl ∈ [0, 1, 4, 5, 8, 9, 12, 13] ∧
        config_index tl tr 0 bl / 2 % 2 = 0 ∧
        ∀ im, march_cell (List.replicate 16 image_1x1) g 1 1 (image_1x1.x / 1 - 1)
            (image_1x1.y / 1 - 1) im =
          match (List.replicate 16 image_1x1)[config_index tl tr 0 bl]? with
          | none => none
          | some tile =>
            update_image im tile ((image_1x1.x / 1 - 1) * 1) ((image_1x1.y / 1 - 1) * 1) := by
  have h := last_cell_corner_clear (List.replicate 16 image_1x1) image_1x1 1 1 1 grid_2x2
    (by decide) (by decide) (by decide)
  obtain ⟨g, hg⟩ := h.1 (by unfold SampleReady; decide)
  exact ⟨g, hg, h.2 g hg⟩

/-! ## The march phase of one worker -/

theorem imageStore_runOps_length (l : List (WriteOp Nat ppm_pixel)) (img img1 : ppm_image)
    (h : runOps imageStore l img = some img1) :
    img1.x = img.x ∧ img1.y = img.y ∧ img1.data.length = img.data.length := by
  induction l generalizing img with
  | nil =>
    simp only [runOps, Option.some.injEq] at h
    subst h
    exact ⟨rfl, rfl, rfl⟩
  | cons op rest ih =>
    simp only [runOps] at h
    cases hv : op.val with
    | none => rw [hv] at h; exact Option.noConfusion h
    | some v =>
      rw [hv] at h
      simp only [] at h
      cases hset : imageStore.set img op.addr v with
      | none => rw [hset] at h; exact Option.noConfusion h
      | some s2 =>
        rw [hset] at h
        simp only [] at h
        obtain ⟨h1, h2, h3⟩ := ih s2 h
        simp only [imageStore, pixel_set] at hset
        by_cases hlt : op.addr < img.data.length
        · simp only [hlt, if_true, Option.some.injEq] at hset
          subst hset
          simp only [List.length_set] at h3
          exact ⟨h1, h2, h3⟩
        · simp [hlt] at hset

theorem march_phase_steps (contour_map : List ppm_image) (grid : Grid) (step_x step_y P id : Nat)
    (img img1 : ppm_image)
    (h : march_phase contour_map grid step_x step_y P id img = some img1) :
    step_x ≠ 0 ∧ step_y ≠ 0 ∧ P ≠ 0 ∧
      runOps imageStore
        (march_rows_ops contour_map grid step_x step_y img.y (img.y / step_y)
          (range_start id (img.x / step_x) P)
          (range_end id (img.x / step_x) P - range_start id (img.x / step_x) P)) img
        = some img1 := by
  by_cases hg : step_x = 0 ∨ step_y = 0 ∨ P = 0
  · unfold march_phase at h
    rw [if_pos hg] at h
    exact Option.noConfusion h
  · have hx : step_x ≠ 0 := fun e => hg (Or.inl e)
    have hy : step_y ≠ 0 := fun e => hg (Or.inr (Or.inl e))
    have hP : P ≠ 0 := fun e => hg (Or.inr (Or.inr e))
    rw [march_phase_eq contour_map grid step_x step_y P id img hx hy hP] at h
    exact ⟨hx, hy, hP, h⟩

theorem mem_march_ops_of_run (contour_map : List ppm_image) (grid : Grid)
    (step_x step_y q lo n : Nat) (img img1 : ppm_image)
    (hcat : ∀ t ∈ contour_map, t.x = step_x ∧ t.y = step_y)
    (h : runOps imageStore
      (march_rows_ops contour_map grid step_x step_y img.y q lo n) img = some img1)
    (op : WriteOp Nat ppm_pixel)
    (hop : op ∈ march_rows_ops contour_map grid step_x step_y img.y q lo n) :
    ∃ i j a b tile, lo ≤ i ∧ i < lo + n ∧ j < q ∧ a < step_x ∧ b < step_y ∧
      tile_at contour_map grid i j = some tile ∧
      op = ⟨(i * step_x + a) * img.y + j * step_y + b, tile.data[step_x * a + b]?⟩ := by
  rcases (mem_march_rows_ops contour_map grid step_x step_y img.y q lo n op).mp hop with
    ⟨i, j, h1, h2, hj, hcell⟩
  cases ht : tile_at contour_map grid i j with
  | none =>
    unfold march_cell_ops at hcell
    rw [ht] at hcell
    have hop0 : op = ⟨0, none⟩ := List.mem_singleton.mp hcell
    have hbad := (runOps_eq_none_iff imageStore_lawful _ img).mpr
      ⟨op, hop, Or.inl (by rw [hop0])⟩
    rw [hbad] at h
    exact Option.noConfusion h
  | some tile =>
    unfold march_cell_ops at hcell
    rw [ht] at hcell
    simp only [] at hcell
    obtain ⟨hx, hy⟩ := hcat tile (tile_at_mem contour_map grid i j tile ht)
    rcases (mem_update_ops tile _ _ img.y op).mp hcell with ⟨a, b, ha, hb, rfl⟩
    rw [hx] at ha
    rw [hy] at hb
    exact ⟨i, j, a, b, tile, h1, h2, hj, ha, hb, ht, by rw [hx]⟩

theorem march_phase_frame (contour_map : List ppm_image) (grid : Grid)
    (step_x step_y P id : Nat) (img img1 : ppm_image)
    (hcat : ∀ t ∈ contour_map, t.x = step_x ∧ t.y = step_y)
    (h : march_phase contour_map grid step_x step_y P id img = some img1) :
    img1.x = img.x ∧ img1.y = img.y ∧ img1.data.length = img.data.length ∧
      ∀ idx, ¬ march_region img step_x step_y P id idx → img1.data[idx]? = img.data[idx]? := by
  obtain ⟨_, _, _, hrun⟩ := march_phase_steps contour_map grid step_x step_y P id img img1 h
  obtain ⟨d1, d2, d3⟩ := imageStore_runOps_length _ img img1 hrun
  refine ⟨d1, d2, d3, ?_⟩
  intro idx hidx
  have hframe := runOps_get_frame imageStore_lawful _ img img1 hrun idx (by
    intro op hop heq
    apply hidx
    obtain ⟨i, j, a, b, tile, h1, h2, hj, ha, hb, _, rfl⟩ :=
      mem_march_ops_of_run contour_map grid step_x step_y _ _ _ img img1 hcat hrun op hop
    simp only at heq
    have hlo : range_start id (img.x / step_x) P * step_x ≤ i * step_x :=
      Nat.mul_le_mul_right step_x h1
    have hhi := block_offset_lt step_x (range_end id (img.x / step_x) P) i a (by omega) ha
    have hc := block_offset_lt step_y (img.y / step_y) j b hj hb
    exact ⟨i * step_x + a, j * step_y + b, by omega, hhi, hc, by omega⟩)
  simpa [imageStore] using hframe

theorem march_region_disjoint (img : ppm_image) (step_x step_y P a b : Nat)
    (ha : a < P) (hb : b < P) (hab : a ≠ b) (idx : Nat)
    (h1 : march_region img step_x step_y P a idx) (h2 : march_region img step_x step_y P b idx) :
    False := by
  obtain ⟨r, c, l1, u1, hc, rfl⟩ := h1
  obtain ⟨r2, c2, l2, u2, hc2, heq⟩ := h2
  have hq : img.y / step_y * step_y ≤ img.y := Nat.div_mul_le_self _ _
  obtain ⟨hr, _⟩ := index_unique img.y r c r2 c2 (by omega) (by omega) heq
  subst hr
  have key : ∀ u v, u < P → u < v →
      r < range_end u (img.x / step_x) P * step_x →
      range_start v (img.x / step_x) P * step_x ≤ r → False := by
    intro u v hu huv hlt hle
    rw [range_end_eq_start_succ u _ P hu] at hlt
    have hm := range_start_mono (img.x / step_x) P (show u + 1 ≤ v by omega)
    have := Nat.mul_le_mul_right step_x hm
    omega
  rcases Nat.lt_or_gt_of_ne hab with hlt | hgt
  · exact key a b ha hlt u1 l2
  · exact key b a hb hgt u2 l1

theorem march_rows_isSome (contour_map : List ppm_image) (grid : Grid) (s lo n : Nat)
    (img : ppm_image) (hlen : img.data.length = img.x * img.y)
    (hcat : ∀ t ∈ contour_map, t.x = s ∧ t.y = s ∧ t.data.length = s * s)
    (hrange : ∀ i, lo ≤ i → i < lo + n → i < img.x / s)
    (htiles : ∀ i j, i < img.x / s → j < img.y / s → tile_at contour_map grid i j ≠ none) :
    ∃ img1, runOps imageStore
      (march_rows_ops contour_map grid s s img.y (img.y / s) lo n) img = some img1 := by
  apply runOps_isSome imageStore_lawful
  intro op hop
  rcases (mem_march_rows_ops contour_map grid s s img.y _ lo n op).mp hop with
    ⟨i, j, h1, h2, hj, hcell⟩
  have hi := hrange i h1 h2
  cases ht : tile_at contour_map grid i j with
  | none => exact absurd ht (htiles i j hi hj)
  | some tile =>
    unfold march_cell_ops at hcell
    rw [ht] at hcell
    simp only [] at hcell
    obtain ⟨hx, hy, htl⟩ := hcat tile (tile_at_mem contour_map grid i j tile ht)
    rcases (mem_update_ops tile _ _ img.y op).mp hcell with ⟨a, b, ha, hb, rfl⟩
    rw [hx] at ha
    rw [hy] at hb
    simp only [imageStore]
    constructor
    · apply getElem?_ne_none_of_lt
      rw [htl, hx]
      have := Nat.mul_le_mul_left s (show a + 1 ≤ s by omega)
      have h2 : s * (a + 1) = s * a + s := by ring
      omega
    · apply getElem?_ne_none_of_lt
      rw [hlen]
      have hr := block_offset_lt s (img.x / s) i a hi ha
      have hc := block_offset_lt s (img.y / s) j b hj hb
      have hx1 : img.x / s * s ≤ img.x := Nat.div_mul_le_self _ _
      have hy1 : img.y / s * s ≤ img.y := Nat.div_mul_le_self _ _
      have := Nat.mul_le_mul_right img.y (show i * s + a + 1 ≤ img.x by omega)
      have h2 : (i * s + a + 1) * img.y = (i * s + a) * img.y + img.y := by ring
      omega

theorem march_phase_isSome (contour_map : List ppm_image) (grid : Grid) (s P id : Nat)
    (img : ppm_image) (hP : 1 ≤ P) (hs : 1 ≤ s) (hlen : img.data.length = img.x * img.y)
    (hcat : ∀ t ∈ contour_map, t.x = s ∧ t.y = s ∧ t.data.length = s * s)
    (htiles : ∀ i j, i < img.x / s → j < img.y / s → tile_at contour_map grid i j ≠ none) :
    ∃ img1, march_phase contour_map grid s s P id img = some img1 := by
  rw [march_phase_eq contour_map grid s s P id img (by omega) (by omega) (by omega)]
  apply march_rows_isSome contour_map grid s _ _ img hlen hcat _ htiles
  intro i h1 h2
  have := range_end_le id (img.x / s) P
  omega

theorem tile_at_of_binary (contour_map : List ppm_image) (grid : Grid) (p q : Nat)
    (hlen : contour_map.length = 16)
    (hbin : ∀ i j, i ≤ p → j ≤ q → ∃ v, grid_get grid i j = some v ∧ v ≤ 1)
    (i j : Nat) (hi : i < p) (hj : j < q) : tile_at contour_map grid i j ≠ none := by
  obtain ⟨tl, h1, b1⟩ := hbin i j (by omega) (by omega)
  obtain ⟨tr, h2, b2⟩ := hbin i (j + 1) (by omega) (by omega)
  obtain ⟨br, h3, b3⟩ := hbin (i + 1) (j + 1) (by omega) (by omega)
  obtain ⟨bl, h4, b4⟩ := hbin (i + 1) j (by omega) (by omega)
  rw [tile_at_of_cells contour_map grid i j tl tr br bl h1 h2 h3 h4]
  apply getElem?_ne_none_of_lt
  have := config_index_le tl tr br bl b1 b2 b3 b4
  omega

/-- Claim C14: with tiles of `step_x` by `step_y` pixels, whenever the march
phase of worker `id` completes it keeps the dimensions and the length of the
buffer and leaves every pixel outside the region of the worker (rows
`start_p * step_x ≤ r < end_p * step_x`, columns `c < q * step_y`) unchanged; the
regions of two distinct workers below `P` share no pixel; and with equal steps,
a buffer of `x * y` pixels and a tile for every interior cell the march phase
does complete.  The march phase has no store to the grid: it only reads it. -/
theorem march_frame (contour_map : List ppm_image) (grid : Grid) (step_x step_y P id : Nat)
    (img : ppm_image) (hcat : ∀ t ∈ contour_map, t.x = step_x ∧ t.y = step_y) :
    (∀ img1, march_phase contour_map grid step_x step_y P id img = some img1 →
      img1.x = img.x ∧ img1.y = img.y ∧ img1.data.length = img.data.length ∧
      ∀ idx, ¬ march_region img step_x step_y P id idx →
        img1.data[idx]? = img.data[idx]?) ∧
    (∀ b, id < P → b < P → id ≠ b → ∀ idx,
      ¬ (march_region img step_x step_y P id idx ∧ march_region img step_x step_y P b idx)) ∧
    (step_x = step_y → 1 ≤ P → 1 ≤ step_x → img.data.length = img.x * img.y →
      (∀ t ∈ contour_map, t.data.length = step_x * step_y) →
      (∀ i j, i < img.x / step_x → j < img.y / step_y →
        tile_at contour_map grid i j ≠ none) →
      ∃ img1, march_phase contour_map grid step_x step_y P id img = some img1) := by
  refine ⟨?_, ?_, ?_⟩
  · intro img1 h
    exact march_phase_frame contour_map grid step_x step_y P id img img1 hcat h
  · intro b hid hb hne idx hboth
    exact march_region_disjoint img step_x step_y P id b hid hb hne idx hboth.1 hboth.2
  · intro hs hP h1 hlen hdata htiles
    subst hs
    exact march_phase_isSome contour_map grid step_x P id img hP h1 hlen
      (fun t ht => ⟨(hcat t ht).1, (hcat t ht).2, hdata t ht⟩) htiles

/-- Witness of `march_frame`: the image of two rows and two columns with its
sampled grid and a catalog of 16 white one-pixel tiles, marched by worker 0 of
two.  The worker overwrites the pixels 0 and 1 of its row; the pixel 2 lies
outside its region (it belongs to worker 1) and keeps its value; the regions
of the workers 0 and 1 share no pixel. -/
theorem march_frame_witness :
    ∃ img1, march_phase (List.replicate 16 tile_1x1_white) grid_sampled_2x2 1 1 2 0 image_2x2
        = some img1 ∧
      img1 = ⟨2, 2, [white, white, gray 30, gray 40]⟩ ∧
      img1.x = image_2x2.x ∧ img1.y = image_2x2.y ∧
      img1.data.length = image_2x2.data.length ∧
      (∀ idx, ¬ march_region image_2x2 1 1 2 0 idx →
        img1.data[idx]? = image_2x2.data[idx]?) ∧
      march_region image_2x2 1 1 2 0 0 ∧
      ¬ march_region image_2x2 1 1 2 0 2 ∧
      img1.data[2]? = image_2x2.data[2]? ∧ image_2x2.data[2]? = some (gray 30) ∧
      march_region image_2x2 1 1 2 1 2 ∧
      (∀ idx, ¬ (march_region image_2x2 1 1 2 0 idx ∧ march_region image_2x2 1 1 2 1 idx)) := by
  have h := march_frame (List.replicate 16 tile_1x1_white) grid_sampled_2x2 1 1 2 0 image_2x2
    (by decide)
  have htiles : ∀ i j, i < image_2x2.x / 1 → j < image_2x2.y / 1 →
      tile_at (List.replicate 16 tile_1x1_white) grid_sampled_2x2 i j ≠ none := by
    intro i j hi hj
    have hx : image_2x2.x / 1 = 2 := rfl
    have hy : image_2x2.y / 1 = 2 := rfl
    rw [hx] at hi
    rw [hy] at hj
    interval_cases i <;> interval_cases j <;> decide
  obtain ⟨img1, h1⟩ := h.2.2 rfl (by decide) (by decide) (by decide) (by decide) htiles
  have hval : march_phase (List.replicate 16 tile_1x1_white) grid_sampled_2x2 1 1 2 0 image_2x2
      = some ⟨2, 2, [white, white, gray 30, gray 40]⟩ := by decide
  have himg : img1 = ⟨2, 2, [white, white, gray 30, gray 40]⟩ := by
    rw [h1] at hval
    exact Option.some.inj hval
  obtain ⟨d1, d2, d3, hframe⟩ := h.1 img1 h1
  have hout : ¬ march_region image_2x2 1 1 2 0 2 := by
    rintro ⟨r, c, _, h2, h3, h4⟩
    have e1 : range_end 0 (image_2x2.x / 1) 2 * 1 = 1 := by decide
    have e2 : image_2x2.y / 1 * 1 = 2 := rfl
    have e3 : image_2x2.y = 2 := rfl
    rw [e1] at h2
    rw [e2] at h3
    rw [e3] at h4
    omega
  exact ⟨img1, h1, himg, d1, d2, d3, hframe,
    ⟨0, 0, by decide, by decide, by decide, by decide⟩, hout, hframe 2 hout, by decide,
    ⟨1, 0, by decide, by decide, by decide, by decide⟩,
    h.2.1 1 (by decide) (by decide) (by decide)⟩

/-- Claim C18: for a buffer of `x * y` pixels, equal steps `s ≥ 1`, a grid of
`(p + 1)` rows of `(q + 1)` cells and a catalog of 16 tiles of `s` by `s` pixels
with `s * s` data: every cell `(i, j)` marched by worker `id` reads the grid at
rows `≤ p` and columns `≤ q`, inside the grid; for every tile of the catalog and
every interior cell, the tile indices `tile.x * a + b` read by `update_image` are
below `s * s`, the image indices `(i * s + a) * y + j * s + b` it writes are below
`x * y`, and `update_image` completes on every buffer of these dimensions; and
when the grid cells hold 0 or 1, as the sample phase leaves them, the march
phase of the worker completes. -/
theorem march_in_bounds (contour_map : List ppm_image) (grid : Grid) (s P id : Nat)
    (img : ppm_image) (hs : 1 ≤ s) (hP : 1 ≤ P)
    (hlen : img.data.length = img.x * img.y)
    (hshape : grid.map List.length = List.replicate (img.x / s + 1) (img.y / s + 1))
    (hcm : contour_map.length = 16)
    (hcat : ∀ t ∈ contour_map, t.x = s ∧ t.y = s ∧ t.data.length = s * s) :
    (∀ i j, range_start id (img.x / s) P ≤ i → i < range_end id (img.x / s) P →
      j < img.y / s →
      i + 1 ≤ img.x / s ∧ j + 1 ≤ img.y / s ∧
      grid_get grid i j ≠ none ∧ grid_get grid i (j + 1) ≠ none ∧
      grid_get grid (i + 1) (j + 1) ≠ none ∧ grid_get grid (i + 1) j ≠ none) ∧
    (∀ tile ∈ contour_map, ∀ i j, i < img.x / s → j < img.y / s →
      (∀ a b, a < tile.x → b < tile.y →
        tile.x * a + b < s * s ∧ tile.x * a + b < tile.data.length ∧
        (i * s + a) * img.y + j * s + b < img.x * img.y) ∧
      (∀ im : ppm_image, im.x = img.x → im.y = img.y → im.data.length = img.x * img.y →
        ∃ im1, update_image im tile (i * s) (j * s) = some im1)) ∧
    ((∀ i j, i ≤ img.x / s → j ≤ img.y / s → ∃ v, grid_get grid i j = some v ∧ v ≤ 1) →
      ∃ img1, march_phase contour_map grid s s P id img = some img1) := by
  have hx1 : img.x / s * s ≤ img.x := Nat.div_mul_le_self _ _
  have hy1 : img.y / s * s ≤ img.y := Nat.div_mul_le_self _ _
  refine ⟨?_, ?_, ?_⟩
  · intro i j h1 h2 hj
    have he := range_end_le id (img.x / s) P
    exact ⟨by omega, by omega,
      grid_get_ne_none grid _ _ i j hshape (by omega) (by omega),
      grid_get_ne_none grid _ _ i (j + 1) hshape (by omega) (by omega),
      grid_get_ne_none grid _ _ (i + 1) (j + 1) hshape (by omega) (by omega),
      grid_get_ne_none grid _ _ (i + 1) j hshape (by omega) (by omega)⟩
  · intro tile htile i j hi hj
    obtain ⟨tx, ty, tl⟩ := hcat tile htile
    have hreads : ∀ a b, a < tile.x → b < tile.y → tile.x * a + b < tile.data.length := by
      intro a b ha hb
      rw [tl, tx]
      rw [tx] at ha
      rw [ty] at hb
      have := Nat.mul_le_mul_left s (show a + 1 ≤ s by omega)
      have h2 : s * (a + 1) = s * a + s := by ring
      omega
    have hrow := block_offset_lt s (img.x / s) i 0 hi (by omega)
    have hcol := block_offset_lt s (img.y / s) j 0 hj (by omega)
    have hi2 := Nat.mul_le_mul_right s (show i + 1 ≤ img.x / s by omega)
    have hj2 := Nat.mul_le_mul_right s (show j + 1 ≤ img.y / s by omega)
    have hi3 : (i + 1) * s = i * s + s := by ring
    have hj3 : (j + 1) * s = j * s + s := by ring
    constructor
    · intro a b ha hb
      have hr := hreads a b ha hb
      refine ⟨by rw [← tl]; exact hr, hr, ?_⟩
      rw [tx] at ha
      rw [ty] at hb
      have := Nat.mul_le_mul_right img.y (show i * s + a + 1 ≤ img.x by omega)
      have h2 : (i * s + a + 1) * img.y = (i * s + a) * img.y + img.y := by ring
      omega
    · intro im ex ey el
      apply update_image_isSome im tile (i * s) (j * s)
      · rw [el, ex, ey]
      · rw [tx, ex]; omega
      · rw [ty, ey]; omega
      · exact hreads
  · intro hbin
    exact march_phase_isSome contour_map grid s P id img hP hs hlen hcat
      (fun i j hi hj => tile_at_of_binary contour_map grid _ _ hcm hbin i j hi hj)

/-- Witness of `march_in_bounds`: the one-pixel image with its sampled grid and
a catalog of 16 one-pixel tiles; the march phase of the only worker completes. -/
theorem march_in_bounds_witness :
    ∃ img1, march_phase (List.replicate 16 image_1x1) grid_sampled_1x1 1 1 1 0 image_1x1
      = some img1 :=
  (march_in_bounds (List.replicate 16 image_1x1) grid_sampled_1x1 1 1 0 image_1x1
    (by decide) (by decide) (by decide) (by decide) (by decide) (by decide)).2.2
    (by
      intro i j hi hj
      have hx : image_1x1.x / 1 = 1 := rfl
      have hy : image_1x1.y / 1 = 1 := rfl
      rw [hx] at hi
      rw [hy] at hj
      interval_cases i <;> interval_cases j <;> exact ⟨_, rfl, by decide⟩)

/-! ## Loop invariants -/

theorem forLoop_preserves {σ : Type} (Inv : σ → Prop) (body : Nat → σ → Option σ)
    (hbody : ∀ i s s1, Inv s → body i s = some s1 → Inv s1)
    (n lo : Nat) (s s1 : σ) (hs : Inv s) (h : forLoop body n lo s = some s1) : Inv s1 := by
  induction n generalizing lo s with
  | zero =>
    simp only [forLoop, Option.some.injEq] at h
    rw [← h]
    exact hs
  | succ n ih =>
    simp only [forLoop] at h
    cases hb : body lo s with
    | none => rw [hb] at h; exact Option.noConfusion h
    | some s2 =>
      rw [hb] at h
      exact ih (lo + 1) s2 (hbody lo s s2 hs hb) h

theorem forLoop_total {σ : Type} (Inv : σ → Prop) (body : Nat → σ → Option σ)
    (n lo : Nat)
    (hbody : ∀ i s, lo ≤ i → i < lo + n → Inv s → ∃ s1, body i s = some s1 ∧ Inv s1)
    (s : σ) (hs : Inv s) : ∃ s1, forLoop body n lo s = some s1 ∧ Inv s1 := by
  induction n generalizing lo s with
  | zero => exact ⟨s, rfl, hs⟩
  | succ n ih =>
    obtain ⟨s2, hb, hs2⟩ := hbody lo s (le_refl _) (by omega) hs
    simp only [forLoop, hb]
    exact ih (lo + 1) (fun i t h1 h2 ht => hbody i t (by omega) (by omega) ht) s2 hs2

/-! ## Dimensions of the rescaled buffer -/

theorem pixel_set_dims (img img1 : ppm_image) (idx : Nat) (px : ppm_pixel)
    (h : pixel_set img idx px = some img1) :
    img1.x = img.x ∧ img1.y = img.y ∧ img1.data.length = img.data.length := by
  unfold pixel_set at h
  by_cases hlt : idx < img.data.length
  · simp only [hlt, if_true, Option.some.injEq] at h
    subst h
    simp
  · simp [hlt] at h

theorem rescale_phase_dims (sample_bicubic : ppm_image → Nat → Nat → Nat → Nat → ppm_pixel)
    (image : ppm_image) (P id : Nat) (s s1 : ppm_image)
    (h : rescale_phase sample_bicubic image P id s = some s1) :
    s1.x = s.x ∧ s1.y = s.y ∧ s1.data.length = s.data.length := by
  unfold rescale_phase at h
  by_cases hfit : image.x ≤ RESCALE_X ∧ image.y ≤ RESCALE_Y
  · rw [if_neg (fun hn => hn hfit)] at h
    cases h
    exact ⟨rfl, rfl, rfl⟩
  · rw [if_pos hfit] at h
    by_cases hP : P = 0
    · rw [if_pos hP] at h
      exact Option.noConfusion h
    · rw [if_neg hP] at h
      unfold forRange at h
      refine forLoop_preserves
        (fun t => t.x = s.x ∧ t.y = s.y ∧ t.data.length = s.data.length) _ ?_ _ _ s s1
        ⟨rfl, rfl, rfl⟩ h
      intro i t t1 ht hb
      refine forLoop_preserves
        (fun t => t.x = s.x ∧ t.y = s.y ∧ t.data.length = s.data.length) _ ?_ _ _ t t1 ht hb
      intro j u u1 hu hset
      obtain ⟨e1, e2, e3⟩ := pixel_set_dims u u1 _ _ hset
      exact ⟨e1.trans hu.1, e2.trans hu.2.1, e3.trans hu.2.2⟩

theorem rescale_all_dims (sample_bicubic : ppm_image → Nat → Nat → Nat → Nat → ppm_pixel)
    (image : ppm_image) (P : Nat) (s s1 : ppm_image)
    (h : rescale_all sample_bicubic image P s = some s1) :
    s1.x = s.x ∧ s1.y = s.y ∧ s1.data.length = s.data.length := by
  unfold rescale_all forRange at h
  refine forLoop_preserves
    (fun t => t.x = s.x ∧ t.y = s.y ∧ t.data.length = s.data.length) _ ?_ _ _ s s1
    ⟨rfl, rfl, rfl⟩ h
  intro id t t1 ht hb
  obtain ⟨e1, e2, e3⟩ := rescale_phase_dims sample_bicubic image P id t t1 hb
  exact ⟨e1.trans ht.1, e2.trans ht.2.1, e3.trans ht.2.2⟩

theorem rescale_phase_isSome (sample_bicubic : ppm_image → Nat → Nat → Nat → Nat → ppm_pixel)
    (image : ppm_image) (P id : Nat) (t : ppm_image) (hP : 1 ≤ P)
    (hlen : t.data.length = t.x * t.y) :
    ∃ t1, rescale_phase sample_bicubic image P id t = some t1 := by
  unfold rescale_phase
  by_cases hfit : image.x ≤ RESCALE_X ∧ image.y ≤ RESCALE_Y
  · rw [if_neg (fun hn => hn hfit)]
    exact ⟨t, rfl⟩
  · have hP0 : ¬ P = 0 := by omega
    rw [if_pos hfit, if_neg hP0]
    unfold forRange
    have hend := range_end_le id t.y P
    obtain ⟨t1, h1, _⟩ := forLoop_total
      (fun u : ppm_image => u.x = t.x ∧ u.y = t.y ∧ u.data.length = t.x * t.y)
      (fun i simg =>
        forLoop (fun j simg1 =>
          pixel_set simg1 (i * simg1.y + j)
            ⟨(sample_bicubic image i j simg1.x simg1.y).red,
              (sample_bicubic image i j simg1.x simg1.y).green,
              (sample_bicubic image i j simg1.x simg1.y).blue⟩)
          (range_end id t.y P - range_start id t.y P) (range_start id t.y P) simg)
      (t.x - 0) 0
      (by
        intro i u _ hi2 hu
        exact forLoop_total
          (fun u : ppm_image => u.x = t.x ∧ u.y = t.y ∧ u.data.length = t.x * t.y)
          _ _ _
          (by
            intro j v _ hj2 hv
            have hidx : i * v.y + j < v.data.length := by
              rw [hv.2.2, hv.2.1]
              have := Nat.mul_le_mul_right t.y (show i + 1 ≤ t.x by omega)
              have h2 : (i + 1) * t.y = i * t.y + t.y := by ring
              omega
            cases hset : pixel_set v (i * v.y + j) ⟨(sample_bicubic image i j v.x v.y).red,
                (sample_bicubic image i j v.x v.y).green,
                (sample_bicubic image i j v.x v.y).blue⟩ with
            | none =>
              unfold pixel_set at hset
              rw [if_pos hidx] at hset
              exact Option.noConfusion hset
            | some v1 =>
              obtain ⟨e1, e2, e3⟩ := pixel_set_dims v v1 _ _ hset
              exact ⟨v1, rfl, e1.trans hv.1, e2.trans hv.2.1, e3.trans hv.2.2⟩)
          u hu)
      t ⟨rfl, rfl, hlen⟩
    exact ⟨t1, h1⟩

theorem rescale_all_isSome (sample_bicubic : ppm_image → Nat → Nat → Nat → Nat → ppm_pixel)
    (image : ppm_image) (P : Nat) (s : ppm_image) (hP : 1 ≤ P)
    (hlen : s.data.length = s.x * s.y) :
    ∃ s1, rescale_all sample_bicubic image P s = some s1 := by
  unfold rescale_all forRange
  obtain ⟨s1, h1, _⟩ := forLoop_total
    (fun t : ppm_image => t.x = s.x ∧ t.y = s.y ∧ t.data.length = s.x * s.y)
    (fun id simg => rescale_phase sample_bicubic image P id simg) (P - 0) 0
    (by
      intro id t _ _ ht
      obtain ⟨t1, h1⟩ := rescale_phase_isSome sample_bicubic image P id t hP
        (by rw [ht.2.2, ht.1, ht.2.1])
      obtain ⟨e1, e2, e3⟩ := rescale_phase_dims sample_bicubic image P id t t1 h1
      exact ⟨t1, h1, e1.trans ht.1, e2.trans ht.2.1, e3.trans ht.2.2⟩)
    s ⟨rfl, rfl, hlen⟩
  exact ⟨s1, h1⟩

/-! ## Output dimensions -/

theorem alloc_grid_shape (p q : Nat) (junk : Nat → Nat → Nat) :
    (alloc_grid p q junk).map List.length = List.replicate (p + 1) (q + 1) := by
  unfold alloc_grid
  apply List.ext_getElem?
  intro k
  simp only [List.getElem?_map, List.getElem?_replicate, List.getElem?_range]
  by_cases hk : k < p + 1
  · simp [hk, List.getElem?_range hk]
  · have : (List.range (p + 1))[k]? = none := by
      apply List.getElem?_eq_none_iff.mpr
      simp only [List.length_range]
      omega
    simp [hk, this]

theorem march_all_dims_any (contour_map : List ppm_image) (grid : Grid) (step_x step_y P : Nat)
    (img img1 : ppm_image)
    (h : march_all contour_map grid step_x step_y P img = some img1) :
    img1.x = img.x ∧ img1.y = img.y := by
  rcases Nat.eq_zero_or_pos P with h0 | hpos
  · subst h0
    unfold march_all forRange at h
    simp only [Nat.sub_zero, forLoop, Option.some.injEq] at h
    subst h
    exact ⟨rfl, rfl⟩
  · have := march_all_dims contour_map grid step_x step_y P img img1 hpos h
    exact ⟨this.1, this.2.1⟩

theorem func_all_dims (sample_bicubic : ppm_image → Nat → Nat → Nat → Nat → ppm_pixel)
    (contour_map : List ppm_image) (step_x step_y P : Nat)
    (image scaled : ppm_image) (grid g : Grid) (out : ppm_image)
    (h : func_all sample_bicubic contour_map step_x step_y P image scaled grid = some (g, out)) :
    ∃ s1, rescale_all sample_bicubic image P scaled = some s1 ∧
      sample_all s1 step_x step_y P grid = some g ∧
      march_all contour_map g step_x step_y P s1 = some out ∧
      s1.x = scaled.x ∧ s1.y = scaled.y ∧ out.x = scaled.x ∧ out.y = scaled.y := by
  unfold func_all at h
  cases hr : rescale_all sample_bicubic image P scaled with
  | none => rw [hr] at h; exact Option.noConfusion h
  | some s1 =>
    rw [hr] at h
    simp only [] at h
    obtain ⟨hs, hm⟩ := sample_then_march_some contour_map step_x step_y P s1 grid g out h
    obtain ⟨e1, e2, _⟩ := rescale_all_dims sample_bicubic image P scaled s1 hr
    obtain ⟨d1, d2⟩ := march_all_dims_any contour_map g step_x step_y P s1 out hm
    exact ⟨s1, rfl, hs, hm, e1, e2, d1.trans e1, d2.trans e2⟩

theorem main_written (argc : Nat) (image : ppm_image) (contour_map : List ppm_image)
    (fresh : List ppm_pixel) (junk : Nat → Nat → Nat) (P : Nat)
    (sample_bicubic : ppm_image → Nat → Nat → Nat → Nat → ppm_pixel)
    (r : MainResult) (out : ppm_image)
    (h : main argc image contour_map fresh junk P sample_bicubic = some r)
    (hw : Event.write_ppm out ∈ r.events) :
    4 ≤ argc ∧ ∃ g, func_all sample_bicubic contour_map STEP STEP P image
      (select_scaled image fresh)
      (alloc_grid ((select_scaled image fresh).x / STEP) ((select_scaled image fresh).y / STEP)
        junk) = some (g, out) := by
  unfold main at h
  by_cases ha : argc < 4
  · rw [if_pos ha] at h
    cases h
    simp at hw
  · rw [if_neg ha] at h
    by_cases hP0 : P = 0
    · rw [if_pos hP0] at h
      exact Option.noConfusion h
    rw [if_neg hP0] at h
    simp only [] at h
    cases hf : func_all sample_bicubic contour_map STEP STEP P image
      (select_scaled image fresh)
      (alloc_grid ((select_scaled image fresh).x / STEP) ((select_scaled image fresh).y / STEP)
        junk) with
    | none => rw [hf] at h; exact Option.noConfusion h
    | some res =>
      obtain ⟨g, out1⟩ := res
      rw [hf] at h
      simp only [Option.some.injEq] at h
      subst h
      simp only [List.mem_append, List.mem_cons, List.mem_map, List.mem_singleton,
        Event.write_ppm.injEq, List.not_mem_nil, or_false, false_or, reduceCtorEq,
        and_false, exists_false] at hw
      subst hw
      exact ⟨by omega, g, rfl⟩

theorem main_rescaled (argc : Nat) (image : ppm_image) (contour_map : List ppm_image)
    (fresh : List ppm_pixel) (junk : Nat → Nat → Nat) (P : Nat)
    (sample_bicubic : ppm_image → Nat → Nat → Nat → Nat → ppm_pixel)
    (hargc : 4 ≤ argc) (hP : 1 ≤ P) (hbig : 2048 < image.x ∨ 2048 < image.y)
    (hfresh : fresh.length = 2048 * 2048)
    (hcm : contour_map.length = 16)
    (hcat : ∀ t ∈ contour_map, t.x = 8 ∧ t.y = 8 ∧ t.data.length = 8 * 8) :
    ∃ out, main argc image contour_map fresh junk P sample_bicubic =
        some ⟨0, [Event.read_ppm, Event.init_contour_map]
          ++ (List.range P).map Event.pthread_create
          ++ (List.range P).map Event.pthread_join
          ++ [Event.write_ppm out]⟩ ∧
      out.x = 2048 ∧ out.y = 2048 := by
  have hsel : select_scaled image fresh = ⟨2048, 2048, fresh⟩ := by
    unfold select_scaled RESCALE_X RESCALE_Y
    have : ¬ (image.x ≤ 2048 ∧ image.y ≤ 2048) := by omega
    rw [if_neg this]
  obtain ⟨s1, hr⟩ := rescale_all_isSome sample_bicubic image P ⟨2048, 2048, fresh⟩ hP hfresh
  obtain ⟨e1, e2, e3⟩ := rescale_all_dims sample_bicubic image P _ s1 hr
  simp only at e1 e2 e3
  have hready : SampleReady s1 8 8 (alloc_grid (2048 / 8) (2048 / 8) junk) := by
    refine ⟨by omega, by omega, by rw [e3, e1, e2, hfresh], by omega, ?_, ?_⟩
    · intro i hi
      rw [e1] at hi
      rw [e1, e2]
      have : 2048 / 8 = 256 := by norm_num
      omega
    · rw [alloc_grid_shape, e1, e2]
  obtain ⟨g, out, hrun⟩ := sample_then_march_isSome contour_map 8 P s1 _ hP hready hcm hcat
  obtain ⟨_, hm⟩ := sample_then_march_some contour_map 8 8 P s1 _ g out hrun
  obtain ⟨d1, d2⟩ := march_all_dims_any contour_map g 8 8 P s1 out hm
  refine ⟨out, ?_, d1.trans e1, d2.trans e2⟩
  unfold main
  have ha : ¬ argc < 4 := by omega
  have hP0 : ¬ P = 0 := by omega
  rw [if_neg ha, if_neg hP0]
  simp only [hsel, STEP]
  unfold func_all
  rw [hr]
  simp only []
  rw [hrun]

/-- Claim C15: the buffer used by the workers and written by `main` is the
one selected in lines 191-210: it has 2048 rows and 2048 columns when the source
has `x > 2048` or `y > 2048`, and it is the source image when `x ≤ 2048` and
`y ≤ 2048`; the rescale phase and the march phase keep its dimensions, so every
buffer that `main` writes has the dimensions of the selected buffer; and for a
source with `x > 2048` or `y > 2048`, at least one worker and a catalog of 16
tiles of 8 by 8 pixels, `main` completes with status 0 and writes a 2048 by 2048
buffer. -/
theorem output_dimensions (argc : Nat) (image : ppm_image) (contour_map : List ppm_image)
    (fresh : List ppm_pixel) (junk : Nat → Nat → Nat) (P : Nat)
    (sample_bicubic : ppm_image → Nat → Nat → Nat → Nat → ppm_pixel) :
    (2048 < image.x ∨ 2048 < image.y →
      (select_scaled image fresh).x = 2048 ∧ (select_scaled image fresh).y = 2048) ∧
    (image.x ≤ 2048 ∧ image.y ≤ 2048 →
      (select_scaled image fresh).x = image.x ∧ (select_scaled image fresh).y = image.y) ∧
    (∀ r out, main argc image contour_map fresh junk P sample_bicubic = some r →
      Event.write_ppm out ∈ r.events →
      ∃ s1 g, rescale_all sample_bicubic image P (select_scaled image fresh) = some s1 ∧
        s1.x = (select_scaled image fresh).x ∧ s1.y = (select_scaled image fresh).y ∧
        march_all contour_map g STEP STEP P s1 = some out ∧
        out.x = (select_scaled image fresh).x ∧ out.y = (select_scaled image fresh).y) ∧
    (4 ≤ argc → 1 ≤ P → (2048 < image.x ∨ 2048 < image.y) →
      fresh.length = 2048 * 2048 → contour_map.length = 16 →
      (∀ t ∈ contour_map, t.x = 8 ∧ t.y = 8 ∧ t.data.length = 8 * 8) →
      ∃ out, main argc image contour_map fresh junk P sample_bicubic =
          some ⟨0, [Event.read_ppm, Event.init_contour_map]
            ++ (List.range P).map Event.pthread_create
            ++ (List.range P).map Event.pthread_join
            ++ [Event.write_ppm out]⟩ ∧
        out.x = 2048 ∧ out.y = 2048) := by
  refine ⟨?_, ?_, ?_, ?_⟩
  · intro hbig
    unfold select_scaled RESCALE_X RESCALE_Y
    have : ¬ (image.x ≤ 2048 ∧ image.y ≤ 2048) := by omega
    rw [if_neg this]
    exact ⟨rfl, rfl⟩
  · intro hfit
    unfold select_scaled RESCALE_X RESCALE_Y
    rw [if_pos hfit]
    exact ⟨rfl, rfl⟩
  · intro r out h hw
    obtain ⟨_, g, hf⟩ := main_written argc image contour_map fresh junk P sample_bicubic r out
      h hw
    obtain ⟨s1, h1, _, h3, e1, e2, d1, d2⟩ := func_all_dims sample_bicubic contour_map STEP STEP
      P image _ _ g out hf
    exact ⟨s1, g, h1, e1, e2, h3, d1, d2⟩
  · intro hargc hP hbig hfresh hcm hcat
    exact main_rescaled argc image contour_map fresh junk P sample_bicubic hargc hP hbig hfresh
      hcm hcat

/-- Witness of `output_dimensions`: the 4096 by 4096 source with two workers. -/
theorem output_dimensions_witness :
    ∃ out, main 4 image_4096 (List.replicate 16 tile_8x8)
        (List.replicate (2048 * 2048) black) (fun _ _ => 7) 2 (fun _ _ _ _ _ => white) =
        some ⟨0, [Event.read_ppm, Event.init_contour_map]
          ++ (List.range 2).map Event.pthread_create
          ++ (List.range 2).map Event.pthread_join
          ++ [Event.write_ppm out]⟩ ∧
      out.x = 2048 ∧ out.y = 2048 :=
  (output_dimensions 4 image_4096 (List.replicate 16 tile_8x8)
    (List.replicate (2048 * 2048) black) (fun _ _ => 7) 2 (fun _ _ _ _ _ => white)).2.2.2
    (by decide) (by decide) (Or.inl (by decide)) (List.length_replicate _ _)
    (List.length_replicate _ _)
    (by
      intro t ht
      have : t = tile_8x8 := List.eq_of_mem_replicate ht
      subst this
      exact ⟨rfl, rfl, List.length_replicate _ _⟩)

/-! ## The usage error -/

/-- Claim C16: whenever `main` is invoked with `argc < 4` it returns the status
1, which is not zero, and its only action is printing the usage message: it
reads no image, loads no tile catalog, creates no worker and writes no
output. -/
theorem usage_error (argc : Nat) (image : ppm_image) (contour_map : List ppm_image)
    (fresh : List ppm_pixel) (junk : Nat → Nat → Nat) (P : Nat)
    (sample_bicubic : ppm_image → Nat → Nat → Nat → Nat → ppm_pixel) (h : argc < 4) :
    ∃ r, main argc image contour_map fresh junk P sample_bicubic = some r ∧
      r.status = 1 ∧ r.status ≠ 0 ∧ r.events = [Event.print_usage] ∧
      Event.read_ppm ∉ r.events ∧ Event.init_contour_map ∉ r.events ∧
      (∀ i, Event.pthread_create i ∉ r.events) ∧ (∀ i, Event.pthread_join i ∉ r.events) ∧
      (∀ out, Event.write_ppm out ∉ r.events) := by
  refine ⟨⟨1, [Event.print_usage]⟩, ?_, rfl, by decide, rfl, ?_, ?_, ?_, ?_, ?_⟩
  · unfold main
    rw [if_pos h]
  · simp
  · simp
  · intro i; simp
  · intro i; simp
  · intro out; simp

/-- Witness of `usage_error`: two user arguments (`argc = 3`). -/
theorem usage_error_witness :
    ∃ r, main 3 image_1x1 (List.replicate 16 image_1x1) [] (fun _ _ => 7) 2
        (fun _ _ _ _ _ => white) = some r ∧
      r.status = 1 ∧ r.status ≠ 0 ∧ r.events = [Event.print_usage] ∧
      Event.read_ppm ∉ r.events ∧ Event.init_contour_map ∉ r.events ∧
      (∀ i, Event.pthread_create i ∉ r.events) ∧ (∀ i, Event.pthread_join i ∉ r.events) ∧
      (∀ out, Event.write_ppm out ∉ r.events) :=
  usage_error 3 image_1x1 (List.replicate 16 image_1x1) [] (fun _ _ => 7) 2
    (fun _ _ _ _ _ => white) (by decide)

/-! ## The range bounds in double precision -/

theorem log2_floor_aux_eq (fuel n : Nat) (h : n ≤ fuel) :
    log2_floor_aux fuel n = Nat.log2 n := by
  induction fuel generalizing n with
  | zero =>
    have : n = 0 := by omega
    subst this
    simp [log2_floor_aux, Nat.log2_zero]
  | succ fuel ih =>
    rw [log2_floor_aux, Nat.log2]
    by_cases h2 : n < 2
    · have : ¬ n ≥ 2 := by omega
      simp [h2, this]
    · have : n ≥ 2 := by omega
      simp only [h2, if_false, this, if_true]
      rw [ih (n / 2) (by omega)]

theorem log2_floor_eq (n : Nat) : log2_floor n = Nat.log2 n :=
  log2_floor_aux_eq n n (le_refl n)

theorem round_half_even_ge (a b c : Nat) (hb : 0 < b) (h : c * b ≤ a) :
    c ≤ round_half_even a b := by
  have hq : c ≤ a / b := (Nat.le_div_iff_mul_le hb).mpr h
  unfold round_half_even
  simp only []
  split
  · exact hq
  · split
    · omega
    · split <;> omega

theorem round_half_even_err (a b : Nat) (hb : 0 < b) :
    2 * (b * round_half_even a b) ≤ 2 * a + b := by
  have hdm : b * (a / b) + a % b = a := Nat.div_add_mod a b
  have hr : a % b < b := Nat.mod_lt a hb
  have hsucc : b * (a / b + 1) = b * (a / b) + b := by ring
  unfold round_half_even
  simp only []
  split
  · omega
  · split
    · rw [hsucc]; omega
    · split
      · omega
      · rw [hsucc]; omega

theorem round_half_even_one (m : Nat) : round_half_even m 1 = m := by
  unfold round_half_even
  simp [Nat.mod_one]

theorem double_of_nat_exact (m : Nat) (h : m < 2 ^ 53) : double_of_nat m = m := by
  have hs : Nat.log2 m - 52 = 0 := by
    rcases Nat.eq_zero_or_pos m with h0 | hpos
    · subst h0
      simp [Nat.log2_zero]
    · have := (Nat.log2_lt (by omega : m ≠ 0)).mpr h
      omega
  unfold double_of_nat
  simp only [log2_floor_eq, hs, pow_zero, round_half_even_one, Nat.mul_one]

theorem double_scale_ge (x P : Nat) :
    2 ^ (52 + Nat.log2 P) ≤
      2 ^ (if x * 2 ^ Nat.log2 P < P * 2 ^ Nat.log2 x then 53 + Nat.log2 P
        else 52 + Nat.log2 P) := by
  apply Nat.pow_le_pow_right (by omega)
  split <;> omega

theorem double_div_trunc_lt (x P c : Nat) (hP : 0 < P) (hx : x < 2 ^ 54) (hc : 0 < c)
    (hgap : x + 2 ≤ P * c) : double_div_trunc x P < c := by
  unfold double_div_trunc
  by_cases hx0 : x = 0
  · rw [if_pos hx0]
    exact hc
  · rw [if_neg hx0]
    simp only [log2_floor_eq]
    generalize ha : (if x * 2 ^ Nat.log2 P < P * 2 ^ Nat.log2 x then 53 + Nat.log2 P
      else 52 + Nat.log2 P) = a
    have hA : 2 ^ (52 + Nat.log2 P) ≤ 2 ^ a := by
      rw [← ha]
      exact double_scale_ge x P
    have hb : Nat.log2 x < 54 := (Nat.log2_lt hx0).mpr hx
    have hPlt : P < 2 ^ (Nat.log2 P + 1) := Nat.lt_log2_self
    have hpowb : 2 ^ Nat.log2 x ≤ 2 ^ 53 := Nat.pow_le_pow_right (by omega) (by omega)
    have hbpos : 0 < 2 ^ Nat.log2 x := pow_pos (by norm_num) _
    have hapos : 0 < 2 ^ a := pow_pos (by norm_num) _
    have herr := round_half_even_err (x * 2 ^ a) (P * 2 ^ Nat.log2 x) (Nat.mul_pos hP hbpos)
    -- P * 2^b < 4 * 2^a
    have hscale : P * 2 ^ Nat.log2 x < 4 * 2 ^ a := by
      have h1 : P * 2 ^ Nat.log2 x < 2 ^ (Nat.log2 P + 1) * 2 ^ 53 :=
        Nat.mul_lt_mul_of_lt_of_le hPlt hpowb (by norm_num)
      have h2 : 2 ^ (Nat.log2 P + 1) * 2 ^ 53 = 4 * 2 ^ (52 + Nat.log2 P) := by
        rw [show (4 : Nat) = 2 ^ 2 by norm_num, ← pow_add, ← pow_add]
        congr 1
        omega
      omega
    have hgap2 : (x + 2) * 2 ^ a ≤ P * c * 2 ^ a := Nat.mul_le_mul_right _ hgap
    have hexp : (x + 2) * 2 ^ a = x * 2 ^ a + 2 * 2 ^ a := by ring
    apply Nat.div_lt_of_lt_mul
    generalize round_half_even (x * 2 ^ a) (P * 2 ^ Nat.log2 x) = m at herr ⊢
    have hkey : 2 * (P * (m * 2 ^ Nat.log2 x)) < 2 * (P * (2 ^ a * c)) := by
      have e1 : 2 * (P * (m * 2 ^ Nat.log2 x)) = 2 * (P * 2 ^ Nat.log2 x * m) := by ring
      have e2 : 2 * (P * (2 ^ a * c)) = 2 * (P * c * 2 ^ a) := by ring
      rw [e1, e2]
      omega
    have := Nat.lt_of_mul_lt_mul_left (Nat.lt_of_mul_lt_mul_left hkey)
    exact this

theorem double_div_trunc_exact (x P : Nat) (hx : x < 2 ^ 53) (hP : 1 ≤ P) :
    double_div_trunc x P = x / P := by
  unfold double_div_trunc
  by_cases hx0 : x = 0
  · rw [if_pos hx0, hx0, Nat.zero_div]
  · rw [if_neg hx0]
    simp only [log2_floor_eq]
    generalize ha : (if x * 2 ^ Nat.log2 P < P * 2 ^ Nat.log2 x then 53 + Nat.log2 P
      else 52 + Nat.log2 P) = a
    have ha52 : 52 + Nat.log2 P ≤ a := by
      rw [← ha]
      split <;> omega
    have hb : Nat.log2 x < 53 := (Nat.log2_lt hx0).mpr hx
    have hPlt : P < 2 ^ (Nat.log2 P + 1) := Nat.lt_log2_self
    have hbpos : 0 < 2 ^ Nat.log2 x := pow_pos (by norm_num) _
    have hapos : 0 < 2 ^ a := pow_pos (by norm_num) _
    have hD : 0 < P * 2 ^ Nat.log2 x := Nat.mul_pos hP hbpos
    -- 2^a = 2^k * 2^b
    obtain ⟨k, hk⟩ : ∃ k, a = k + Nat.log2 x := ⟨a - Nat.log2 x, by omega⟩
    have hsplit : 2 ^ a = 2 ^ k * 2 ^ Nat.log2 x := by rw [hk, pow_add]
    have hdm : P * (x / P) + x % P = x := Nat.div_add_mod x P
    have hr : x % P < P := Nat.mod_lt x hP
    have herr := round_half_even_err (x * 2 ^ a) (P * 2 ^ Nat.log2 x) hD
    have hge0 := round_half_even_ge (x * 2 ^ a) (P * 2 ^ Nat.log2 x) (x / P * 2 ^ k) hD
    generalize round_half_even (x * 2 ^ a) (P * 2 ^ Nat.log2 x) = m at herr hge0 ⊢
    apply Nat.le_antisymm
    · -- upper bound: m * 2^b < (x / P + 1) * 2^a
      apply Nat.lt_succ_iff.mp
      apply Nat.div_lt_of_lt_mul
      have hscale : P * 2 ^ Nat.log2 x < 2 * 2 ^ a := by
        have hpowb : 2 ^ Nat.log2 x ≤ 2 ^ 52 := Nat.pow_le_pow_right (by omega) (by omega)
        have h1 : P * 2 ^ Nat.log2 x < 2 ^ (Nat.log2 P + 1) * 2 ^ 52 :=
          Nat.mul_lt_mul_of_lt_of_le hPlt hpowb (by norm_num)
        have h2 : 2 ^ (Nat.log2 P + 1) * 2 ^ 52 = 2 * 2 ^ (52 + Nat.log2 P) := by
          rw [show (2 : Nat) * 2 ^ (52 + Nat.log2 P) = 2 ^ 1 * 2 ^ (52 + Nat.log2 P) by norm_num,
            ← pow_add, ← pow_add]
          congr 1
          omega
        have h3 : 2 ^ (52 + Nat.log2 P) ≤ 2 ^ a := Nat.pow_le_pow_right (by omega) ha52
        omega
      have hgap : (x + 1) * 2 ^ a ≤ P * (x / P + 1) * 2 ^ a := by
        apply Nat.mul_le_mul_right
        have : P * (x / P + 1) = P * (x / P) + P := by ring
        omega
      have hexp : (x + 1) * 2 ^ a = x * 2 ^ a + 2 ^ a := by ring
      have hkey : 2 * (P * (m * 2 ^ Nat.log2 x)) < 2 * (P * (2 ^ a * (x / P).succ)) := by
        have e1 : 2 * (P * (m * 2 ^ Nat.log2 x)) = 2 * (P * 2 ^ Nat.log2 x * m) := by ring
        have e2 : 2 * (P * (2 ^ a * (x / P).succ)) = 2 * (P * (x / P + 1) * 2 ^ a) := by
          rw [Nat.succ_eq_add_one]; ring
        rw [e1, e2]
        omega
      exact Nat.lt_of_mul_lt_mul_left (Nat.lt_of_mul_lt_mul_left hkey)
    · -- lower bound: (x / P) * 2^a ≤ m * 2^b
      apply (Nat.le_div_iff_mul_le hapos).mpr
      have hge : x / P * 2 ^ k ≤ m := by
        apply hge0
        have e1 : x / P * 2 ^ k * (P * 2 ^ Nat.log2 x) = P * (x / P) * 2 ^ a := by
          rw [hsplit]; ring
        rw [e1]
        apply Nat.mul_le_mul_right
        omega
      calc x / P * 2 ^ a = x / P * 2 ^ k * 2 ^ Nat.log2 x := by rw [hsplit]; ring
        _ ≤ m * 2 ^ Nat.log2 x := Nat.mul_le_mul_right _ hge

theorem double_of_nat_le_succ (m : Nat) (h : m < 2 ^ 54) : double_of_nat m ≤ m + 1 := by
  have hs : Nat.log2 m - 52 ≤ 1 := by
    rcases Nat.eq_zero_or_pos m with h0 | hpos
    · subst h0
      simp [Nat.log2_zero]
    · have := (Nat.log2_lt (by omega : m ≠ 0)).mpr h
      omega
  unfold double_of_nat
  simp only [log2_floor_eq]
  generalize Nat.log2 m - 52 = s at hs
  interval_cases s
  · simp only [pow_zero, round_half_even_one, Nat.mul_one]
    omega
  · have := round_half_even_err m 2 (by omega)
    simp only [pow_one]
    omega

theorem min_le_left_arg (a b : Nat) : min a b ≤ a := by
  unfold min
  split <;> omega

theorem range_double_exact (id N P : Nat) (hP : 1 ≤ P) (hid : id < P)
    (hb : P * N < 2 ^ 53) :
    range_start_double id N P = range_start id N P ∧
      range_end_double id N P = range_end id N P := by
  have h1 : id * N < 2 ^ 53 :=
    lt_of_le_of_lt (Nat.mul_le_mul_right N (by omega : id ≤ P)) hb
  have h2 : (id + 1) * N < 2 ^ 53 :=
    lt_of_le_of_lt (Nat.mul_le_mul_right N (by omega : id + 1 ≤ P)) hb
  unfold range_start_double range_end_double range_start range_end
  rw [double_of_nat_exact _ h1, double_of_nat_exact _ h2,
    double_div_trunc_exact _ P h1 hP, double_div_trunc_exact _ P h2 hP]
  exact ⟨rfl, rfl⟩

theorem range_double_exact_program (id N P : Nat) (hP : 1 ≤ P) (hid : id < P)
    (hN : N ≤ 2048) (hint : P < 2 ^ 31) :
    range_start_double id N P = range_start id N P ∧
      range_end_double id N P = range_end id N P := by
  apply range_double_exact id N P hP hid
  have h1 : P * N ≤ P * 2048 := Nat.mul_le_mul_left P hN
  have h2 : (2 : Nat) ^ 53 = 2 ^ 31 * 4194304 := by norm_num
  have h3 : (2 : Nat) ^ 31 = 2147483648 := by norm_num
  omega

theorem double_last_end :
    double_div_trunc (double_of_nat (2147482667 * 4194307)) 2147482667 = 4194306 := by
  decide

/-- Claim C2 as stated fails on the double-precision computation of the source:
for the domain size `N = 4194307` and `P = 2147482667` workers (both `int`
values), the index `4194306 < N` lies in the range of no worker id below `P`.
The product `P * N` exceeds `2^53` and is rounded down, so the last worker ends
at `4194306`. -/
theorem range_coverage_counterexample :
    (4194306 : Nat) < 4194307 ∧
    range_end_double (2147482667 - 1) 4194307 2147482667 = 4194306 ∧
    ¬ ∃ id, id < 2147482667 ∧ range_start_double id 4194307 2147482667 ≤ 4194306 ∧
      4194306 < range_end_double id 4194307 2147482667 := by
  have hlast : range_end_double (2147482667 - 1) 4194307 2147482667 = 4194306 := by
    unfold range_end_double
    have : (2147482667 - 1 + 1 : Nat) = 2147482667 := by norm_num
    rw [this, double_last_end]
    decide
  refine ⟨by norm_num, hlast, ?_⟩
  rintro ⟨id, hid, _, h2⟩
  have hle : range_end_double id 4194307 2147482667 ≤ 4194306 := by
    unfold range_end_double
    refine le_trans (min_le_left_arg _ _) ?_
    rcases Nat.lt_or_ge (id + 1) 2147482667 with hlt | hge
    · have hm : (id + 1) * 4194307 < 2 ^ 54 := by norm_num; omega
      have hx := double_of_nat_le_succ _ hm
      have := double_div_trunc_lt (double_of_nat ((id + 1) * 4194307)) 2147482667 4194307
        (by norm_num) (by norm_num; omega) (by norm_num) (by omega)
      omega
    · have : id + 1 = 2147482667 := by omega
      rw [this, double_last_end]
  omega

/-- Claim C2, amended: for every domain size `N` and worker count `P ≥ 1` with
`P * N < 2^53`, the ranges `[start(id), end(id))` that the source computes in
double precision, taken over the worker ids below `P`, cover `[0, N)` exactly
once: every index `n < N` lies in the range of exactly one worker id, and no
range contains an index outside `[0, N)`. -/
theorem range_coverage (N P : Nat) (hP : 1 ≤ P) (hb : P * N < 2 ^ 53) :
    (∀ n, n < N →
      ∃! id, id < P ∧ range_start_double id N P ≤ n ∧ n < range_end_double id N P) ∧
    (∀ id n, range_start_double id N P ≤ n → n < range_end_double id N P → n < N) := by
  constructor
  · intro n hn
    obtain ⟨id, ⟨hid, h1, h2⟩, huniq⟩ := (range_cover_exactly_once N P hP).1 n hn
    obtain ⟨e1, e2⟩ := range_double_exact id N P hP hid hb
    refine ⟨id, ⟨hid, by rw [e1]; exact h1, by rw [e2]; exact h2⟩, ?_⟩
    rintro id1 ⟨hid1, h3, h4⟩
    obtain ⟨f1, f2⟩ := range_double_exact id1 N P hP hid1 hb
    exact huniq id1 ⟨hid1, by rw [← f1]; exact h3, by rw [← f2]; exact h4⟩
  · intro id n _ h2
    unfold range_end_double at h2
    exact lt_of_lt_of_le h2 (min_le_right_arg _ _)

/-- Witness of `range_coverage`: 2048 indices split among seven workers. -/
theorem range_coverage_witness :
    (∀ n, n < 2048 →
      ∃! id, id < 7 ∧ range_start_double id 2048 7 ≤ n ∧ n < range_end_double id 2048 7) ∧
    (∀ id n, range_start_double id 2048 7 ≤ n → n < range_end_double id 2048 7 → n < 2048) :=
  range_coverage 2048 7 (by norm_num) (by norm_num)

end MarchingSquares
